import Mathlib

/-!
Verification development for the cleaning/annotation engine of
`scripts/util/clean_target_pdb.py` (RFantibody target-PDB preprocessor).

The Python source is shallowly embedded: one text line is a `List Char`
(no trailing newline, as produced by splitting a file on newlines);
Python string slicing `s[a:b]` is `pySlice`; Python `int(...)` / `float(...)`
applied to fixed-column fields are the `Option`-returning parsers `pyInt` /
`pyFloat` (a raised `ValueError` is `none`); rational arithmetic (`ℚ`) stands
for Python floats.  The only systematic transformation is that squared
Euclidean distances are carried where the source carries
`math.sqrt`-distances: every use the source makes of a distance value is a
comparison (`d < best_d`, `d <= ligand_cutoff`, sort tie-break) or a decimal
rendering, and `Real.sqrt` is strictly monotone on nonnegatives, so the
squared carrier preserves all comparisons exactly (the sentinel `1e9`
becomes `1e18`); renderings recover the root via integer square roots.
-/

set_option maxRecDepth 100000

namespace CleanTarget

/-- One text line of the PDB file, without its trailing newline. -/
abbrev Line := List Char

/-- Python `str.rstrip` with argument `"\n"`: remove trailing newline characters. -/
def rstripNl (l : Line) : Line := (l.reverse.dropWhile (fun c => c = '\n')).reverse

/-- The `_safe_pad` helper: strip trailing newlines, then right-pad with spaces to width `n`
(`max 0 (n - len)` is natural subtraction). -/
def safePad (l : Line) (n : Nat) : Line :=
  let s := rstripNl l
  s ++ List.replicate (n - s.length) ' '

/-- Python slicing `l[a:b]` for `a ≤ b` on a list of characters. -/
def pySlice (l : Line) (a b : Nat) : Line := (l.drop a).take (b - a)

/-- Python indexing `l[i]`; every use in the source is at an index below the
(padded) length, so the default `' '` is never observed there. -/
def pyAt (l : Line) (i : Nat) : Char := l.getD i ' '

/-- Python `str.strip()`: drop whitespace from both ends. -/
def pyStrip (l : Line) : Line :=
  ((l.dropWhile Char.isWhitespace).reverse.dropWhile Char.isWhitespace).reverse

/-- Python `str.lstrip()`: drop leading whitespace. -/
def lstripWs (l : Line) : Line := l.dropWhile Char.isWhitespace

/-- Python `str.rstrip()`: drop trailing whitespace. -/
def rstripWs (l : Line) : Line := (l.reverse.dropWhile Char.isWhitespace).reverse

/-- Numeric value of a nonempty all-digit character list (helper for `pyInt`). -/
def digitsVal (l : List Char) : Option Nat :=
  if l = [] then none
  else if l.all Char.isDigit then some (l.foldl (fun acc c => 10 * acc + (c.toNat - 48)) 0)
  else none

/-- Sign handling of Python `int(...)` after whitespace stripping. -/
def pyIntCore : List Char → Option Int
  | '+' :: rest => (digitsVal rest).map Int.ofNat
  | '-' :: rest => (digitsVal rest).map (fun n => -(n : Int))
  | l => (digitsVal l).map Int.ofNat

/-- Python `int(s)` on a field string: strips surrounding whitespace, accepts an
optional sign followed by digits, and fails (`ValueError` ↦ `none`) otherwise. -/
def pyInt (l : Line) : Option Int := pyIntCore (pyStrip l)

/-- Value of an (integer-part, fraction-part) digit pair as an exact rational. -/
def mantissaVal (ip fp : List Char) : ℚ :=
  (((ip.foldl (fun acc c => 10 * acc + (c.toNat - 48)) 0 : Nat) : ℚ))
    + ((fp.foldl (fun acc c => 10 * acc + (c.toNat - 48)) 0 : Nat) : ℚ) / (10 : ℚ) ^ fp.length

/-- Exponent suffix of Python `float(...)`: empty, or `e`/`E` with signed digits. -/
def pyFloatExp (base : ℚ) : List Char → Option ℚ
  | [] => some base
  | c :: rest =>
    if c = 'e' ∨ c = 'E' then
      match pyIntCore rest with
      | some e => some (base * (10 : ℚ) ^ e)
      | none => none
    else none

/-- Unsigned mantissa (digits, with at most one dot, at least one digit) plus
optional exponent of Python `float(...)`. -/
def pyFloatUnsigned (l : List Char) : Option ℚ :=
  let ip := l.takeWhile Char.isDigit
  let rest := l.dropWhile Char.isDigit
  match rest with
  | [] => if ip = [] then none else some (mantissaVal ip [])
  | '.' :: rest2 =>
    let fp := rest2.takeWhile Char.isDigit
    let rest3 := rest2.dropWhile Char.isDigit
    if ip = [] ∧ fp = [] then none
    else pyFloatExp (mantissaVal ip fp) rest3
  | _ => if ip = [] then none else pyFloatExp (mantissaVal ip []) rest

/-- Python `float(s)` on a coordinate field: strips whitespace, accepts an optional
sign, decimal digits with an optional dot and an optional exponent, as an exact
rational; anything else fails (special forms such as `inf`/`nan` are not modelled,
they do not occur in fixed-column coordinate fields). -/
def pyFloat (l : Line) : Option ℚ :=
  match pyStrip l with
  | '+' :: rest => pyFloatUnsigned rest
  | '-' :: rest => (pyFloatUnsigned rest).map Neg.neg
  | s => pyFloatUnsigned s

/-- A parsed atom record, the dictionary built by `_parse_atom_line`.
Chain identifiers are single characters (`line[21].strip() or " "` in the
source); coordinates are exact rationals standing for the parsed floats. -/
structure Atom where
  rcd : Line
  atom_name : Line
  altloc : Char
  resn : Line
  chain : Char
  resseq : Int
  icode : Char
  x : ℚ
  y : ℚ
  z : ℚ
  element : Line
  raw : Line
deriving DecidableEq, Repr

/-- The chain field of an atom line: `line[21].strip() or " "`. -/
def chainOfLine (l : Line) : Char :=
  match pyStrip [pyAt l 21] with
  | [] => ' '
  | c :: _ => c

/-- The `_parse_atom_line` function: pad the line to width 80, require an
`ATOM  `/`HETATM` record type, extract the fixed-column fields, and return
`none` (the source returns `None`, and converts `ValueError` to `None`) when
the residue-number or coordinate fields do not parse as numbers. -/
def parseAtomLine (line0 : Line) : Option Atom :=
  let line := safePad line0 80
  let rcd := pySlice line 0 6
  if rcd = "ATOM  ".data ∨ rcd = "HETATM".data then
    match pyInt (pySlice line 22 26) with
    | none => none
    | some resseq =>
      match pyFloat (pySlice line 30 38), pyFloat (pySlice line 38 46),
            pyFloat (pySlice line 46 54) with
      | some x, some y, some z =>
        some { rcd := rcd
               atom_name := pyStrip (pySlice line 12 16)
               altloc := pyAt line 16
               resn := pyStrip (pySlice line 17 20)
               chain := chainOfLine line
               resseq := resseq
               icode := pyAt line 26
               x := x, y := y, z := z
               element := if 78 ≤ line.length then pyStrip (pySlice line 76 78) else []
               raw := rstripNl line }
      | _, _, _ => none
  else none

/-- The module-level `WATER_RESNAMES` set of water residue names. -/
def WATER_RESNAMES : List Line := ["HOH".data, "WAT".data, "H2O".data, "DOD".data]

/-- The `accept_altloc` closure: keep a record whose alternate-location code is
blank or equals the configured keep code (the source compares the one-character
altloc against the `keep_altloc` string, modelled as a character). -/
def accept_altloc (keep : Char) (al : Char) : Bool := al = ' ' || al = keep

/-- The `is_h` closure: an atom is treated as hydrogen when its (stripped,
uppercased) element symbol equals `H`, or otherwise when its atom name starts
with `H`. -/
def is_h (a : Atom) : Bool :=
  (a.element.map Char.toUpper = ['H']) || (a.atom_name.take 1 = ['H'])

/-- Setting `raw[16]` to a blank: `raw[:16] + " " + raw[17:]`, the altloc
normalisation applied to kept protein records. -/
def blankAltloc (l : Line) : Line := l.take 16 ++ ' ' :: l.drop 17

/-- Configuration of the reading pass (the relevant parameters of
`clean_pdb_for_rfantibody`): chain allow-set, ligand-name allow-set,
altloc keep code, hydrogen dropping. -/
structure ReadCfg where
  chains : Option (List Char)
  ligands : Option (List Line)
  keep_altloc : Char
  drop_h : Bool
deriving DecidableEq, Repr

/-- State accumulated by pass 1 of `clean_pdb_for_rfantibody`: original REMARK
lines, LINK lines, retained protein atoms and retained ligand atoms. -/
structure ReadState where
  remarks : List Line
  links : List Line
  protein : List Atom
  ligand : List Atom
deriving DecidableEq, Repr

/-- One step of the pass-1 loop for a line that is not a model marker, a remark
or a link: parse it and route it through the altloc / hydrogen / chain / water /
ligand filters, extending the state accordingly. -/
def readAtomStep (cfg : ReadCfg) (st : ReadState) (raw : Line) : ReadState :=
  match parseAtomLine raw with
  | none => st
  | some p =>
    if accept_altloc cfg.keep_altloc p.altloc = false then st
    else if cfg.drop_h && is_h p then st
    else if p.rcd = "ATOM  ".data then
      if (match cfg.chains with
          | some cs => decide (p.chain ∈ cs)
          | none => true) then
        { st with protein := st.protein ++ [{ p with raw := blankAltloc p.raw }] }
      else st
    else if p.rcd = "HETATM".data then
      if p.resn ∈ WATER_RESNAMES then st
      else if (match cfg.ligands with
               | some ls => decide (p.resn ∈ ls)
               | none => true) then
        { st with ligand := st.ligand ++ [p] }
      else st
    else st

/-- Pass 1 of `clean_pdb_for_rfantibody`: iterate over the input lines keeping
REMARKs, collecting LINKs, and collecting filtered protein/ligand atoms.  A
`MODEL` record only toggles the `seen_model` flag and is otherwise skipped
(a second one is skipped the same way); the first `ENDMDL` stops reading. -/
def readGo (cfg : ReadCfg) : List Line → Bool → ReadState → ReadState
  | [], _, st => st
  | raw :: rest, seen, st =>
    let rcd := raw.take 6
    if "MODEL".data.isPrefixOf rcd then readGo cfg rest true st
    else if "ENDMDL".data.isPrefixOf rcd then st
    else if rcd = "REMARK".data then
      readGo cfg rest seen { st with remarks := st.remarks ++ [rstripNl raw] }
    else if rcd = "LINK  ".data then
      readGo cfg rest seen { st with links := st.links ++ [rstripNl raw] }
    else readGo cfg rest seen (readAtomStep cfg st raw)

/-- The whole reading pass, started with `seen_model = False` and empty state. -/
def readPass (cfg : ReadCfg) (lines : List Line) : ReadState :=
  readGo cfg lines false ⟨[], [], [], []⟩

/-- Protein residue identity used by the occlusion bookkeeping:
`(chain, resseq, icode, resn)`. -/
abbrev ResKey := Char × Int × Char × Line

/-- Ligand residue identity: `(resn, chain, resseq, icode)`. -/
abbrev LigKey := Line × Char × Int × Char

/-- The residue key of a protein atom. -/
def ridOf (a : Atom) : ResKey := (a.chain, a.resseq, a.icode, a.resn)

/-- The ligand residue key of a ligand atom. -/
def lridOf (a : Atom) : LigKey := (a.resn, a.chain, a.resseq, a.icode)

/-- Squared sentinel: the source initialises the best distance to `1e9`; on the
squared-distance carrier this is `1e18`. -/
def SENT2 : ℚ := 10 ^ 18

/-- Sentinel ligand key `("", "", -1, "")`; its empty residue name is the only
observable part (the `lresn` truthiness test), the character slots stand in for
the empty-string placeholders. -/
def sentLig : LigKey := ([], ' ', -1, ' ')

/-- Squared Euclidean distance `dx*dx + dy*dy + dz*dz` between two points. -/
def dist2 (ax ay az lx ly lz : ℚ) : ℚ :=
  (ax - lx) * (ax - lx) + (ay - ly) * (ay - ly) + (az - lz) * (az - lz)

/-- The pre-packed `lig_xyz` list: coordinates paired with ligand residue identity. -/
def ligXyz (ligand_atoms : List Atom) : List (ℚ × ℚ × ℚ × LigKey) :=
  ligand_atoms.map (fun a => (a.x, a.y, a.z, lridOf a))

/-- The inner loop over ligand atoms for one protein atom: strict-less update of
the running (squared) best distance and its ligand residue. -/
def innerFold (ax ay az : ℚ) : List (ℚ × ℚ × ℚ × LigKey) → ℚ × LigKey → ℚ × LigKey
  | [], best => best
  | (lx, ly, lz, lrid) :: rest, (bd, bl) =>
    let d := dist2 ax ay az lx ly lz
    innerFold ax ay az rest (if d < bd then (d, lrid) else (bd, bl))

/-- Lookup in an insertion-ordered association list (Python `dict.get`). -/
def assocFind {α β : Type} [DecidableEq α] (m : List (α × β)) (k : α) : Option β :=
  (m.find? (fun p => decide (p.1 = k))).map Prod.snd

/-- Update of an insertion-ordered association list (Python `dict.__setitem__`):
replace in place when the key exists, append otherwise. -/
def assocSet {α β : Type} [DecidableEq α] : List (α × β) → α → β → List (α × β)
  | [], k, v => [(k, v)]
  | (k0, v0) :: m, k, v =>
    if k0 = k then (k0, v) :: m else (k0, v0) :: assocSet m k v

/-- One step of the `res_best` outer loop: fetch the running best for this
atom's residue (sentinel when absent), fold over all ligand atoms, store back. -/
def resBestStep (lig : List (ℚ × ℚ × ℚ × LigKey)) (m : List (ResKey × (ℚ × LigKey)))
    (a : Atom) : List (ResKey × (ℚ × LigKey)) :=
  let rid := ridOf a
  let best0 := (assocFind m rid).getD (SENT2, sentLig)
  assocSet m rid (innerFold a.x a.y a.z lig best0)

/-- The `res_best` dictionary: per-residue minimum (squared) distance to the
ligand stream together with the ligand residue that produced it, in residue
first-encounter order. -/
def resBest (protein : List Atom) (lig : List (ℚ × ℚ × ℚ × LigKey)) :
    List (ResKey × (ℚ × LigKey)) :=
  protein.foldl (resBestStep lig) []

/-- The guard `d <= ligand_cutoff and lresn` of the contact loop, on the squared
carrier: `√d2 ≤ cutoff` is `0 ≤ cutoff ∧ d2 ≤ cutoff²`, and `lresn` truthiness
is nonemptiness of the ligand residue name. -/
def contactKeep (cutoff : ℚ) (item : ResKey × (ℚ × LigKey)) : Bool :=
  decide (0 ≤ cutoff) && decide (item.2.1 ≤ cutoff * cutoff) && !(item.2.2.1.isEmpty)

/-- The unsorted `contact_items` list: entries of `res_best` whose distance is
within the cutoff and whose ligand residue name is nonempty. -/
def contactItems (rb : List (ResKey × (ℚ × LigKey))) (cutoff : ℚ) :
    List (ResKey × (ℚ × LigKey)) :=
  rb.filter (contactKeep cutoff)

/-- The `_chain_sort_key` helper: the blank chain sorts after all others
(`(1, "")` against `(0, ch)`; the second slot of the blank case is a placeholder
that is never compared against a distinct value). -/
def chainSortKey (c : Char) : Nat × Char := if c = ' ' then (1, ' ') else (0, c)

/-- Lexicographic comparison of the contact sort keys
`(chain_sort_key chain, resseq, icode, d)`; on the squared carrier the distance
slot compares identically.  Reflexive-total, so stable insertion sort below
reproduces Python's stable `list.sort`. -/
def contactLe (a b : ResKey × (ℚ × LigKey)) : Prop :=
  (chainSortKey a.1.1, a.1.2.1, a.1.2.2.1, a.2.1) ≤
    (chainSortKey b.1.1, b.1.2.1, b.1.2.2.1, b.2.1)

instance : DecidableRel contactLe := fun a b => by
  unfold contactLe; infer_instance

/-- The sorted `contact_items` list (Python `list.sort` is stable;
`List.insertionSort` with a total `≤` is the same stable sort). -/
def sortedContacts (rb : List (ResKey × (ℚ × LigKey))) (cutoff : ℚ) :
    List (ResKey × (ℚ × LigKey)) :=
  (contactItems rb cutoff).insertionSort contactLe

/-- The `occluded_simple` set: `(chain, resseq)` of every reported contact,
with insertion code ignored; modelled as a list with membership as the set
operation. -/
def occludedSimple (cs : List (ResKey × (ℚ × LigKey))) : List (Char × Int) :=
  cs.map (fun item => (item.1.1, item.1.2.1))

/-- Decimal digit character of `n % 10`. -/
def digitCh (n : Nat) : Char := Char.ofNat (48 + n % 10)

/-- Decimal rendering with a structural fuel argument (the fuel is always
sufficient at its use below). -/
def natDecAux : Nat → Nat → Line
  | 0, _ => []
  | _ + 1, n => if n < 10 then [digitCh n] else natDecAux n (n / 10) ++ [digitCh (n % 10)]

/-- Decimal rendering of a natural number (Python `str` on a nonnegative `int`). -/
def natDec (n : Nat) : Line := natDecAux n n

/-- Decimal rendering of an integer (Python `str` on an `int`). -/
def intDec (i : Int) : Line := if i < 0 then '-' :: natDec i.natAbs else natDec i.toNat

/-- Right-alignment in a field of width `w` (Python format spec `:wd`). -/
def fmtRight (w : Nat) (l : Line) : Line := List.replicate (w - l.length) ' ' ++ l

/-- The `_remark_line` helper at its only used remark number 900:
`f"REMARK {remark_no:3d} {payload}".rstrip()`. -/
def remarkLine (payload : Line) : Line :=
  rstripWs ("REMARK ".data ++ fmtRight 3 (natDec 900) ++ ' ' :: payload)

/-- Nearest integer to `100·√q` for a nonnegative rational `q`, ties to even —
the digit stream that `f-string` `.2f` formatting of the source's
`math.sqrt` distance produces (idealised to exact arithmetic). -/
def sqrtRound100 (q : ℚ) : Nat :=
  let p := q.num.toNat
  let d := q.den
  let n0 := Nat.sqrt (10000 * p * d) / d
  let lhs := (2 * n0 + 1) ^ 2 * d
  let rhs := 40000 * p
  if lhs < rhs then n0 + 1
  else if rhs < lhs then n0
  else if n0 % 2 = 0 then n0 else n0 + 1

/-- Zero-padded two-digit rendering of `n < 100`. -/
def pad2 (n : Nat) : Line := if n < 10 then '0' :: [digitCh n] else natDec n

/-- Rendering `f"{d:.2f}"` of the source's square-root distance, from its
squared carrier value. -/
def fmt2sqrt (q : ℚ) : Line :=
  let n := sqrtRound100 q
  natDec (n / 100) ++ '.' :: pad2 (n % 100)

/-- Nearest integer to a rational, ties to even (the rounding of `f`-string
fixed-point formatting, idealised to exact arithmetic). -/
def roundHalfEven (q : ℚ) : Int :=
  let f := ⌊q⌋
  let r := q - f
  if r < 1 / 2 then f else if 1 / 2 < r then f + 1 else if f % 2 = 0 then f else f + 1

/-- Zero-padding of a digit string on the left to width `k`. -/
def padZeros (k : Nat) (l : Line) : Line := List.replicate (k - l.length) '0' ++ l

/-- Fixed-point rendering with `k` decimals of a nonnegative rational
(Python `f"{v:.kf}"`). -/
def fmtFixedNN (k : Nat) (q : ℚ) : Line :=
  let n := (roundHalfEven (q * (10 : ℚ) ^ k)).toNat
  natDec (n / 10 ^ k) ++ '.' :: padZeros k (natDec (n % 10 ^ k))

/-- Fixed-point rendering with `k` decimals, with sign. -/
def fmtFixed (k : Nat) (q : ℚ) : Line :=
  if q < 0 then '-' :: fmtFixedNN k (-q) else fmtFixedNN k q

/-- The LINK echo stanzas: for every collected LINK line, a marker remark and a
payload remark holding `l[6:].rstrip("\n").lstrip()`. -/
def linkRemarks (links : List Line) : List Line :=
  links.flatMap (fun l =>
    [remarkLine "RFANTIBODY_LIGAND_LINK LINK".data,
     remarkLine (lstripWs (rstripNl (l.drop 6)))])

/-- Payload of one occlusion stanza:
`f"{resn} {chain}{resseq}{ic} min_dist={d:.2f}A {lresn} {lchain}{lresseq}{lic}"`
with `ic`/`lic` the stripped insertion codes. -/
def contactPayload (item : ResKey × (ℚ × LigKey)) : Line :=
  match item with
  | ((chain, resseq, icode, resn), (d2, (lresn, lchain, lresseq, licode))) =>
    resn ++ ' ' :: chain :: intDec resseq ++ pyStrip [icode]
      ++ " min_dist=".data ++ fmt2sqrt d2 ++ 'A' :: ' ' :: lresn
      ++ ' ' :: lchain :: intDec lresseq ++ pyStrip [licode]

/-- The occlusion stanzas: a marker remark and a payload remark per sorted
contact item. -/
def occlusionRemarks (cs : List (ResKey × (ℚ × LigKey))) : List Line :=
  cs.flatMap (fun item => [remarkLine "RFANTIBODY_OCCLUDED_RES".data,
                           remarkLine (contactPayload item)])

/-- One row of the loaded accessibility table (`_load_dssp_csv` output): chain
normalised to a single character (blank when empty), integer residue number,
relative accessibility coerced to a number (`none` for a non-numeric value),
and the optional residue identity / absolute accessibility columns. -/
structure DsspRow where
  chain : Char
  res_number : Int
  rsa : Option ℚ
  aa : Line
  asa : Option ℚ
deriving DecidableEq, Repr

/-- The loaded accessibility table together with the presence flags of its
optional columns. -/
structure DsspTable where
  rows : List DsspRow
  hasAA : Bool
  hasASA : Bool
deriving DecidableEq, Repr

/-- Stable pre-renumbering sort of the table by `(chain, res_number)`
(plain ascending keys, `kind="mergesort"`). -/
def dsspPreLe (a b : DsspRow) : Prop :=
  (a.chain, a.res_number) ≤ (b.chain, b.res_number)

instance : DecidableRel dsspPreLe := fun a b => by
  unfold dsspPreLe; infer_instance

/-- Dedup keeping the first occurrence (the distinct values of a column),
with an explicit seen-accumulator so that it is structurally recursive. -/
def firstDedupFrom {α : Type} [DecidableEq α] : List α → List α → List α
  | [], _ => []
  | a :: l, seen =>
    if a ∈ seen then firstDedupFrom l seen else a :: firstDedupFrom l (a :: seen)

/-- Dedup keeping the first occurrence (the distinct values of a column). -/
def firstDedup {α : Type} [DecidableEq α] (l : List α) : List α := firstDedupFrom l []

/-- Rank of `n` among the distinct residue numbers of chain `c` in the table:
`{old: i + 1}` over the sorted distinct numbers assigns
`1 + #(distinct numbers < n)`. -/
def dsspRank (rows : List DsspRow) (c : Char) (n : Int) : Int :=
  1 + ((firstDedup ((rows.filter (fun r => decide (r.chain = c))).map
        (fun r => r.res_number))).countP (fun m => decide (m < n)) : Int)

/-- The renumbered table when `renumber` is on: rows stably sorted by
`(chain, res_number)`, each row's number replaced by its per-chain dense rank
(the per-chain `mapping` applied positionally). -/
def dsspRenumbered (rows : List DsspRow) : List DsspRow :=
  let sorted := rows.insertionSort dsspPreLe
  sorted.map (fun r => { r with res_number := dsspRank sorted r.chain r.res_number })

/-- Stable final sort of the hotspot candidates by
`(_chain_sort_key(chain), res_number)`. -/
def candLe (a b : DsspRow) : Prop :=
  (chainSortKey a.chain, a.res_number) ≤ (chainSortKey b.chain, b.res_number)

instance : DecidableRel candLe := fun a b => by
  unfold candLe; infer_instance

/-- The hotspot candidate rows, in stanza order: optional table renumbering,
chain filter, drop of non-numeric accessibilities, threshold test
`rsa > threshold`, exclusion of rows whose `(chain, res_number)` is in the
occluded set, and the final stable sort. -/
def hotspotRows (renumber : Bool) (rows : List DsspRow) (chains : Option (List Char))
    (threshold : ℚ) (occ : List (Char × Int)) : List DsspRow :=
  let r1 : List DsspRow := if renumber then dsspRenumbered rows else rows
  let r2 : List DsspRow :=
    match chains with
    | some cs => r1.filter (fun (r : DsspRow) => decide (r.chain ∈ cs))
    | none => r1
  let r3 : List DsspRow := r2.filter (fun (r : DsspRow) => r.rsa.isSome)
  let cand : List DsspRow :=
    r3.filter (fun (r : DsspRow) => decide (threshold < r.rsa.getD 0))
  let cand2 : List DsspRow :=
    cand.filter (fun (r : DsspRow) => decide (¬ (r.chain, r.res_number) ∈ occ))
  cand2.insertionSort candLe

/-- Payload of one hotspot stanza, with the optional residue identity and
optional absolute accessibility as in the source's two f-string branches. -/
def hotspotPayload (hasAA hasASA : Bool) (r : DsspRow) : Line :=
  let chain := if (pyStrip [r.chain]).isEmpty then ' ' else r.chain
  let resn3 := if hasAA then pyStrip r.aa else []
  let asaStr := if hasASA && r.asa.isSome then " asa=".data ++ fmtFixed 2 (r.asa.getD 0)
                else []
  if ¬ resn3.isEmpty then
    resn3 ++ ' ' :: chain :: intDec r.res_number ++ " rsa=".data
      ++ fmtFixed 4 (r.rsa.getD 0) ++ asaStr
  else
    chain :: intDec r.res_number ++ " rsa=".data ++ fmtFixed 4 (r.rsa.getD 0) ++ asaStr

/-- The hotspot stanzas: a marker remark and a payload remark per candidate row. -/
def hotspotRemarks (hasAA hasASA : Bool) (rows : List DsspRow) : List Line :=
  rows.flatMap (fun r => [remarkLine "RFANTIBODY_HOTSPOT_RES".data,
                          remarkLine (hotspotPayload hasAA hasASA r)])

/-- Replacing the residue-number columns 22–26 of an atom line:
`line[:22] + f"{new_num:4d}" + line[26:]`. -/
def lineSetNum (l : Line) (n : Nat) : Line :=
  l.take 22 ++ fmtRight 4 (natDec n) ++ l.drop 26

/-- State of the output/renumbering loop: the `new_resseq` mapping (insertion
ordered, keys only ever appended), the per-chain `current_new` counters, and
the emitted atom lines. -/
structure EmitState where
  new_resseq : List ((Char × Int × Char) × Nat)
  current_new : List (Char × Nat)
  out : List Line
deriving DecidableEq, Repr

/-- One step of the output loop: re-extract chain / residue number / insertion
code from the stored raw line (skipping the atom when the number no longer
parses, the source's `except ValueError: continue`), then emit the line, with
columns 22–26 rewritten from the first-encounter mapping when renumbering. -/
def emitStep (renumber : Bool) (st : EmitState) (a : Atom) : EmitState :=
  let line := a.raw
  let chain_id := chainOfLine line
  match pyInt (pySlice line 22 26) with
  | none => st
  | some resseq =>
    let icode := pyAt line 26
    if renumber then
      let key := (chain_id, resseq, icode)
      match assocFind st.new_resseq key with
      | some n => { st with out := st.out ++ [lineSetNum line n] }
      | none =>
        let cn := (assocFind st.current_new chain_id).getD 0 + 1
        { new_resseq := st.new_resseq ++ [(key, cn)]
          current_new := assocSet st.current_new chain_id cn
          out := st.out ++ [lineSetNum line cn] }
    else { st with out := st.out ++ [line] }

/-- The whole output/renumbering loop over the retained protein atoms. -/
def emitFold (renumber : Bool) (protein : List Atom) : EmitState :=
  protein.foldl (emitStep renumber) ⟨[], [], []⟩

/-- Chain-break insertion: walk the emitted atom lines tracking the previous
chain character (column 21, blank when the line is shorter), inserting a `TER`
line at every change. -/
def insertTERGo : List Line → Option Char → List Line
  | [], _ => []
  | l :: rest, prev =>
    let ch := l.getD 21 ' '
    match prev with
    | none => l :: insertTERGo rest (some ch)
    | some p => if ch ≠ p then "TER".data :: l :: insertTERGo rest (some ch)
                else l :: insertTERGo rest (some ch)

/-- The `final_atom_lines` block: chain breaks inserted, plus a trailing `TER`
when any atom line was emitted. -/
def insertTER (ls : List Line) : List Line :=
  let b := insertTERGo ls none
  if b.isEmpty then b else b ++ ["TER".data]

/-- The full configuration surface of `clean_pdb_for_rfantibody` (hotspot
stanzas are produced only when both `dssp` and `rsa_threshold` are supplied). -/
structure Config where
  chains : Option (List Char)
  ligands : Option (List Line)
  ligand_cutoff : ℚ
  renumber : Bool
  keep_altloc : Char
  drop_h : Bool
  dssp : Option DsspTable
  rsa_threshold : Option ℚ
deriving DecidableEq, Repr

/-- The reading-pass slice of a configuration. -/
def Config.read (cfg : Config) : ReadCfg :=
  ⟨cfg.chains, cfg.ligands, cfg.keep_altloc, cfg.drop_h⟩

/-- The content of the written output file, as a list of lines: pass-through
remarks, link echoes, occlusion stanzas, optional hotspot stanzas, the
(possibly renumbered) atom lines with chain breaks, and the final `END`. -/
def cleanOutput (cfg : Config) (lines : List Line) : List Line :=
  let st := readPass cfg.read lines
  let ci := sortedContacts (resBest st.protein (ligXyz st.ligand)) cfg.ligand_cutoff
  let occ := occludedSimple ci
  let hot := match cfg.dssp, cfg.rsa_threshold with
             | some t, some th =>
               hotspotRemarks t.hasAA t.hasASA (hotspotRows cfg.renumber t.rows cfg.chains th occ)
             | _, _ => []
  let extra := linkRemarks st.links ++ occlusionRemarks ci ++ hot
  let fin := insertTER (emitFold cfg.renumber st.protein).out
  st.remarks ++ extra ++ fin ++ ["END".data]

/-- Python `str.rfind` for a single character: index of the last occurrence,
`-1` when absent. -/
def rfindIdx (l : Line) (c : Char) : Int :=
  match l.reverse.findIdx? (fun x => decide (x = c)) with
  | none => -1
  | some j => (l.length : Int) - 1 - (j : Int)

/-- POSIX `os.path.split`: split at the last slash; the head keeps its
trailing slash only when it consists entirely of slashes. -/
def osSplit (p : Line) : Line × Line :=
  let i := (rfindIdx p '/' + 1).toNat
  let head := p.take i
  let tail := p.drop i
  let head2 :=
    if ¬ head.isEmpty ∧ ¬ (head.all (fun c => decide (c = '/'))) then
      (head.reverse.dropWhile (fun c => c = '/')).reverse
    else head
  (head2, tail)

/-- POSIX `os.path.basename`. -/
def osBasename (p : Line) : Line := (osSplit p).2

/-- POSIX `os.path.dirname`. -/
def osDirname (p : Line) : Line := (osSplit p).1

/-- POSIX `os.path.splitext`: split at the last dot that lies after the last
slash and after at least one non-dot character of the file name (so leading
dots never start an extension). -/
def osSplitext (p : Line) : Line × Line :=
  let sepIndex := rfindIdx p '/'
  let dotIndex := rfindIdx p '.'
  if sepIndex < dotIndex then
    let seg := pySlice p (sepIndex + 1).toNat dotIndex.toNat
    if seg.any (fun c => decide (¬ c = '.')) then
      (p.take dotIndex.toNat, p.drop dotIndex.toNat)
    else (p, [])
  else (p, [])

/-- POSIX `os.path.join` of a directory and a path fragment. -/
def osJoin (a b : Line) : Line :=
  if b.take 1 = ['/'] then b
  else if a.isEmpty ∨ a.getLast? = some '/' then a ++ b
  else a ++ '/' :: b

/-- Python `sorted` on the chain allow-set: the distinct chains in ascending
order (the set is modelled as the list of its members). -/
def sortedChains (cs : List Char) : List Char :=
  (firstDedup cs).insertionSort (fun a b => a ≤ b)

/-- The path the cleaned file is written to: the caller's `out_path` when no
chain allow-set is configured, otherwise the same directory and extension with
`_chains_` plus the underscore-joined sorted chains inserted before the
extension. -/
def cleanPath (chains : Option (List Char)) (out_path : Line) : Line :=
  match chains with
  | none => out_path
  | some cs =>
    let basename := osBasename out_path
    let dirname := osDirname out_path
    let be := osSplitext basename
    let bn := be.1 ++ "_chains_".data ++ List.intersperse '_' (sortedChains cs)
    osJoin dirname (bn ++ be.2)

/-- The strict-less minimum fold, stated over an already-flattened list of
(squared distance, ligand residue) pairs — the specification-side view of the
source's nested loops. -/
def foldPairs : List (ℚ × LigKey) → ℚ × LigKey → ℚ × LigKey
  | [], b => b
  | (d, l) :: rest, (bd, bl) => foldPairs rest (if d < bd then (d, l) else (bd, bl))

/-- All (squared distance, ligand residue) pairs between the atoms of residue
`rid` of the protein stream and the ligand atoms, in the nested-loop order of
the source. -/
def pairList (protein : List Atom) (lig : List (ℚ × ℚ × ℚ × LigKey)) (rid : ResKey) :
    List (ℚ × LigKey) :=
  (protein.filter (fun a => decide (ridOf a = rid))).flatMap
    (fun a => lig.map (fun q => (dist2 a.x a.y a.z q.1 q.2.1 q.2.2.1, q.2.2.2)))

/-- Two lines agree everywhere outside the residue-number columns 22–26. -/
def colShift (la lb : Line) : Prop :=
  la.take 22 = lb.take 22 ∧ la.drop 26 = lb.drop 26

section Lemmas

/-- dropWhile is idempotent. -/
theorem dropWhile_self {α : Type} (p : α → Bool) (l : List α) :
    (l.dropWhile p).dropWhile p = l.dropWhile p := by
  induction l with
  | nil => rfl
  | cons a l ih =>
    by_cases h : p a
    · simpa [List.dropWhile_cons, h] using ih
    · simp [List.dropWhile_cons, h]

/-- Stripping trailing newlines twice is the same as once. -/
theorem rstripNl_idem (l : Line) : rstripNl (rstripNl l) = rstripNl l := by
  simp [rstripNl, dropWhile_self]

/-- Dropping leading newlines ignores a block of prepended spaces and an
already-stripped remainder. -/
theorem dropWhile_nl_rep_space (k : Nat) (r : List Char) :
    List.dropWhile (fun c => decide (c = '\n'))
      (List.replicate k ' ' ++ List.dropWhile (fun c => decide (c = '\n')) r) =
    List.replicate k ' ' ++ List.dropWhile (fun c => decide (c = '\n')) r := by
  cases k with
  | zero =>
    simp only [List.replicate, List.nil_append]
    exact dropWhile_self _ r
  | succ k => simp [List.replicate_succ, List.dropWhile_cons]

/-- A padded line has no trailing newlines left to strip. -/
theorem rstripNl_safePad (l : Line) (n : Nat) : rstripNl (safePad l n) = safePad l n := by
  show rstripNl (rstripNl l ++ List.replicate (n - (rstripNl l).length) ' ') = _
  unfold rstripNl
  rw [List.reverse_append, List.reverse_reverse, List.reverse_replicate,
    dropWhile_nl_rep_space, List.reverse_append, List.reverse_replicate]
  rfl

/-- A padded line is at least as long as the requested width. -/
theorem safePad_length (l : Line) (n : Nat) : n ≤ (safePad l n).length := by
  simp only [safePad, List.length_append, List.length_replicate]
  omega

/-- Padding an already padded line changes nothing. -/
theorem safePad_idem (l : Line) (n : Nat) : safePad (safePad l n) n = safePad l n := by
  conv_lhs => rw [safePad, rstripNl_safePad]
  have := safePad_length l n
  have h : n - (safePad l n).length = 0 := by omega
  simp [h]

end Lemmas

/-- Claim C6: the atom-line parser is a total function that classifies rather
than aborts: (i) a line parses exactly as its space-padded 80-column version
does, so missing trailing fields read as blank; (ii) an `ATOM`/`HETATM` line
whose residue-number field does not parse as an integer yields no record;
(iii) likewise when any coordinate field does not parse as a number; (iv) a
line whose content ends before the element columns parses with a blank
element field. -/
theorem C6_parser_never_raises (l : Line) :
    (parseAtomLine l = parseAtomLine (safePad l 80)) ∧
    (pyInt (pySlice (safePad l 80) 22 26) = none → parseAtomLine l = none) ∧
    ((pyFloat (pySlice (safePad l 80) 30 38) = none ∨
      pyFloat (pySlice (safePad l 80) 38 46) = none ∨
      pyFloat (pySlice (safePad l 80) 46 54) = none) → parseAtomLine l = none) ∧
    ((rstripNl l).length ≤ 76 → ∀ a, parseAtomLine l = some a → a.element = []) := by
  refine ⟨?_, ?_, ?_, ?_⟩
  · unfold parseAtomLine
    rw [safePad_idem]
  · intro h
    simp only [parseAtomLine]
    split
    · rw [h]
    · rfl
  · intro h
    simp only [parseAtomLine]
    split
    · rcases hq : pyInt (pySlice (safePad l 80) 22 26) with _ | q
      · rfl
      · rcases h with h | h | h <;> rw [h] <;>
          rcases pyFloat (pySlice (safePad l 80) 30 38) with _ | x <;>
          rcases pyFloat (pySlice (safePad l 80) 38 46) with _ | y <;>
          rcases pyFloat (pySlice (safePad l 80) 46 54) with _ | z <;> rfl
    · rfl
  · intro hlen a ha
    have h78 : 78 ≤ (safePad l 80).length := le_trans (by omega) (safePad_length l 80)
    have hel : pySlice (safePad l 80) 76 78 = List.replicate 2 ' ' := by
      show List.take (78 - 76)
        (List.drop 76 (rstripNl l ++ List.replicate (80 - (rstripNl l).length) ' ')) = _
      rw [List.drop_append_eq_append_drop, List.drop_eq_nil_iff.mpr hlen, List.nil_append,
        List.drop_replicate, List.take_replicate]
      congr 1
      omega
    simp only [parseAtomLine] at ha
    split at ha
    · split at ha
      · exact absurd ha (by simp)
      · split at ha
        · have h := Option.some.inj ha
          subst h
          simp only [hel, if_pos h78]
          decide
        · exact absurd ha (by simp)
    · exact absurd ha (by simp)

section PathLemmas

/-- The last occurrence of `c` in `pre ++ c :: b` with `c` absent from `b` is
at index `pre.length`. -/
theorem rfind_last (pre b : Line) (c : Char) (hb : c ∉ b) :
    rfindIdx (pre ++ c :: b) c = (pre.length : Int) := by
  have h1 : List.findIdx? (fun x => decide (x = c)) b.reverse = none := by
    rw [List.findIdx?_eq_none_iff]
    intro x hx
    simp only [decide_eq_false_iff_not]
    intro hxc
    exact hb (by simpa [hxc] using List.mem_reverse.mp hx)
  have hrev : (pre ++ c :: b).reverse = b.reverse ++ c :: pre.reverse := by simp
  have h2 : (pre ++ c :: b).reverse.findIdx? (fun x => decide (x = c))
      = some b.reverse.length := by
    rw [hrev, List.findIdx?_append, h1, List.findIdx?_cons]
    simp
  unfold rfindIdx
  rw [h2]
  simp only [List.length_append, List.length_cons, List.length_reverse]
  omega

/-- When `c` does not occur at all, its last index is `-1`. -/
theorem rfind_none (b : Line) (c : Char) (hb : c ∉ b) : rfindIdx b c = -1 := by
  have h1 : List.findIdx? (fun x => decide (x = c)) b.reverse = none := by
    rw [List.findIdx?_eq_none_iff]
    intro x hx
    simp only [decide_eq_false_iff_not]
    intro hxc
    exact hb (by simpa [hxc] using List.mem_reverse.mp hx)
  unfold rfindIdx
  rw [h1]

end PathLemmas

/-- Claim C9: when a chain allow-set is configured the cleaned file goes to a
derived path — same directory, `_chains_` plus the underscore-joined sorted
chains inserted before the extension — and only without a chain allow-set is
the caller's path used verbatim.  Stated for a path of the shape
`dir/stem.ext` with a well-formed directory, stem and extension. -/
theorem C9_derived_output_path (p d stem ext : Line) (cs : List Char)
    (hp : p = d ++ '/' :: (stem ++ '.' :: ext))
    (hd0 : d ≠ []) (hdL : d.getLast? ≠ some '/')
    (hs : '/' ∉ stem) (he : '/' ∉ ext) (hde : '.' ∉ ext)
    (hstem : ∃ c ∈ stem, c ≠ '.') :
    cleanPath (some cs) p =
      d ++ '/' :: (stem ++ "_chains_".data ++ List.intersperse '_' (sortedChains cs)
        ++ '.' :: ext) ∧
    cleanPath none p = p := by
  subst hp
  refine ⟨?_, rfl⟩
  have hslash : '/' ∉ stem ++ '.' :: ext := by
    intro hx
    rcases List.mem_append.mp hx with hx | hx
    · exact hs hx
    · rcases List.mem_cons.mp hx with hx | hx
      · exact absurd hx (by decide)
      · exact he hx
  have hfind : rfindIdx (d ++ '/' :: (stem ++ '.' :: ext)) '/' = (d.length : Int) :=
    rfind_last d _ '/' hslash
  have htake : (d ++ '/' :: (stem ++ '.' :: ext)).take (d.length + 1) = d ++ ['/'] := by
    rw [List.take_append_eq_append_take]
    simp
  have hdrop : (d ++ '/' :: (stem ++ '.' :: ext)).drop (d.length + 1) = stem ++ '.' :: ext := by
    rw [List.drop_append_eq_append_drop]
    simp
  have hhead_all : (d ++ ['/']).all (fun c => decide (c = '/')) = false := by
    by_contra hall
    rw [Bool.not_eq_false, List.all_eq_true] at hall
    have hmem : d.getLast hd0 ∈ d ++ ['/'] :=
      List.mem_append_left _ (List.getLast_mem hd0)
    have h := hall _ hmem
    rw [decide_eq_true_eq] at h
    exact hdL (by rw [List.getLast?_eq_getLast d hd0, h])
  have hrstrip : ((d ++ ['/']).reverse.dropWhile (fun c => decide (c = '/'))).reverse = d := by
    have h1 : (d ++ ['/']).reverse = '/' :: d.reverse := by simp
    rw [h1]
    have h2 : List.dropWhile (fun c => decide (c = '/')) ('/' :: d.reverse)
        = List.dropWhile (fun c => decide (c = '/')) d.reverse := by
      rw [List.dropWhile_cons]
      simp
    rw [h2]
    cases hrd : d.reverse with
    | nil => exact absurd (by simpa using congrArg List.reverse hrd) hd0
    | cons a t =>
      have ha : ¬ a = '/' := by
        intro h
        apply hdL
        rw [List.getLast?_eq_head?_reverse, hrd, h]
        rfl
      have h3 : List.dropWhile (fun c => decide (c = '/')) (a :: t) = a :: t := by
        rw [List.dropWhile_cons]
        simp [ha]
      rw [h3, ← hrd, List.reverse_reverse]
  have hsplit : osSplit (d ++ '/' :: (stem ++ '.' :: ext)) = (d, stem ++ '.' :: ext) := by
    simp only [osSplit, hfind]
    have h1 : ((d.length : Int) + 1).toNat = d.length + 1 := by omega
    rw [h1, htake, hdrop, if_pos ⟨by simp, by simp [hhead_all]⟩, hrstrip]
  have hsep : rfindIdx (stem ++ '.' :: ext) '/' = -1 := rfind_none _ '/' hslash
  have hdot : rfindIdx (stem ++ '.' :: ext) '.' = (stem.length : Int) :=
    rfind_last stem ext '.' hde
  have hany : stem.any (fun c => decide (¬ c = '.')) = true := by
    rw [List.any_eq_true]
    obtain ⟨c0, hc0, hc0ne⟩ := hstem
    exact ⟨c0, hc0, by simpa using hc0ne⟩
  have hsplitext : osSplitext (stem ++ '.' :: ext) = (stem, '.' :: ext) := by
    simp only [osSplitext, hsep, hdot]
    rw [if_pos (by omega)]
    have h0 : ((-1 : Int) + 1).toNat = 0 := rfl
    have h2 : ((stem.length : Int)).toNat = stem.length := by omega
    rw [h0, h2]
    have hseg : pySlice (stem ++ '.' :: ext) 0 stem.length = stem := by
      show ((stem ++ '.' :: ext).drop 0).take (stem.length - 0) = stem
      rw [List.drop_zero, Nat.sub_zero, List.take_left]
    rw [hseg, if_pos hany, List.take_left, List.drop_left]
  obtain ⟨s0, hs0mem, -⟩ := hstem
  have hstem0 : stem ≠ [] := by
    intro h
    rw [h] at hs0mem
    exact absurd hs0mem (List.not_mem_nil s0)
  have hjoin : osJoin d (stem ++ "_chains_".data
      ++ List.intersperse '_' (sortedChains cs) ++ '.' :: ext) =
      d ++ '/' :: (stem ++ "_chains_".data
        ++ List.intersperse '_' (sortedChains cs) ++ '.' :: ext) := by
    unfold osJoin
    rw [if_neg ?hb, if_neg ?ha]
    case hb =>
      cases stem with
      | nil => exact absurd rfl hstem0
      | cons a t =>
        have ha : ¬ a = '/' := by
          intro h
          apply hs
          rw [← h]
          exact List.mem_cons_self a t
        intro hcontra
        exact ha (by simpa using hcontra)
    case ha =>
      rintro (h | h)
      · exact hd0 (by simpa using h)
      · exact hdL h
  calc cleanPath (some cs) (d ++ '/' :: (stem ++ '.' :: ext))
      = osJoin (osSplit (d ++ '/' :: (stem ++ '.' :: ext))).1
          ((osSplitext (osSplit (d ++ '/' :: (stem ++ '.' :: ext))).2).1 ++ "_chains_".data
            ++ List.intersperse '_' (sortedChains cs)
            ++ (osSplitext (osSplit (d ++ '/' :: (stem ++ '.' :: ext))).2).2) := by
        simp [cleanPath, osBasename, osDirname]
    _ = d ++ '/' :: (stem ++ "_chains_".data
          ++ List.intersperse '_' (sortedChains cs) ++ '.' :: ext) := by
        rw [hsplit, hsplitext]
        simpa using hjoin

/-- Witness for C9 at a concrete path and chain set. -/
theorem C9_derived_output_path_witness :
    cleanPath (some ['B', 'A']) "out/target.pdb".data = "out/target_chains_A_B.pdb".data ∧
    cleanPath none "out/target.pdb".data = "out/target.pdb".data := by
  have h := C9_derived_output_path "out/target.pdb".data "out".data "target".data "pdb".data
    ['B', 'A'] (by decide) (by decide) (by decide) (by decide) (by decide) (by decide)
    ⟨'t', by decide, by decide⟩
  exact ⟨h.1.trans (by decide), h.2⟩

section ReadingLemmas

/-- A line whose first six characters announce a model end does not announce a
model start. -/
theorem model_prefix_false {rc : Line} (h : List.isPrefixOf "ENDMDL".data rc = true) :
    List.isPrefixOf "MODEL".data rc = false := by
  cases rc with
  | nil => simp [List.isPrefixOf] at h
  | cons b bs =>
    simp only [show "ENDMDL".data = 'E' :: "NDMDL".data from rfl, List.isPrefixOf,
      Bool.and_eq_true, beq_iff_eq] at h
    obtain ⟨hb, -⟩ := h
    subst hb
    simp [show "MODEL".data = 'M' :: "ODEL".data from rfl, List.isPrefixOf]

/-- The `seen_model` flag never influences the result of the reading pass: the
only branch that consults it is the model branch, which skips the line either
way. -/
theorem readGo_seen (cfg : ReadCfg) (ls : List Line) (s1 s2 : Bool) (st : ReadState) :
    readGo cfg ls s1 st = readGo cfg ls s2 st := by
  induction ls generalizing st with
  | nil => rfl
  | cons raw rest ih =>
    simp only [readGo]
    split
    · rfl
    · split
      · rfl
      · split
        · exact ih _
        · split
          · exact ih _
          · exact ih _

/-- Reading stops at a model-end line: lines after it never touch the state. -/
theorem readGo_endmdl (cfg : ReadCfg) (pre post : List Line) (e : Line)
    (he : List.isPrefixOf "ENDMDL".data (e.take 6) = true) (seen : Bool) (st : ReadState) :
    readGo cfg (pre ++ e :: post) seen st = readGo cfg (pre ++ [e]) seen st := by
  induction pre generalizing seen st with
  | nil =>
    simp only [List.nil_append, readGo, model_prefix_false he, he]
    simp
  | cons a pre ih =>
    simp only [List.cons_append, readGo]
    split
    · exact ih _ _
    · split
      · rfl
      · split
        · exact ih _ _
        · split
          · exact ih _ _
          · exact ih _ _

/-- A model-start line is skipped wholesale: the reading pass gives the same
result with it removed (so the lines after a second model marker are processed
exactly as if they belonged to the first model). -/
theorem readGo_model_skip (cfg : ReadCfg) (pre post : List Line) (m : Line)
    (hm : List.isPrefixOf "MODEL".data (m.take 6) = true) (seen : Bool) (st : ReadState) :
    readGo cfg (pre ++ m :: post) seen st = readGo cfg (pre ++ post) seen st := by
  induction pre generalizing seen st with
  | nil =>
    simp only [List.nil_append, readGo, hm]
    exact readGo_seen cfg post true seen st
  | cons a pre ih =>
    simp only [List.cons_append, readGo]
    split
    · exact ih _ _
    · split
      · rfl
      · split
        · exact ih _ _
        · split
          · exact ih _ _
          · exact ih _ _

end ReadingLemmas

/-- Claim C7: the reading pass consumes only the first model.  A model-end
line terminates reading (everything after it contributes nothing to the
collected remarks, links and atom streams), and any further model-start line
is ignored as a continuation (removing it changes nothing, so the atom lines
after it are still treated as part of the first model). -/
theorem C7_first_model_only (cfg : ReadCfg) (pre post : List Line) (e m : Line)
    (he : List.isPrefixOf "ENDMDL".data (e.take 6) = true)
    (hm : List.isPrefixOf "MODEL".data (m.take 6) = true) :
    readPass cfg (pre ++ e :: post) = readPass cfg (pre ++ [e]) ∧
    readPass cfg (pre ++ m :: post) = readPass cfg (pre ++ post) := by
  exact ⟨readGo_endmdl cfg pre post e he false _, readGo_model_skip cfg pre post m hm false _⟩

/-- Witness for C7 at a concrete input: an `ENDMDL` after one atom line hides a
later atom line, and a second `MODEL` is transparent. -/
theorem C7_first_model_only_witness :
    readPass ⟨none, none, 'A', true⟩
        (["MODEL     1".data, "ENDMDL".data] ++ "REMARK 1 x".data :: []) =
      readPass ⟨none, none, 'A', true⟩ (["MODEL     1".data, "ENDMDL".data] ++ []) ∧
    readPass ⟨none, none, 'A', true⟩
        (["MODEL     1".data, "MODEL     2".data] ++ "REMARK 1 x".data :: []) =
      readPass ⟨none, none, 'A', true⟩
        (["MODEL     1".data] ++ "REMARK 1 x".data :: []) := by
  constructor
  · exact (C7_first_model_only ⟨none, none, 'A', true⟩ ["MODEL     1".data] []
      "ENDMDL".data "MODEL     2".data (by decide) (by decide)).1
  · exact (C7_first_model_only ⟨none, none, 'A', true⟩ ["MODEL     1".data]
      ["REMARK 1 x".data] "ENDMDL".data "MODEL     2".data (by decide) (by decide)).2

section FoldLemmas

/-- The minimum fold over a concatenation is the composition of folds. -/
theorem foldPairs_append (xs ys : List (ℚ × LigKey)) (b : ℚ × LigKey) :
    foldPairs (xs ++ ys) b = foldPairs ys (foldPairs xs b) := by
  induction xs generalizing b with
  | nil => rfl
  | cons x rest ih =>
    obtain ⟨d, l⟩ := x
    obtain ⟨bd, bl⟩ := b
    simp only [List.cons_append, foldPairs]
    exact ih _

/-- The source's inner ligand loop is the pair fold over that atom's pair list. -/
theorem innerFold_eq_foldPairs (ax ay az : ℚ) (lig : List (ℚ × ℚ × ℚ × LigKey))
    (b : ℚ × LigKey) :
    innerFold ax ay az lig b =
      foldPairs (lig.map (fun q => (dist2 ax ay az q.1 q.2.1 q.2.2.1, q.2.2.2))) b := by
  induction lig generalizing b with
  | nil => rfl
  | cons q rest ih =>
    obtain ⟨lx, ly, lz, lrid⟩ := q
    obtain ⟨bd, bl⟩ := b
    simp only [innerFold, List.map_cons, foldPairs]
    exact ih _

/-- The fold result is a lower bound of the initial value and of every pair. -/
theorem foldPairs_fst_le (xs : List (ℚ × LigKey)) (b : ℚ × LigKey) :
    (foldPairs xs b).1 ≤ b.1 ∧ ∀ p ∈ xs, (foldPairs xs b).1 ≤ p.1 := by
  induction xs generalizing b with
  | nil => exact ⟨le_refl _, by simp⟩
  | cons x rest ih =>
    obtain ⟨d, l⟩ := x
    obtain ⟨bd, bl⟩ := b
    simp only [foldPairs]
    by_cases h : d < bd
    · rw [if_pos h]
      obtain ⟨h1, h2⟩ := ih (d, l)
      refine ⟨le_of_lt (lt_of_le_of_lt h1 h), ?_⟩
      intro p hp
      rcases List.mem_cons.mp hp with hp | hp
      · rw [hp]
        exact h1
      · exact h2 p hp

    · rw [if_neg h]
      obtain ⟨h1, h2⟩ := ih (bd, bl)
      refine ⟨h1, ?_⟩
      intro p hp
      rcases List.mem_cons.mp hp with hp | hp
      · rw [hp]
        exact le_trans h1 (le_of_not_lt h)
      · exact h2 p hp

/-- The fold result is the initial value or one of the pairs. -/
theorem foldPairs_attain (xs : List (ℚ × LigKey)) (b : ℚ × LigKey) :
    foldPairs xs b = b ∨ ∃ p ∈ xs, foldPairs xs b = p := by
  induction xs generalizing b with
  | nil => exact Or.inl rfl
  | cons x rest ih =>
    obtain ⟨d, l⟩ := x
    obtain ⟨bd, bl⟩ := b
    simp only [foldPairs]
    by_cases h : d < bd
    · rw [if_pos h]
      rcases ih (d, l) with h1 | ⟨p, hp, h1⟩
      · exact Or.inr ⟨(d, l), List.mem_cons_self _ _, h1⟩
      · exact Or.inr ⟨p, List.mem_cons_of_mem _ hp, h1⟩
    · rw [if_neg h]
      rcases ih (bd, bl) with h1 | ⟨p, hp, h1⟩
      · exact Or.inl h1
      · exact Or.inr ⟨p, List.mem_cons_of_mem _ hp, h1⟩

/-- With no strictly smaller pair, the fold keeps its initial value. -/
theorem foldPairs_no_update (xs : List (ℚ × LigKey)) (b : ℚ × LigKey)
    (h : ∀ p ∈ xs, ¬ p.1 < b.1) : foldPairs xs b = b := by
  induction xs with
  | nil => rfl
  | cons x rest ih =>
    obtain ⟨d, l⟩ := x
    obtain ⟨bd, bl⟩ := b
    simp only [foldPairs]
    rw [if_neg (h (d, l) (List.mem_cons_self _ _))]
    exact ih (fun p hp => h p (List.mem_cons_of_mem _ hp))

/-- When some pair strictly improves on the initial value, the fold returns
the first pair attaining the minimum (strict-less updating keeps the earliest
minimiser, the tie-breaking rule of the source). -/
theorem foldPairs_first_min (xs : List (ℚ × LigKey)) (b p : ℚ × LigKey)
    (hmem : p ∈ xs) (hmin : ∀ q ∈ xs, p.1 ≤ q.1) (hlt : p.1 < b.1)
    (hfirst : xs.find? (fun q => decide (q.1 = p.1)) = some p) :
    foldPairs xs b = p := by
  obtain ⟨pd, pl⟩ := p
  induction xs generalizing b with
  | nil => simp at hmem
  | cons x rest ih =>
    obtain ⟨d, l⟩ := x
    obtain ⟨bd, bl⟩ := b
    by_cases hx : d = pd
    · subst hx
      have hl : l = pl := by
        rw [List.find?_cons] at hfirst
        simpa using hfirst
      subst hl
      simp only [foldPairs]
      rw [if_pos (by exact hlt)]
      rw [foldPairs_no_update]
      intro q hq
      exact not_lt.mpr (hmin q (List.mem_cons_of_mem _ hq))
    · have hfirst2 : List.find? (fun q => decide (q.1 = (pd, pl).1)) rest = some (pd, pl) := by
        rw [List.find?_cons] at hfirst
        simpa [hx] using hfirst
      have hpr : (pd, pl) ∈ rest := by
        rcases List.mem_cons.mp hmem with h | h
        · exact absurd (congrArg Prod.fst h).symm hx
        · exact h
      simp only [foldPairs]
      by_cases hd : d < bd
      · rw [if_pos hd]
        exact ih (d, l) hpr (fun q hq => hmin q (List.mem_cons_of_mem _ hq))
          (lt_of_le_of_ne (hmin (d, l) (List.mem_cons_self _ _)) (fun he => hx he.symm))
          hfirst2
      · rw [if_neg hd]
        exact ih (bd, bl) hpr (fun q hq => hmin q (List.mem_cons_of_mem _ hq)) hlt hfirst2

end FoldLemmas

section AssocLemmas

/-- Looking up the key just stored finds the stored value. -/
theorem assocFind_set_self {α β : Type} [DecidableEq α] (m : List (α × β)) (k : α) (v : β) :
    assocFind (assocSet m k v) k = some v := by
  induction m with
  | nil => simp [assocSet, assocFind]
  | cons kv m ih =>
    obtain ⟨k0, v0⟩ := kv
    simp only [assocSet]
    by_cases h : k0 = k
    · rw [if_pos h]
      simp [assocFind, List.find?_cons, h]
    · rw [if_neg h]
      simpa [assocFind, List.find?_cons, h] using ih

/-- Storing one key leaves the lookup of any other key unchanged. -/
theorem assocFind_set_ne {α β : Type} [DecidableEq α] (m : List (α × β)) (k k2 : α)
    (v : β) (h : ¬ k2 = k) : assocFind (assocSet m k v) k2 = assocFind m k2 := by
  have hks : ¬ k = k2 := fun hh => h hh.symm
  induction m with
  | nil => simp [assocSet, assocFind, List.find?_cons, hks]
  | cons kv m ih =>
    obtain ⟨k0, v0⟩ := kv
    simp only [assocSet]
    by_cases h0 : k0 = k
    · rw [if_pos h0]
      subst h0
      simp [assocFind, List.find?_cons, hks]
    · rw [if_neg h0]
      by_cases h2 : k0 = k2
      · subst h2
        simp [assocFind, List.find?_cons]
      · simp only [assocFind, List.find?_cons]
        rw [show (decide ((k0, v0).1 = k2)) = false from by simp [h2]]
        simp only [Bool.false_eq_true, if_false]
        exact ih

/-- The keys after a store: unchanged when present, appended when new. -/
theorem assocSet_keys {α β : Type} [DecidableEq α] (m : List (α × β)) (k : α) (v : β) :
    (assocSet m k v).map Prod.fst =
      if k ∈ m.map Prod.fst then m.map Prod.fst else m.map Prod.fst ++ [k] := by
  induction m with
  | nil => simp [assocSet]
  | cons kv m ih =>
    obtain ⟨k0, v0⟩ := kv
    simp only [assocSet]
    by_cases h : k0 = k
    · rw [if_pos h]
      subst h
      simp
    · rw [if_neg h]
      simp only [List.map_cons, List.mem_cons]
      rw [ih]
      by_cases hm : k ∈ m.map Prod.fst
      · rw [if_pos hm, if_pos (Or.inr hm)]
      · rw [if_neg hm, if_neg (by rintro (hh | hh); exacts [h hh.symm, hm hh])]
        simp

/-- A store preserves key distinctness. -/
theorem assocSet_keys_nodup {α β : Type} [DecidableEq α] (m : List (α × β)) (k : α) (v : β)
    (h : (m.map Prod.fst).Nodup) : ((assocSet m k v).map Prod.fst).Nodup := by
  rw [assocSet_keys]
  by_cases hm : k ∈ m.map Prod.fst
  · rwa [if_pos hm]
  · rw [if_neg hm]
    simp [List.nodup_append, h, hm]

/-- In an association list with distinct keys, membership of an entry is the
same as a successful lookup. -/
theorem assocFind_mem {α β : Type} [DecidableEq α] (m : List (α × β))
    (hnd : (m.map Prod.fst).Nodup) (k : α) (v : β) :
    (k, v) ∈ m ↔ assocFind m k = some v := by
  induction m with
  | nil => simp [assocFind]
  | cons kv m ih =>
    obtain ⟨k0, v0⟩ := kv
    rw [List.map_cons, List.nodup_cons] at hnd
    obtain ⟨hk0, hnd⟩ := hnd
    by_cases h : k0 = k
    · subst h
      simp only [assocFind, List.find?_cons, List.mem_cons]
      constructor
      · rintro (hh | hh)
        · simp [(Prod.mk.injEq _ _ _ _).mp hh.symm]
        · exact absurd (List.mem_map_of_mem Prod.fst hh) hk0
      · intro hh
        simp at hh
        simp [hh]
    · simp only [assocFind, List.find?_cons, List.mem_cons]
      rw [show (decide ((k0, v0).1 = k)) = false by simp [h]]
      constructor
      · rintro (hh | hh)
        · exact absurd (congrArg Prod.fst hh).symm h
        · exact (ih hnd).mp hh
      · intro hh
        exact Or.inr ((ih hnd).mpr hh)

end AssocLemmas

section ResBestLemmas

/-- Appending one protein atom performs one outer-loop step. -/
theorem resBest_append (ps : List Atom) (a : Atom) (lig : List (ℚ × ℚ × ℚ × LigKey)) :
    resBest (ps ++ [a]) lig = resBestStep lig (resBest ps lig) a := by
  simp [resBest, List.foldl_append]

/-- The `res_best` dictionary has distinct keys. -/
theorem resBest_keys_nodup (protein : List Atom) (lig : List (ℚ × ℚ × ℚ × LigKey)) :
    ((resBest protein lig).map Prod.fst).Nodup := by
  induction protein using List.reverseRecOn with
  | nil => simp [resBest]
  | append_singleton ps a ih =>
    rw [resBest_append]
    exact assocSet_keys_nodup _ _ _ ih

/-- A residue never seen contributes an empty pair list. -/
theorem pairList_nil_of_not_mem (protein : List Atom) (lig : List (ℚ × ℚ × ℚ × LigKey))
    (rid : ResKey) (h : ¬ rid ∈ protein.map ridOf) : pairList protein lig rid = [] := by
  unfold pairList
  rw [List.filter_eq_nil_iff.mpr]
  · rfl
  · intro a ha
    simp only [decide_eq_true_eq]
    intro hr
    exact h (List.mem_map.mpr ⟨a, ha, hr⟩)

/-- The pair list grows by one atom's inner-loop pairs when that atom belongs
to the residue, and is unchanged otherwise. -/
theorem pairList_append (ps : List Atom) (a : Atom) (lig : List (ℚ × ℚ × ℚ × LigKey))
    (rid : ResKey) :
    pairList (ps ++ [a]) lig rid =
      pairList ps lig rid ++
        (if ridOf a = rid then
          lig.map (fun q => (dist2 a.x a.y a.z q.1 q.2.1 q.2.2.1, q.2.2.2))
        else []) := by
  unfold pairList
  rw [List.filter_append, List.flatMap_append]
  congr 1
  by_cases h : ridOf a = rid <;> simp [List.filter_cons, h]

/-- Characterisation of the `res_best` dictionary: a residue is present iff it
occurs in the protein stream, and its entry is the strict-less minimum fold
over all its atom/ligand pairs started at the sentinel. -/
theorem resBest_find (protein : List Atom) (lig : List (ℚ × ℚ × ℚ × LigKey)) (rid : ResKey) :
    assocFind (resBest protein lig) rid =
      if rid ∈ protein.map ridOf then
        some (foldPairs (pairList protein lig rid) (SENT2, sentLig))
      else none := by
  induction protein using List.reverseRecOn with
  | nil => simp [resBest, assocFind, pairList]
  | append_singleton ps a ih =>
    rw [resBest_append]
    simp only [resBestStep]
    by_cases h : rid = ridOf a
    · subst h
      rw [assocFind_set_self]
      rw [if_pos (by simp)]
      rw [pairList_append, if_pos rfl, foldPairs_append, innerFold_eq_foldPairs]
      congr 1
      by_cases hm : ridOf a ∈ ps.map ridOf
      · rw [ih, if_pos hm]
        rfl
      · rw [ih, if_neg hm, pairList_nil_of_not_mem ps lig _ hm]
        rfl
    · rw [assocFind_set_ne _ _ _ _ h, ih]
      have h1 : pairList (ps ++ [a]) lig rid = pairList ps lig rid := by
        rw [pairList_append, if_neg (fun hh => h hh.symm), List.append_nil]
      have h2 : (rid ∈ (ps ++ [a]).map ridOf) ↔ (rid ∈ ps.map ridOf) := by
        simp only [List.map_append, List.mem_append, List.map_cons, List.map_nil,
          List.mem_singleton]
        constructor
        · rintro (hh | hh)
          · exact hh
          · exact absurd (by simpa using hh) h
        · exact Or.inl
      rw [h1]
      by_cases hm : rid ∈ ps.map ridOf
      · rw [if_pos hm, if_pos (h2.mpr hm)]
      · rw [if_neg hm, if_neg (fun hh => hm (h2.mp hh))]

end ResBestLemmas

section DedupLemmas

/-- Membership in the first-occurrence dedup: present in the list and not
previously seen. -/
theorem firstDedupFrom_mem {α : Type} [DecidableEq α] (l : List α) :
    ∀ (seen : List α) (x : α), x ∈ firstDedupFrom l seen ↔ x ∈ l ∧ ¬ x ∈ seen := by
  induction l with
  | nil =>
    intro seen x
    simp [firstDedupFrom]
  | cons a l ih =>
    intro seen x
    simp only [firstDedupFrom]
    by_cases ha : a ∈ seen
    · rw [if_pos ha, ih]
      constructor
      · rintro ⟨h1, h2⟩
        exact ⟨List.mem_cons_of_mem _ h1, h2⟩
      · rintro ⟨h1, h2⟩
        rcases List.mem_cons.mp h1 with h | h
        · subst h
          exact absurd ha h2
        · exact ⟨h, h2⟩
    · rw [if_neg ha]
      constructor
      · intro hx
        rcases List.mem_cons.mp hx with h | h
        · subst h
          exact ⟨List.mem_cons_self _ _, ha⟩
        · obtain ⟨h1, h2⟩ := (ih (a :: seen) x).mp h
          exact ⟨List.mem_cons_of_mem _ h1, fun hs => h2 (List.mem_cons_of_mem _ hs)⟩
      · rintro ⟨h1, h2⟩
        by_cases hxa : x = a
        · subst hxa
          exact List.mem_cons_self _ _
        · rcases List.mem_cons.mp h1 with h | h
          · exact absurd h hxa
          · refine List.mem_cons_of_mem _ ((ih (a :: seen) x).mpr ⟨h, ?_⟩)
            intro hs
            rcases List.mem_cons.mp hs with hh | hh
            · exact hxa hh
            · exact h2 hh

/-- Appending one element to the scanned list appends it to the dedup exactly
when it is new. -/
theorem firstDedupFrom_append {α : Type} [DecidableEq α] (l : List α) (t : α) :
    ∀ seen : List α, firstDedupFrom (l ++ [t]) seen =
      firstDedupFrom l seen ++ (if t ∈ seen ++ l then [] else [t]) := by
  induction l with
  | nil =>
    intro seen
    simp [firstDedupFrom]
  | cons a l ih =>
    intro seen
    simp only [List.cons_append, firstDedupFrom, List.append_eq]
    by_cases ha : a ∈ seen
    · rw [if_pos ha, if_pos ha, ih seen]
      have hiff : (t ∈ seen ++ l) ↔ (t ∈ seen ++ a :: l) := by
        simp only [List.mem_append, List.mem_cons]
        constructor
        · rintro (h | h)
          · exact Or.inl h
          · exact Or.inr (Or.inr h)
        · rintro (h | h | h)
          · exact Or.inl h
          · subst h
            exact Or.inl ha
          · exact Or.inr h
      rw [if_congr hiff rfl rfl]
    · rw [if_neg ha, if_neg ha, ih (a :: seen), List.cons_append]
      have hiff : (t ∈ a :: (seen ++ l)) ↔ (t ∈ seen ++ a :: l) := by
        simp only [List.mem_append, List.mem_cons]
        tauto
      rw [if_congr hiff rfl rfl, List.cons_append]

/-- The first-occurrence dedup has no duplicates. -/
theorem firstDedupFrom_nodup {α : Type} [DecidableEq α] (l : List α) :
    ∀ seen : List α, (firstDedupFrom l seen).Nodup := by
  induction l with
  | nil =>
    intro seen
    simp [firstDedupFrom]
  | cons a l ih =>
    intro seen
    simp only [firstDedupFrom]
    by_cases ha : a ∈ seen
    · rw [if_pos ha]
      exact ih seen
    · rw [if_neg ha]
      rw [List.nodup_cons]
      refine ⟨?_, ih (a :: seen)⟩
      intro hmem
      exact ((firstDedupFrom_mem l (a :: seen) a).mp hmem).2 (List.mem_cons_self _ _)

/-- A failed lookup means the key is absent. -/
theorem assocFind_none {α β : Type} [DecidableEq α] (m : List (α × β)) (k : α) :
    assocFind m k = none ↔ ¬ k ∈ m.map Prod.fst := by
  unfold assocFind
  constructor
  · intro h hk
    obtain ⟨e, he, hek⟩ := List.mem_map.mp hk
    have := List.find?_eq_none.mp (by
      rcases hf : List.find? (fun p => decide (p.1 = k)) m with _ | w
      · rfl
      · rw [hf] at h
        simp at h) e he
    simp [hek] at this
  · intro h
    rw [List.find?_eq_none.mpr]
    · rfl
    · intro x hx
      simp only [decide_eq_true_eq]
      intro hxk
      exact h (List.mem_map.mpr ⟨x, hx, hxk⟩)

/-- A present key looks up successfully. -/
theorem assocFind_some_of_mem {α β : Type} [DecidableEq α] (m : List (α × β)) (k : α)
    (h : k ∈ m.map Prod.fst) : ∃ v, assocFind m k = some v := by
  rcases hf : assocFind m k with _ | v
  · exact absurd ((assocFind_none m k).mp hf) (by simpa using h)
  · exact ⟨v, rfl⟩

end DedupLemmas

section WfLemmas

/-- Blanking the altloc column leaves all columns from 17 on untouched. -/
theorem blankAltloc_drop (l : Line) (h : 17 ≤ l.length) (n : Nat) (hn : 17 ≤ n) :
    (blankAltloc l).drop n = l.drop n := by
  unfold blankAltloc
  rw [List.drop_append_eq_append_drop]
  have hlen : (l.take 16).length = 16 := by
    rw [List.length_take]
    omega
  rw [List.drop_eq_nil_iff.mpr (by rw [List.length_take]; omega), List.nil_append, hlen]
  have he : n - 16 = (n - 17) + 1 := by omega
  rw [he, List.drop_succ_cons, List.drop_drop]
  congr 1
  omega

/-- Blanking the altloc column leaves any character from column 17 on intact. -/
theorem blankAltloc_pyAt (l : Line) (h : 17 ≤ l.length) (n : Nat) (hn : 17 ≤ n) :
    pyAt (blankAltloc l) n = pyAt l n := by
  unfold pyAt
  rw [List.getD_eq_getElem?_getD, List.getD_eq_getElem?_getD]
  have h0 : (blankAltloc l)[n]? = ((blankAltloc l).drop n)[0]? :=
    (List.getElem?_drop (blankAltloc l) n 0).symm
  have h1 : l[n]? = (l.drop n)[0]? := (List.getElem?_drop l n 0).symm
  rw [h0, h1, blankAltloc_drop l h n hn]

/-- Blanking the altloc column leaves any slice from column 17 on intact. -/
theorem blankAltloc_pySlice (l : Line) (h : 17 ≤ l.length) (a b : Nat) (ha : 17 ≤ a) :
    pySlice (blankAltloc l) a b = pySlice l a b := by
  unfold pySlice
  rw [blankAltloc_drop l h a ha]

/-- The fields a successful parse extracts, expressed against the padded line. -/
theorem parseAtomLine_fields (l : Line) (p : Atom) (h : parseAtomLine l = some p) :
    p.raw = safePad l 80 ∧
    pyInt (pySlice (safePad l 80) 22 26) = some p.resseq ∧
    p.chain = chainOfLine (safePad l 80) ∧
    p.icode = pyAt (safePad l 80) 26 ∧
    p.rcd = pySlice (safePad l 80) 0 6 := by
  simp only [parseAtomLine] at h
  by_cases hrc : pySlice (safePad l 80) 0 6 = "ATOM  ".data ∨
      pySlice (safePad l 80) 0 6 = "HETATM".data
  · rw [if_pos hrc] at h
    rcases hq : pyInt (pySlice (safePad l 80) 22 26) with _ | resseq <;> rw [hq] at h
    · exact absurd h (by simp)
    · rcases h1 : pyFloat (pySlice (safePad l 80) 30 38) with _ | x <;> rw [h1] at h
      · exact absurd h (by simp)
      rcases h2 : pyFloat (pySlice (safePad l 80) 38 46) with _ | y <;> rw [h2] at h
      · exact absurd h (by simp)
      rcases h3 : pyFloat (pySlice (safePad l 80) 46 54) with _ | z <;> rw [h3] at h
      · exact absurd h (by simp)
      have hp := Option.some.inj h
      subst hp
      exact ⟨rstripNl_safePad l 80, rfl, rfl, rfl, rfl⟩
  · rw [if_neg hrc] at h
    exact absurd h (by simp)

/-- Every atom of the protein stream arises from a successful parse with its
altloc column blanked. -/
theorem readAtomStep_protein_elim (cfg : ReadCfg) (st : ReadState) (raw : Line) :
    ∀ a ∈ (readAtomStep cfg st raw).protein, a ∈ st.protein ∨
      ∃ p, parseAtomLine raw = some p ∧ a = { p with raw := blankAltloc p.raw } := by
  unfold readAtomStep
  split
  · exact fun a ha => Or.inl ha
  · rename_i p hp
    split
    · exact fun a ha => Or.inl ha
    · split
      · exact fun a ha => Or.inl ha
      · split
        · split
          · intro a ha
            rcases List.mem_append.mp ha with h | h
            · exact Or.inl h
            · exact Or.inr ⟨p, hp, List.mem_singleton.mp h⟩
          · exact fun a ha => Or.inl ha
        · split
          · split
            · exact fun a ha => Or.inl ha
            · split
              · exact fun a ha => Or.inl ha
              · exact fun a ha => Or.inl ha
          · exact fun a ha => Or.inl ha

/-- The reading pass only accumulates parse-derived protein atoms. -/
theorem readGo_protein_elim (cfg : ReadCfg) (ls : List Line) :
    ∀ (seen : Bool) (st : ReadState), ∀ a ∈ (readGo cfg ls seen st).protein,
      a ∈ st.protein ∨
        ∃ p l0, parseAtomLine l0 = some p ∧ a = { p with raw := blankAltloc p.raw } := by
  induction ls with
  | nil => exact fun seen st a ha => Or.inl ha
  | cons raw rest ih =>
    intro seen st a
    simp only [readGo]
    split
    · exact ih true st a
    · split
      · exact fun ha => Or.inl ha
      · split
        · intro ha
          rcases ih seen _ a ha with h | h
          · exact Or.inl h
          · exact Or.inr h
        · split
          · intro ha
            rcases ih seen _ a ha with h | h
            · exact Or.inl h
            · exact Or.inr h
          · intro ha
            rcases ih seen _ a ha with h | h
            · rcases readAtomStep_protein_elim cfg st raw a h with h2 | ⟨p, hp, he⟩
              · exact Or.inl h2
              · exact Or.inr ⟨p, raw, hp, he⟩
            · exact Or.inr h

/-- Well-formedness of the stored raw line of every protein-stream atom: the
re-extraction the output loop performs recovers exactly the parsed fields. -/
theorem protein_atom_wf (cfg : ReadCfg) (lines : List Line) (a : Atom)
    (ha : a ∈ (readPass cfg lines).protein) :
    chainOfLine a.raw = a.chain ∧ pyInt (pySlice a.raw 22 26) = some a.resseq ∧
      pyAt a.raw 26 = a.icode := by
  rcases readGo_protein_elim cfg lines false ⟨[], [], [], []⟩ a ha with h | ⟨p, l0, hp, he⟩
  · simp at h
  · obtain ⟨hraw, hq, hchain, hicode, -⟩ := parseAtomLine_fields l0 p hp
    have hlen : 17 ≤ (safePad l0 80).length := le_trans (by omega) (safePad_length l0 80)
    subst he
    rw [hraw] at *
    refine ⟨?_, ?_, ?_⟩
    · show chainOfLine (blankAltloc (safePad l0 80)) = p.chain
      unfold chainOfLine
      rw [blankAltloc_pyAt _ hlen 21 (by omega)]
      exact hchain.symm
    · show pyInt (pySlice (blankAltloc (safePad l0 80)) 22 26) = some p.resseq
      rw [blankAltloc_pySlice _ hlen 22 26 (by omega)]
      exact hq
    · show pyAt (blankAltloc (safePad l0 80)) 26 = p.icode
      rw [blankAltloc_pyAt _ hlen 26 (by omega)]
      exact hicode.symm

end WfLemmas

section EmitLemmas

/-- Appending one atom performs one output-loop step. -/
theorem emitFold_append (rn : Bool) (ps : List Atom) (a : Atom) :
    emitFold rn (ps ++ [a]) = emitStep rn (emitFold rn ps) a := by
  simp [emitFold, List.foldl_append]

/-- A step on an already-seen triple leaves the mapping and counters alone. -/
theorem emitStep_seen (st : EmitState) (a : Atom)
    (hwc : chainOfLine a.raw = a.chain) (hwq : pyInt (pySlice a.raw 22 26) = some a.resseq)
    (hwi : pyAt a.raw 26 = a.icode) (n : Nat)
    (hfind : assocFind st.new_resseq (a.chain, a.resseq, a.icode) = some n) :
    (emitStep true st a).new_resseq = st.new_resseq ∧
    (emitStep true st a).current_new = st.current_new := by
  simp only [emitStep, hwq, hwc, hwi, hfind]
  exact ⟨rfl, rfl⟩

/-- A step on a new triple appends it with the next chain counter. -/
theorem emitStep_new (st : EmitState) (a : Atom)
    (hwc : chainOfLine a.raw = a.chain) (hwq : pyInt (pySlice a.raw 22 26) = some a.resseq)
    (hwi : pyAt a.raw 26 = a.icode)
    (hfind : assocFind st.new_resseq (a.chain, a.resseq, a.icode) = none) :
    (emitStep true st a).new_resseq = st.new_resseq ++
      [((a.chain, a.resseq, a.icode), (assocFind st.current_new a.chain).getD 0 + 1)] ∧
    (emitStep true st a).current_new =
      assocSet st.current_new a.chain ((assocFind st.current_new a.chain).getD 0 + 1) := by
  simp only [emitStep, hwq, hwc, hwi, hfind]
  exact ⟨rfl, rfl⟩

/-- Invariant of the renumbering fold over well-formed atoms: the mapping's
keys are the triples in first-encounter order, the per-chain counters equal
the number of distinct triples of that chain, and the per-chain assigned
numbers are exactly `1..k` in key order. -/
theorem emit_renumber_inv (atoms : List Atom)
    (hwf : ∀ a ∈ atoms, chainOfLine a.raw = a.chain ∧
      pyInt (pySlice a.raw 22 26) = some a.resseq ∧ pyAt a.raw 26 = a.icode) :
    ((emitFold true atoms).new_resseq.map Prod.fst =
        firstDedup (atoms.map (fun x => (x.chain, x.resseq, x.icode)))) ∧
    (∀ c : Char, (assocFind (emitFold true atoms).current_new c).getD 0 =
        (firstDedup (atoms.map (fun x => (x.chain, x.resseq, x.icode)))).countP
          (fun t => decide (t.1 = c))) ∧
    (∀ c : Char,
        ((emitFold true atoms).new_resseq.filter (fun e => decide (e.1.1 = c))).map Prod.snd =
          List.range' 1
            ((firstDedup (atoms.map (fun x => (x.chain, x.resseq, x.icode)))).countP
              (fun t => decide (t.1 = c)))) := by
  induction atoms using List.reverseRecOn with
  | nil => exact ⟨rfl, fun c => rfl, fun c => rfl⟩
  | append_singleton ps a ih =>
    obtain ⟨ih1, ih2, ih3⟩ := ih (fun b hb => hwf b (List.mem_append_left _ hb))
    obtain ⟨hwc, hwq, hwi⟩ := hwf a (List.mem_append_right _ (List.mem_singleton.mpr rfl))
    rw [emitFold_append]
    have htr : (ps ++ [a]).map (fun x => (x.chain, x.resseq, x.icode)) =
        ps.map (fun x => (x.chain, x.resseq, x.icode)) ++ [(a.chain, a.resseq, a.icode)] := by
      simp
    have hfd := firstDedupFrom_append
      (ps.map (fun x => (x.chain, x.resseq, x.icode))) (a.chain, a.resseq, a.icode) []
    rcases hfind : assocFind (emitFold true ps).new_resseq (a.chain, a.resseq, a.icode)
      with _ | n
    · -- new triple
      have htm : ¬ (a.chain, a.resseq, a.icode) ∈
          ps.map (fun x => (x.chain, x.resseq, x.icode)) := by
        intro hmem
        have hk : (a.chain, a.resseq, a.icode) ∈ (emitFold true ps).new_resseq.map Prod.fst := by
          rw [ih1]
          exact (firstDedupFrom_mem _ _ _).mpr ⟨hmem, by simp⟩
        obtain ⟨v, hv⟩ := assocFind_some_of_mem _ _ hk
        rw [hv] at hfind
        exact absurd hfind (by simp)
      have hfd2 : firstDedup ((ps ++ [a]).map (fun x => (x.chain, x.resseq, x.icode))) =
          firstDedup (ps.map (fun x => (x.chain, x.resseq, x.icode)))
            ++ [(a.chain, a.resseq, a.icode)] := by
        unfold firstDedup
        rw [htr, hfd, if_neg (by simpa using htm)]
      obtain ⟨hnr, hcn⟩ := emitStep_new (emitFold true ps) a hwc hwq hwi hfind
      refine ⟨?_, ?_, ?_⟩
      · rw [hnr, hfd2, List.map_append, ih1, List.map_cons, List.map_nil]
      · intro c
        rw [hcn, hfd2, List.countP_append]
        by_cases hc : a.chain = c
        · subst hc
          rw [assocFind_set_self]
          simp only [Option.getD_some]
          rw [ih2 a.chain]
          simp
        · rw [assocFind_set_ne _ _ _ _ (fun hh => hc hh.symm), ih2 c]
          have hz : List.countP (fun t => decide (t.1 = c)) [(a.chain, a.resseq, a.icode)] = 0 := by
            simp [hc]
          rw [hz]
          omega
      · intro c
        rw [hnr, hfd2, List.filter_append, List.map_append, ih3 c, List.countP_append]
        by_cases hc : a.chain = c
        · subst hc
          have h1 : List.filter (fun e => decide (e.1.1 = a.chain))
              [((a.chain, a.resseq, a.icode),
                (assocFind (emitFold true ps).current_new a.chain).getD 0 + 1)] =
              [((a.chain, a.resseq, a.icode),
                (assocFind (emitFold true ps).current_new a.chain).getD 0 + 1)] := by
            simp [List.filter_cons]
          have h2 : List.countP (fun t => decide (t.1 = a.chain))
              [(a.chain, a.resseq, a.icode)] = 1 := by
            simp
          rw [h1, h2, ih2 a.chain]
          rw [List.range'_concat]
          simp [Nat.add_comm]
        · have h1 : List.filter (fun e => decide (e.1.1 = c))
              [((a.chain, a.resseq, a.icode),
                (assocFind (emitFold true ps).current_new a.chain).getD 0 + 1)] = [] := by
            simp [List.filter_cons, hc]
          have h2 : List.countP (fun t => decide (t.1 = c))
              [(a.chain, a.resseq, a.icode)] = 0 := by
            simp [hc]
          rw [h1, h2, List.map_nil, List.append_nil, Nat.add_zero]
    · -- seen triple
      have htm : (a.chain, a.resseq, a.icode) ∈
          ps.map (fun x => (x.chain, x.resseq, x.icode)) := by
        by_contra hmem
        have hk : ¬ (a.chain, a.resseq, a.icode) ∈ (emitFold true ps).new_resseq.map Prod.fst := by
          rw [ih1]
          intro hh
          exact hmem ((firstDedupFrom_mem _ _ _).mp hh).1
        rw [(assocFind_none _ _).mpr hk] at hfind
        exact absurd hfind (by simp)
      have hfd2 : firstDedup ((ps ++ [a]).map (fun x => (x.chain, x.resseq, x.icode))) =
          firstDedup (ps.map (fun x => (x.chain, x.resseq, x.icode))) := by
        unfold firstDedup
        rw [htr, hfd, if_pos (by simpa using htm), List.append_nil]
      obtain ⟨hnr, hcn⟩ := emitStep_seen (emitFold true ps) a hwc hwq hwi n hfind
      exact ⟨by rw [hnr, hfd2, ih1], fun c => by rw [hcn, hfd2]; exact ih2 c,
        fun c => by rw [hnr, hfd2]; exact ih3 c⟩

end EmitLemmas

/-- Claim C5: with renumbering enabled, the mapping built over the filtered
protein stream lists the encountered (chain, residue number, insertion code)
triples in strict first-encounter order, assigns within each chain exactly the
dense range `1..k` in that order (a bijection per chain), gives triples
differing only in insertion code distinct numbers (per-chain injectivity), and
resolves every stream atom's triple (so atoms sharing a triple share the
assigned number). -/
theorem C5_renumbering_bijection (cfg : ReadCfg) (lines : List Line) :
    ((emitFold true (readPass cfg lines).protein).new_resseq.map Prod.fst =
        firstDedup ((readPass cfg lines).protein.map (fun x => (x.chain, x.resseq, x.icode)))) ∧
    (∀ c : Char,
        ((emitFold true (readPass cfg lines).protein).new_resseq.filter
            (fun e => decide (e.1.1 = c))).map Prod.snd =
          List.range' 1
            ((firstDedup ((readPass cfg lines).protein.map
                (fun x => (x.chain, x.resseq, x.icode)))).countP (fun t => decide (t.1 = c)))) ∧
    (∀ k1 k2 : Char × Int × Char, ∀ n1 n2 : Nat,
        (k1, n1) ∈ (emitFold true (readPass cfg lines).protein).new_resseq →
        (k2, n2) ∈ (emitFold true (readPass cfg lines).protein).new_resseq →
        k1.1 = k2.1 → ¬ k1 = k2 → ¬ n1 = n2) ∧
    (∀ a ∈ (readPass cfg lines).protein,
        ∃ n, assocFind (emitFold true (readPass cfg lines).protein).new_resseq
          (a.chain, a.resseq, a.icode) = some n) := by
  obtain ⟨h1, h2, h3⟩ := emit_renumber_inv (readPass cfg lines).protein
    (fun a ha => protein_atom_wf cfg lines a ha)
  refine ⟨h1, h3, ?_, ?_⟩
  · intro k1 k2 n1 n2 hm1 hm2 hcc hne hn
    subst hn
    have hf1 : (k1, n1) ∈ (emitFold true (readPass cfg lines).protein).new_resseq.filter
        (fun e => decide (e.1.1 = k1.1)) := List.mem_filter.mpr ⟨hm1, by simp⟩
    have hf2 : (k2, n1) ∈ (emitFold true (readPass cfg lines).protein).new_resseq.filter
        (fun e => decide (e.1.1 = k1.1)) :=
      List.mem_filter.mpr ⟨hm2, by simp [hcc.symm]⟩
    have hnd : (((emitFold true (readPass cfg lines).protein).new_resseq.filter
        (fun e => decide (e.1.1 = k1.1))).map Prod.snd).Nodup := by
      rw [h3 k1.1]
      exact List.nodup_range' _ _
    have heq := List.inj_on_of_nodup_map hnd hf1 hf2 rfl
    exact hne (congrArg Prod.fst heq)
  · intro a ha
    apply assocFind_some_of_mem
    rw [h1]
    exact (firstDedupFrom_mem _ _ _).mpr ⟨List.mem_map.mpr ⟨a, ha, rfl⟩, by simp⟩

/-- Witness for C5 at a concrete two-line input whose residues differ only in
insertion code: the mapping lists both triples in encounter order, and the
theorem's injectivity separates the numbers assigned to `A 1` and `A 1A`. -/
theorem C5_renumbering_bijection_witness :
    ((emitFold true (readPass ⟨none, none, 'A', true⟩
        ["ATOM      1  CA  ALA A   1      11.000  12.000  13.000".data,
         "ATOM      2  CB  ALA A   1A     11.000  12.000  14.000".data]).protein).new_resseq.map
          Prod.fst =
      firstDedup ((readPass ⟨none, none, 'A', true⟩
        ["ATOM      1  CA  ALA A   1      11.000  12.000  13.000".data,
         "ATOM      2  CB  ALA A   1A     11.000  12.000  14.000".data]).protein.map
          (fun x => (x.chain, x.resseq, x.icode)))) ∧
    ¬ (1 : Nat) = 2 := by
  constructor
  · exact (C5_renumbering_bijection ⟨none, none, 'A', true⟩ _).1
  · exact (C5_renumbering_bijection ⟨none, none, 'A', true⟩
      ["ATOM      1  CA  ALA A   1      11.000  12.000  13.000".data,
       "ATOM      2  CB  ALA A   1A     11.000  12.000  14.000".data]).2.2.1
      ('A', 1, ' ') ('A', 1, 'A') 1 2 (by decide) (by decide) rfl (by decide)

section ContactLemmas

/-- Every nonempty pair list has a first minimiser. -/
theorem exists_first_min (xs : List (ℚ × LigKey)) (hne : xs ≠ []) :
    ∃ p ∈ xs, (∀ q ∈ xs, p.1 ≤ q.1) ∧
      xs.find? (fun q => decide (q.1 = p.1)) = some p := by
  induction xs with
  | nil => exact absurd rfl hne
  | cons x rest ih =>
    by_cases hr : rest = []
    · subst hr
      refine ⟨x, List.mem_cons_self _ _, ?_, by simp [List.find?_cons]⟩
      intro q hq
      rw [List.mem_singleton.mp hq]
    · obtain ⟨p, hp, hmin, hfind⟩ := ih hr
      by_cases hx : x.1 ≤ p.1
      · refine ⟨x, List.mem_cons_self _ _, ?_, by simp [List.find?_cons]⟩
        intro q hq
        rcases List.mem_cons.mp hq with h | h
        · rw [h]
        · exact le_trans hx (hmin q h)
      · push_neg at hx
        refine ⟨p, List.mem_cons_of_mem _ hp, ?_, ?_⟩
        · intro q hq
          rcases List.mem_cons.mp hq with h | h
          · rw [h]
            exact le_of_lt hx
          · exact hmin q h
        · have hc : decide (x.1 = p.1) = false := by
            simp only [decide_eq_false_iff_not]
            exact ne_of_gt hx
          rw [List.find?_cons, hc]
          exact hfind

/-- When some pair strictly improves on the sentinel, the fold returns the
first minimiser together with its minimality facts. -/
theorem foldPairs_updated (xs : List (ℚ × LigKey)) (b : ℚ × LigKey)
    (h : ∃ q ∈ xs, q.1 < b.1) :
    ∃ p ∈ xs, foldPairs xs b = p ∧ (∀ q ∈ xs, p.1 ≤ q.1) ∧ p.1 < b.1 ∧
      xs.find? (fun q => decide (q.1 = p.1)) = some p := by
  obtain ⟨q0, hq0, hq0lt⟩ := h
  obtain ⟨p, hp, hmin, hfind⟩ := exists_first_min xs (by
    intro hh
    rw [hh] at hq0
    simp at hq0)
  have hplt : p.1 < b.1 := lt_of_le_of_lt (hmin q0 hq0) hq0lt
  exact ⟨p, hp, foldPairs_first_min xs b p hp hmin hplt hfind, hmin, hplt, hfind⟩

/-- Membership in the sorted contact list is membership in `res_best` plus the
cutoff/ligand-name guard. -/
theorem sortedContacts_mem (rb : List (ResKey × (ℚ × LigKey))) (cutoff : ℚ)
    (item : ResKey × (ℚ × LigKey)) :
    item ∈ sortedContacts rb cutoff ↔ item ∈ rb ∧ contactKeep cutoff item = true := by
  unfold sortedContacts
  rw [List.Perm.mem_iff (List.perm_insertionSort _ _)]
  exact List.mem_filter

/-- Unpacking a reported contact into the `res_best` characterisation. -/
theorem contact_mem_resBest (protein lig : List Atom) (cutoff : ℚ)
    (rid : ResKey) (v : ℚ × LigKey)
    (hmem : (rid, v) ∈ sortedContacts (resBest protein (ligXyz lig)) cutoff) :
    rid ∈ protein.map ridOf ∧
      v = foldPairs (pairList protein (ligXyz lig) rid) (SENT2, sentLig) ∧
      contactKeep cutoff (rid, v) = true := by
  rw [sortedContacts_mem] at hmem
  obtain ⟨hm, hk⟩ := hmem
  have hfind := (assocFind_mem _ (resBest_keys_nodup protein (ligXyz lig)) rid v).mp hm
  rw [resBest_find] at hfind
  by_cases hmm : rid ∈ protein.map ridOf
  · rw [if_pos hmm] at hfind
    exact ⟨hmm, (Option.some.inj hfind).symm, hk⟩
  · rw [if_neg hmm] at hfind
    exact absurd hfind (by simp)

/-- Every atom pair of a residue contributes its squared distance to the
residue's pair list. -/
theorem pair_mem_pairList (protein lig : List Atom) (rid : ResKey)
    (a : Atom) (ha : a ∈ protein) (har : ridOf a = rid) (b : Atom) (hb : b ∈ lig) :
    (dist2 a.x a.y a.z b.x b.y b.z, lridOf b) ∈ pairList protein (ligXyz lig) rid := by
  unfold pairList
  rw [List.mem_flatMap]
  refine ⟨a, List.mem_filter.mpr ⟨ha, by simp [har]⟩, ?_⟩
  exact List.mem_map.mpr ⟨(b.x, b.y, b.z, lridOf b), List.mem_map.mpr ⟨b, hb, rfl⟩, rfl⟩

/-- Conversely every pair-list entry comes from one protein atom of the
residue and one ligand atom. -/
theorem pairList_mem_elim (protein lig : List Atom) (rid : ResKey) (p : ℚ × LigKey)
    (hp : p ∈ pairList protein (ligXyz lig) rid) :
    ∃ a ∈ protein, ridOf a = rid ∧
      ∃ b ∈ lig, p = (dist2 a.x a.y a.z b.x b.y b.z, lridOf b) := by
  unfold pairList at hp
  rw [List.mem_flatMap] at hp
  obtain ⟨a, haf, hpm⟩ := hp
  obtain ⟨ha, har⟩ := List.mem_filter.mp haf
  obtain ⟨q, hq, hqe⟩ := List.mem_map.mp hpm
  obtain ⟨b, hb, hbe⟩ := List.mem_map.mp hq
  refine ⟨a, ha, by simpa using har, b, hb, ?_⟩
  rw [← hqe, ← hbe]

end ContactLemmas

/-- Claim C4: a reported occlusion entry records exactly the minimum of the
squared distances over all pairs of the residue's atoms and ligand atoms — in
Euclidean terms, `√d2` is a lower bound of every atom-pair distance (in
particular of every pair with the recorded ligand residue, so it never
over-estimates), and the minimum is attained by a pair whose ligand atom
belongs to the recorded ligand residue. -/
theorem C4_recorded_minimum (protein lig : List Atom) (cutoff : ℚ) (rid : ResKey)
    (d2 : ℚ) (lrid : LigKey)
    (hmem : (rid, (d2, lrid)) ∈ sortedContacts (resBest protein (ligXyz lig)) cutoff) :
    (∀ a ∈ protein, ridOf a = rid → ∀ b ∈ lig,
        Real.sqrt ((d2 : ℝ)) ≤ Real.sqrt (((dist2 a.x a.y a.z b.x b.y b.z : ℚ) : ℝ))) ∧
    (∃ a ∈ protein, ridOf a = rid ∧ ∃ b ∈ lig, lridOf b = lrid ∧
        d2 = dist2 a.x a.y a.z b.x b.y b.z) := by
  obtain ⟨hrid, hv, hk⟩ := contact_mem_resBest protein lig cutoff rid (d2, lrid) hmem
  constructor
  · intro a ha har b hb
    have hple := (foldPairs_fst_le (pairList protein (ligXyz lig) rid) (SENT2, sentLig)).2
      _ (pair_mem_pairList protein lig rid a ha har b hb)
    rw [← hv] at hple
    exact Real.sqrt_le_sqrt (by exact_mod_cast hple)
  · rcases foldPairs_attain (pairList protein (ligXyz lig) rid) (SENT2, sentLig) with
      hat | ⟨p, hp, hat⟩
    · exfalso
      have hsent : lrid = sentLig := congrArg Prod.snd (hv.trans hat)
      rw [contactKeep] at hk
      simp [hsent, sentLig] at hk
    · obtain ⟨a, ha, har, b, hb, hpe⟩ := pairList_mem_elim protein lig rid p hp
      have h2 := hv.trans hat
      rw [hpe] at h2
      exact ⟨a, ha, har, b, hb, (congrArg Prod.snd h2).symm, congrArg Prod.fst h2⟩

/-- Witness for C4 at a one-atom protein and ligand: the recorded entry for
residue `A 5 ALA` is distance² 9 to ligand `LIG B 1`, and the theorem applies. -/
theorem C4_recorded_minimum_witness :
    (∀ a ∈ [(⟨"ATOM  ".data, "CA".data, ' ', "ALA".data, 'A', 5, ' ', 0, 0, 0, "C".data, []⟩ : Atom)],
        ridOf a = ('A', 5, ' ', "ALA".data) →
      ∀ b ∈ [(⟨"HETATM".data, "C1".data, ' ', "LIG".data, 'B', 1, ' ', 3, 0, 0, "C".data, []⟩ : Atom)],
        Real.sqrt (((9 : ℚ) : ℝ)) ≤ Real.sqrt (((dist2 a.x a.y a.z b.x b.y b.z : ℚ) : ℝ))) ∧
    (∃ a ∈ [(⟨"ATOM  ".data, "CA".data, ' ', "ALA".data, 'A', 5, ' ', 0, 0, 0, "C".data, []⟩ : Atom)],
        ridOf a = ('A', 5, ' ', "ALA".data) ∧
      ∃ b ∈ [(⟨"HETATM".data, "C1".data, ' ', "LIG".data, 'B', 1, ' ', 3, 0, 0, "C".data, []⟩ : Atom)],
        lridOf b = ("LIG".data, 'B', 1, ' ') ∧
        (9 : ℚ) = dist2 a.x a.y a.z b.x b.y b.z) := by
  apply C4_recorded_minimum
     _ _ 4 ('A', 5, ' ', "ALA".data) 9 ("LIG".data, 'B', 1, ' ')
  norm_num [sortedContacts, contactItems, resBest, resBestStep, innerFold, dist2, ligXyz,
    assocFind, assocSet, contactKeep, SENT2, sentLig, ridOf, lridOf,
    List.insertionSort, List.orderedInsert, List.foldl, List.filter]

/-- Claim C3, corrected: for a nonnegative cutoff below the sentinel, a
residue receives an occlusion entry iff its pair list has a first minimiser
whose squared distance is within the squared cutoff AND whose ligand residue
name is nonempty — the source's `lresn` truthiness guard tests only the name
of the recorded (first-minimising) ligand residue, so a residue whose nearest
ligand residue has a blank name is silently not reported even when ligand
atoms lie within the cutoff (and a residue with no ligand atom in range is
absent from the report altogether, with no sentinel entry). -/
theorem C3_occlusion_reported_iff (protein lig : List Atom) (cutoff : ℚ) (rid : ResKey)
    (hc0 : 0 ≤ cutoff) (hc1 : cutoff * cutoff < SENT2) :
    (∃ v, (rid, v) ∈ sortedContacts (resBest protein (ligXyz lig)) cutoff) ↔
      (∃ p ∈ pairList protein (ligXyz lig) rid,
        (∀ q ∈ pairList protein (ligXyz lig) rid, p.1 ≤ q.1) ∧
        (pairList protein (ligXyz lig) rid).find? (fun q => decide (q.1 = p.1)) = some p ∧
        p.1 ≤ cutoff * cutoff ∧ ¬ p.2.1.isEmpty = true) := by
  constructor
  · rintro ⟨v, hv⟩
    obtain ⟨hrid, hveq, hk⟩ := contact_mem_resBest protein lig cutoff rid v hv
    have hle : v.1 ≤ cutoff * cutoff := by
      have h := hk
      unfold contactKeep at h
      simp only [Bool.and_eq_true, decide_eq_true_eq] at h
      exact h.1.2
    have hne : v.2.1.isEmpty = false := by
      have h := hk
      unfold contactKeep at h
      simp only [Bool.and_eq_true] at h
      simpa using h.2
    have hup : ∃ q ∈ pairList protein (ligXyz lig) rid, q.1 < (SENT2, sentLig).1 := by
      rcases foldPairs_attain (pairList protein (ligXyz lig) rid) (SENT2, sentLig) with
        hat | ⟨p, hp, hat⟩
      · exfalso
        have hvs : v = (SENT2, sentLig) := hveq.trans hat
        rw [show v.2 = sentLig from congrArg Prod.snd hvs] at hne
        simp [sentLig] at hne
      · refine ⟨p, hp, ?_⟩
        have hpv : p.1 = v.1 := by rw [hveq, hat]
        rw [hpv]
        exact lt_of_le_of_lt hle hc1
    obtain ⟨p, hp, hfold, hmin, hplt, hfind⟩ :=
      foldPairs_updated (pairList protein (ligXyz lig) rid) (SENT2, sentLig) hup
    have hpv : p = v := by rw [hveq, hfold]
    refine ⟨p, hp, hmin, hfind, ?_, ?_⟩
    · rw [hpv]
      exact hle
    · rw [hpv, hne]
      simp
  · rintro ⟨p, hp, hmin, hfind, hle, hne⟩
    have hplt : p.1 < (SENT2, sentLig).1 := lt_of_le_of_lt hle hc1
    have hfold := foldPairs_first_min (pairList protein (ligXyz lig) rid)
      (SENT2, sentLig) p hp hmin hplt hfind
    have hrid : rid ∈ protein.map ridOf := by
      obtain ⟨a, ha, har, -⟩ := pairList_mem_elim protein lig rid p hp
      exact List.mem_map.mpr ⟨a, ha, har⟩
    have hfindm : assocFind (resBest protein (ligXyz lig)) rid = some p := by
      rw [resBest_find, if_pos hrid, hfold]
    have hmem : (rid, p) ∈ resBest protein (ligXyz lig) :=
      (assocFind_mem _ (resBest_keys_nodup protein (ligXyz lig)) rid p).mpr hfindm
    refine ⟨p, (sortedContacts_mem _ _ _).mpr ⟨hmem, ?_⟩⟩
    unfold contactKeep
    simp only [Bool.and_eq_true, decide_eq_true_eq]
    refine ⟨⟨hc0, hle⟩, by simpa using hne⟩

/-- Witness for C3 at a one-atom protein and a ligand within range: the
equivalence applies with cutoff `4`, and its left side holds. -/
theorem C3_occlusion_reported_iff_witness :
    ∃ v, (('A', 5, ' ', "ALA".data), v) ∈
      sortedContacts (resBest
        [(⟨"ATOM  ".data, "CA".data, ' ', "ALA".data, 'A', 5, ' ', 0, 0, 0, "C".data, []⟩ : Atom)]
        (ligXyz
          [(⟨"HETATM".data, "C1".data, ' ', "LIG".data, 'B', 1, ' ', 3, 0, 0, "C".data, []⟩ : Atom)])) 4 := by
  apply (C3_occlusion_reported_iff _ _ 4 ('A', 5, ' ', "ALA".data)
    (by norm_num) (by norm_num [SENT2])).mpr
  refine ⟨((9 : ℚ), ("LIG".data, 'B', 1, ' ')), ?_, ?_, ?_, by norm_num, by simp⟩
  · norm_num [pairList, ligXyz, dist2, ridOf, lridOf, List.filter]
  · intro q hq
    norm_num [pairList, ligXyz, dist2, ridOf, lridOf, List.filter] at hq
    rw [hq]
  · norm_num [pairList, ligXyz, dist2, ridOf, lridOf, List.filter, List.find?_cons]

/-- Counterexample to claim C3 as stated: a heteroatom with a blank residue
name is retained as a ligand atom (blank names are not in the water set), a
protein residue lies at distance 1 ≤ 4 from it, yet the occlusion report is
empty — the `lresn` truthiness guard drops the entry, falsifying the claimed
"iff some retained ligand atom exists and the minimum distance is within the
cutoff". -/
theorem C3_occlusion_reported_iff_counterexample :
    (readPass ⟨none, none, 'A', true⟩
      ["HETATM    2  C1      B   1       1.000   0.000   0.000  1.00  0.00           C".data]).ligand.length = 1 ∧
    ((parseAtomLine
      "HETATM    2  C1      B   1       1.000   0.000   0.000  1.00  0.00           C".data).map
        Atom.resn) = some [] ∧
    ligXyz [(⟨"HETATM".data, "C1".data, ' ', [], 'B', 1, ' ', 1, 0, 0, "C".data, []⟩ : Atom)] ≠ [] ∧
    pairList [(⟨"ATOM  ".data, "CA".data, ' ', "ALA".data, 'A', 5, ' ', 0, 0, 0, "C".data, []⟩ : Atom)]
        (ligXyz [(⟨"HETATM".data, "C1".data, ' ', [], 'B', 1, ' ', 1, 0, 0, "C".data, []⟩ : Atom)])
        ('A', 5, ' ', "ALA".data) = [((1 : ℚ), (([] : Line), 'B', 1, ' '))] ∧
    ((1 : ℚ) ≤ (4 : ℚ) * 4) ∧
    sortedContacts (resBest
      [(⟨"ATOM  ".data, "CA".data, ' ', "ALA".data, 'A', 5, ' ', 0, 0, 0, "C".data, []⟩ : Atom)]
      (ligXyz [(⟨"HETATM".data, "C1".data, ' ', [], 'B', 1, ' ', 1, 0, 0, "C".data, []⟩ : Atom)])) 4 = [] := by
  refine ⟨by decide, by decide, by simp [ligXyz], ?_, by norm_num, ?_⟩
  · norm_num [pairList, ligXyz, dist2, ridOf, lridOf, List.filter]
  · norm_num [sortedContacts, contactItems, resBest, resBestStep, innerFold, dist2, ligXyz,
      assocFind, assocSet, contactKeep, SENT2, sentLig, ridOf, lridOf,
      List.insertionSort, List.orderedInsert, List.foldl, List.filter]

/-- One step of the atom filter keeps no hydrogen-classified record when
hydrogen dropping is on. -/
theorem readAtomStep_no_h (cfg : ReadCfg) (hdrop : cfg.drop_h = true) (st : ReadState)
    (raw : Line) (hst : ∀ a, a ∈ st.protein ++ st.ligand → is_h a = false) :
    ∀ a, a ∈ (readAtomStep cfg st raw).protein ++ (readAtomStep cfg st raw).ligand →
      is_h a = false := by
  unfold readAtomStep
  split
  · exact hst
  · rename_i p hp
    split
    · exact hst
    · split
      · exact hst
      · rename_i hdh
        have hih : is_h p = false := by
          rcases Bool.eq_false_or_eq_true (is_h p) with h | h
          · exact absurd (by simp [hdrop, h]) hdh
          · exact h
        split
        · split
          · intro a ha
            simp only [List.mem_append, List.mem_singleton] at ha
            rcases ha with (ha | ha) | ha
            · exact hst a (List.mem_append_left _ ha)
            · rw [ha]
              exact hih
            · exact hst a (List.mem_append_right _ ha)
          · exact hst
        · split
          · split
            · exact hst
            · split
              · intro a ha
                simp only [List.mem_append, List.mem_singleton] at ha
                rcases ha with ha | (ha | ha)
                · exact hst a (List.mem_append_left _ ha)
                · exact hst a (List.mem_append_right _ ha)
                · rw [ha]
                  exact hih
              · exact hst
          · exact hst

/-- The reading pass keeps no hydrogen-classified record when hydrogen
dropping is on. -/
theorem readGo_no_h (cfg : ReadCfg) (hdrop : cfg.drop_h = true) :
    ∀ (ls : List Line) (seen : Bool) (st : ReadState),
      (∀ a, a ∈ st.protein ++ st.ligand → is_h a = false) →
      ∀ a, a ∈ (readGo cfg ls seen st).protein ++ (readGo cfg ls seen st).ligand →
        is_h a = false := by
  intro ls
  induction ls with
  | nil => intro seen st hst; exact hst
  | cons raw rest ih =>
    intro seen st hst
    simp only [readGo]
    split
    · exact ih true st hst
    · split
      · exact hst
      · split
        · exact ih _ _ (fun a ha => hst a (by simpa using ha))
        · split
          · exact ih _ _ (fun a ha => hst a (by simpa using ha))
          · exact ih _ _ (readAtomStep_no_h cfg hdrop st raw hst)

/-- Claim C2, corrected: with hydrogen dropping enabled, a record survives the
filter only if its uppercased element symbol is not `H` AND its atom name does
not start with `H` — the name-prefix heuristic applies to every record, not
only to records without a usable element field. -/
theorem C2_hydrogen_filter_amended (cfg : ReadCfg) (lines : List Line)
    (hdrop : cfg.drop_h = true) (a : Atom)
    (ha : a ∈ (readPass cfg lines).protein ++ (readPass cfg lines).ligand) :
    is_h a = false ∧ ¬ a.element.map Char.toUpper = ['H'] ∧
      ¬ a.atom_name.take 1 = ['H'] := by
  have h := readGo_no_h cfg hdrop lines false ⟨[], [], [], []⟩ (by intro a ha; simp at ha) a ha
  refine ⟨h, ?_, ?_⟩
  · intro hc
    rw [is_h, hc] at h
    simp at h
  · intro hc
    rw [is_h, hc] at h
    simp at h

/-- Witness for C2 at a concrete input: the lone retained atom of a one-line
file is not hydrogen-classified. -/
theorem C2_hydrogen_filter_amended_witness :
    is_h ((((readPass ⟨none, none, 'A', true⟩
        ["ATOM      1  CA  ALA A   5      11.000  12.000  13.000  1.00  0.00           C".data]).protein
      ++ (readPass ⟨none, none, 'A', true⟩
        ["ATOM      1  CA  ALA A   5      11.000  12.000  13.000  1.00  0.00           C".data]).ligand)).head
      (by decide)) = false := by
  exact (C2_hydrogen_filter_amended ⟨none, none, 'A', true⟩ _ rfl _ (List.head_mem _)).1

/-- Counterexample to claim C2 as stated: a mercury heteroatom record whose
element field is present and is not hydrogen (`HG`) is nevertheless dropped by
the hydrogen filter, because its atom name starts with `H`; disabling hydrogen
dropping keeps it, so it is precisely the hydrogen heuristic that removed it. -/
theorem C2_hydrogen_filter_counterexample :
    ((parseAtomLine "HETATM    1 HG    HG A   1      11.000  12.000  13.000  1.00  0.00          HG".data).map
        Atom.element) = some "HG".data ∧
    ((parseAtomLine "HETATM    1 HG    HG A   1      11.000  12.000  13.000  1.00  0.00          HG".data).map
        (fun a => a.element.map Char.toUpper)) = some "HG".data ∧
    ((parseAtomLine "HETATM    1 HG    HG A   1      11.000  12.000  13.000  1.00  0.00          HG".data).map
        is_h) = some true ∧
    (readPass ⟨none, none, 'A', true⟩
      ["HETATM    1 HG    HG A   1      11.000  12.000  13.000  1.00  0.00          HG".data]).ligand = [] ∧
    (readPass ⟨none, none, 'A', false⟩
      ["HETATM    1 HG    HG A   1      11.000  12.000  13.000  1.00  0.00          HG".data]).ligand.length = 1 := by
  refine ⟨?_, ?_, ?_, ?_, ?_⟩ <;> decide

/-- Witness for C6 at concrete inputs: a line with a non-numeric residue-number
field parses to no record, and a short line parses as its padded form. -/
theorem C6_parser_never_raises_witness :
    parseAtomLine "ATOM      1  CA  ALA A  xx      11.000  12.000  13.000".data = none ∧
    parseAtomLine "ATOM".data = parseAtomLine (safePad "ATOM".data 80) := by
  constructor
  · exact (C6_parser_never_raises _).2.1 (by decide)
  · exact (C6_parser_never_raises "ATOM".data).1

section RenumLemmas

/-- Decimal rendering of a number below 10^k takes at most k characters. -/
theorem natDecAux_length (n : Nat) : ∀ (fuel k : Nat), n < 10 ^ k → 1 ≤ k →
    (natDecAux fuel n).length ≤ k := by
  induction n using Nat.strong_induction_on with
  | _ n ih =>
    intro fuel k hn hk
    cases fuel with
    | zero => simpa [natDecAux] using Nat.zero_le k
    | succ f =>
      by_cases h10 : n < 10
      · simpa [natDecAux, h10] using hk
      · have hk2 : 2 ≤ k := by
          by_contra hc
          have hk1 : k = 1 := by omega
          subst hk1
          exact h10 (by simpa using hn)
        have hdiv : n / 10 < 10 ^ (k - 1) := by
          rw [Nat.div_lt_iff_lt_mul (by norm_num : (0:Nat) < 10)]
          calc n < 10 ^ k := hn
            _ = 10 ^ (k - 1) * 10 := by
                rw [← pow_succ]
                congr 1
                omega
        have hrec := ih (n / 10) (Nat.div_lt_self (by omega) (by norm_num)) n (k - 1) hdiv
          (by omega)
        simp only [natDecAux, if_neg h10, List.length_append, List.length_cons,
          List.length_nil]
        omega

/-- Rendering a number up to 9999 takes at most four characters. -/
theorem natDec_length_le (n : Nat) (h : n ≤ 9999) : (natDec n).length ≤ 4 := by
  refine natDecAux_length n n 4 ?_ (by omega)
  have h4 : (10:Nat) ^ 4 = 10000 := by norm_num
  omega

/-- The right-aligned four-wide residue-number field is exactly four characters
for numbers up to 9999. -/
theorem fmtRight4_length (n : Nat) (h : n ≤ 9999) : (fmtRight 4 (natDec n)).length = 4 := by
  have := natDec_length_le n h
  simp only [fmtRight, List.length_append, List.length_replicate]
  omega

/-- Rewriting the residue-number columns leaves columns 0–21 unchanged. -/
theorem lineSetNum_take22 (l : Line) (n : Nat) (hl : 22 ≤ l.length) :
    (lineSetNum l n).take 22 = l.take 22 := by
  have h22 : (l.take 22).length = 22 := by
    rw [List.length_take]; omega
  have hz : 22 - (l.take 22 ++ fmtRight 4 (natDec n)).length = 0 := by
    rw [List.length_append, h22]
    omega
  rw [lineSetNum, List.take_append_eq_append_take, hz, List.take_append_eq_append_take, h22]
  simp [List.take_take]

/-- Rewriting the residue-number columns leaves columns 26 onward unchanged
when the new number fits the four-wide field. -/
theorem lineSetNum_drop26 (l : Line) (n : Nat) (hl : 22 ≤ l.length) (hn : n ≤ 9999) :
    (lineSetNum l n).drop 26 = l.drop 26 := by
  have h22 : (l.take 22).length = 22 := by
    rw [List.length_take]; omega
  have hA : (l.take 22 ++ fmtRight 4 (natDec n)).length = 26 := by
    rw [List.length_append, h22, fmtRight4_length n hn]
  have hnil : (l.take 22 ++ fmtRight 4 (natDec n)).drop 26 = [] := by
    apply List.drop_eq_nil_of_le
    rw [hA]
  rw [lineSetNum, List.drop_append_eq_append_drop, hA, hnil]
  simp

/-- Lines agreeing on their first 22 columns have the same chain character. -/
theorem take22_getD21 (la lb : Line) (h : la.take 22 = lb.take 22) :
    la.getD 21 ' ' = lb.getD 21 ' ' := by
  have e1 : (la.take 22)[21]? = la[21]? := by
    rw [List.getElem?_take]
    simp
  have e2 : (lb.take 22)[21]? = lb[21]? := by
    rw [List.getElem?_take]
    simp
  have h1 : la[21]? = lb[21]? := by
    rw [← e1, ← e2, h]
  rw [List.getD_eq_getElem?_getD, List.getD_eq_getElem?_getD, h1]

/-- Appending one related pair preserves a pointwise relation on lists. -/
theorem forall2_concat {α β : Type} {R : α → β → Prop} {l1 : List α} {l2 : List β}
    (h : List.Forall₂ R l1 l2) {x : α} {y : β} (hxy : R x y) :
    List.Forall₂ R (l1 ++ [x]) (l2 ++ [y]) := by
  induction h with
  | nil => exact List.forall₂_cons.mpr ⟨hxy, List.Forall₂.nil⟩
  | cons hr _ ih => exact List.forall₂_cons.mpr ⟨hr, ih⟩

/-- First-occurrence dedup never lengthens a list. -/
theorem firstDedupFrom_length_le {α : Type} [DecidableEq α] (l : List α) :
    ∀ seen : List α, (firstDedupFrom l seen).length ≤ l.length := by
  induction l with
  | nil =>
    intro seen
    simp [firstDedupFrom]
  | cons a l ih =>
    intro seen
    simp only [firstDedupFrom]
    split
    · exact le_trans (ih seen) (by simp)
    · simpa using ih (a :: seen)

/-- Blanking the altloc column preserves the line length. -/
theorem blankAltloc_length (l : Line) (h : 17 ≤ l.length) :
    (blankAltloc l).length = l.length := by
  simp only [blankAltloc, List.length_append, List.length_take, List.length_cons,
    List.length_drop]
  omega

/-- Every protein-stream atom stores a full-width (80-column) raw line. -/
theorem protein_atom_raw_len (cfg : ReadCfg) (lines : List Line) (a : Atom)
    (ha : a ∈ (readPass cfg lines).protein) : 80 ≤ a.raw.length := by
  rcases readGo_protein_elim cfg lines false ⟨[], [], [], []⟩ a ha with h | ⟨p, l0, hp, he⟩
  · simp at h
  · obtain ⟨hraw, -, -, -, -⟩ := parseAtomLine_fields l0 p hp
    subst he
    show 80 ≤ (blankAltloc p.raw).length
    rw [hraw, blankAltloc_length _ (le_trans (by omega) (safePad_length l0 80))]
    exact safePad_length l0 80

/-- Without renumbering, a step emits the stored raw line unchanged. -/
theorem emitStep_false_out (st : EmitState) (a : Atom)
    (hwq : pyInt (pySlice a.raw 22 26) = some a.resseq) :
    (emitStep false st a).out = st.out ++ [a.raw] := by
  simp [emitStep, hwq]

/-- With renumbering, a step on a seen triple emits the line with its mapped
number written into columns 22–26. -/
theorem emitStep_true_out_seen (st : EmitState) (a : Atom)
    (hwc : chainOfLine a.raw = a.chain) (hwq : pyInt (pySlice a.raw 22 26) = some a.resseq)
    (hwi : pyAt a.raw 26 = a.icode) (n : Nat)
    (hfind : assocFind st.new_resseq (a.chain, a.resseq, a.icode) = some n) :
    (emitStep true st a).out = st.out ++ [lineSetNum a.raw n] := by
  simp [emitStep, hwq, hwc, hwi, hfind]

/-- With renumbering, a step on a new triple emits the line with the next
chain counter written into columns 22–26. -/
theorem emitStep_true_out_new (st : EmitState) (a : Atom)
    (hwc : chainOfLine a.raw = a.chain) (hwq : pyInt (pySlice a.raw 22 26) = some a.resseq)
    (hwi : pyAt a.raw 26 = a.icode)
    (hfind : assocFind st.new_resseq (a.chain, a.resseq, a.icode) = none) :
    (emitStep true st a).out =
      st.out ++ [lineSetNum a.raw ((assocFind st.current_new a.chain).getD 0 + 1)] := by
  simp [emitStep, hwq, hwc, hwi, hfind]

/-- Any number the renumbering fold has recorded is at most the number of
processed atoms. -/
theorem emit_value_le (atoms : List Atom)
    (hwf : ∀ a ∈ atoms, chainOfLine a.raw = a.chain ∧
      pyInt (pySlice a.raw 22 26) = some a.resseq ∧ pyAt a.raw 26 = a.icode)
    (key : Char × Int × Char) (n : Nat)
    (hfind : assocFind (emitFold true atoms).new_resseq key = some n) :
    1 ≤ n ∧ n ≤ atoms.length := by
  obtain ⟨h1, h2, h3⟩ := emit_renumber_inv atoms hwf
  have hnd : ((emitFold true atoms).new_resseq.map Prod.fst).Nodup := by
    rw [h1]
    exact firstDedupFrom_nodup _ _
  have hmem : (key, n) ∈ (emitFold true atoms).new_resseq :=
    (assocFind_mem _ hnd key n).mpr hfind
  have hval : n ∈ ((emitFold true atoms).new_resseq.filter
      (fun e => decide (e.1.1 = key.1))).map Prod.snd :=
    List.mem_map_of_mem Prod.snd (List.mem_filter.mpr ⟨hmem, by simp⟩)
  rw [h3 key.1] at hval
  obtain ⟨i, hi, hni⟩ := List.mem_range'.mp hval
  have hcnt : (firstDedup (atoms.map fun x => (x.chain, x.resseq, x.icode))).countP
      (fun t => decide (t.1 = key.1)) ≤ atoms.length := by
    calc (firstDedup (atoms.map fun x => (x.chain, x.resseq, x.icode))).countP
          (fun t => decide (t.1 = key.1))
        ≤ (firstDedup (atoms.map fun x => (x.chain, x.resseq, x.icode))).length :=
          List.countP_le_length _
      _ ≤ (atoms.map fun x => (x.chain, x.resseq, x.icode)).length :=
          firstDedupFrom_length_le _ []
      _ = atoms.length := List.length_map _ _
  constructor <;> omega

/-- Over at most 9999 well-formed full-width atoms, the renumbered and the
unrenumbered output streams are pointwise equal outside columns 22–26. -/
theorem emit_out_forall2 (atoms : List Atom)
    (hwf : ∀ a ∈ atoms, chainOfLine a.raw = a.chain ∧
      pyInt (pySlice a.raw 22 26) = some a.resseq ∧ pyAt a.raw 26 = a.icode)
    (hlen : ∀ a ∈ atoms, 22 ≤ a.raw.length)
    (hb : atoms.length ≤ 9999) :
    List.Forall₂ colShift (emitFold true atoms).out (emitFold false atoms).out := by
  induction atoms using List.reverseRecOn with
  | nil => exact List.Forall₂.nil
  | append_singleton ps a ih =>
    have hwfp := fun b hb2 => hwf b (List.mem_append_left _ hb2)
    have hlenp := fun b hb2 => hlen b (List.mem_append_left _ hb2)
    have hb1 : ps.length + 1 ≤ 9999 := by
      simpa using hb
    obtain ⟨hwc, hwq, hwi⟩ := hwf a (List.mem_append_right _ (List.mem_singleton.mpr rfl))
    have hla : 22 ≤ a.raw.length := hlen a (List.mem_append_right _ (List.mem_singleton.mpr rfl))
    have ihp := ih hwfp hlenp (by omega)
    rw [emitFold_append, emitFold_append, emitStep_false_out _ _ hwq]
    rcases hfind : assocFind (emitFold true ps).new_resseq (a.chain, a.resseq, a.icode)
      with _ | n
    · rw [emitStep_true_out_new _ _ hwc hwq hwi hfind]
      refine forall2_concat ihp ⟨lineSetNum_take22 _ _ hla, lineSetNum_drop26 _ _ hla ?_⟩
      have h2 := (emit_renumber_inv ps hwfp).2.1 a.chain
      rw [h2]
      have hcnt : (firstDedup (ps.map fun x => (x.chain, x.resseq, x.icode))).countP
          (fun t => decide (t.1 = a.chain)) ≤ ps.length := by
        calc (firstDedup (ps.map fun x => (x.chain, x.resseq, x.icode))).countP
              (fun t => decide (t.1 = a.chain))
            ≤ (firstDedup (ps.map fun x => (x.chain, x.resseq, x.icode))).length :=
              List.countP_le_length _
          _ ≤ (ps.map fun x => (x.chain, x.resseq, x.icode)).length :=
              firstDedupFrom_length_le _ []
          _ = ps.length := List.length_map _ _
      omega
    · rw [emitStep_true_out_seen _ _ hwc hwq hwi n hfind]
      refine forall2_concat ihp ⟨lineSetNum_take22 _ _ hla, lineSetNum_drop26 _ _ hla ?_⟩
      obtain ⟨h1n, h2n⟩ := emit_value_le ps hwfp (a.chain, a.resseq, a.icode) n hfind
      omega

/-- Chain-break insertion makes identical decisions on streams that agree
outside columns 22–26, and preserves that agreement. -/
theorem insertTERGo_forall2 (l1 l2 : List Line) (h : List.Forall₂ colShift l1 l2) :
    ∀ prev : Option Char,
      List.Forall₂ colShift (insertTERGo l1 prev) (insertTERGo l2 prev) := by
  induction h with
  | nil =>
    intro prev
    exact List.Forall₂.nil
  | cons hr hrest ih =>
    rename_i x y xs ys
    intro prev
    have hch : x.getD 21 ' ' = y.getD 21 ' ' := take22_getD21 x y hr.1
    simp only [insertTERGo]
    rw [hch]
    cases prev with
    | none => exact List.forall₂_cons.mpr ⟨hr, ih _⟩
    | some p =>
      show List.Forall₂ colShift
        (if y.getD 21 ' ' ≠ p then
          "TER".data :: x :: insertTERGo xs (some (y.getD 21 ' '))
         else x :: insertTERGo xs (some (y.getD 21 ' ')))
        (if y.getD 21 ' ' ≠ p then
          "TER".data :: y :: insertTERGo ys (some (y.getD 21 ' '))
         else y :: insertTERGo ys (some (y.getD 21 ' ')))
      by_cases hne : y.getD 21 ' ' ≠ p
      · rw [if_pos hne, if_pos hne]
        exact List.forall₂_cons.mpr ⟨⟨rfl, rfl⟩, List.forall₂_cons.mpr ⟨hr, ih _⟩⟩
      · rw [if_neg hne, if_neg hne]
        exact List.forall₂_cons.mpr ⟨hr, ih _⟩

/-- The full chain-break block (including the trailing TER) preserves
agreement outside columns 22–26. -/
theorem insertTER_forall2 (l1 l2 : List Line) (h : List.Forall₂ colShift l1 l2) :
    List.Forall₂ colShift (insertTER l1) (insertTER l2) := by
  have hgo := insertTERGo_forall2 l1 l2 h none
  simp only [insertTER]
  revert hgo
  generalize insertTERGo l1 none = b1
  generalize insertTERGo l2 none = b2
  intro hgo
  cases hgo with
  | nil => simp
  | cons hr hrest =>
    rename_i x y xs ys
    simp only [List.isEmpty_cons, if_neg]
    exact forall2_concat (List.forall₂_cons.mpr ⟨hr, hrest⟩) ⟨rfl, rfl⟩

/-- With no hotspot stanzas configured, the output is the remark prefix
(pass-through remarks, link echoes, occlusion stanzas rendered from the
original numbering) followed by the atom block and END. -/
theorem cleanOutput_decomp (cfg : Config) (lines : List Line)
    (hd : cfg.dssp = none ∨ cfg.rsa_threshold = none) :
    cleanOutput cfg lines =
      ((readPass cfg.read lines).remarks ++
        (linkRemarks (readPass cfg.read lines).links ++
          occlusionRemarks (sortedContacts
            (resBest (readPass cfg.read lines).protein
              (ligXyz (readPass cfg.read lines).ligand)) cfg.ligand_cutoff))) ++
      (insertTER (emitFold cfg.renumber (readPass cfg.read lines).protein).out ++
        ["END".data]) := by
  rcases hds : cfg.dssp with _ | t <;> rcases hrs : cfg.rsa_threshold with _ | th <;>
    simp_all [cleanOutput, List.append_assoc]

end RenumLemmas

/-- Claim C10: when no hotspot stanzas are configured, the renumber flag
affects only the residue-number columns 22–26 of the emitted atom lines — the
pass-through remarks, ligand-link echoes and occlusion stanzas (all rendered
from the original chain / residue number / insertion code) form an identical
prefix, and the remaining lines of the two outputs agree pairwise outside
columns 22–26 (the renumbering staying within the four-wide field). -/
theorem C10_renumber_scope (cfg : Config) (lines : List Line)
    (hd : cfg.dssp = none ∨ cfg.rsa_threshold = none)
    (hb : (readPass cfg.read lines).protein.length ≤ 9999) :
    ∃ tl1 tl0 : List Line,
      cleanOutput { cfg with renumber := true } lines =
        ((readPass cfg.read lines).remarks ++
          (linkRemarks (readPass cfg.read lines).links ++
            occlusionRemarks (sortedContacts
              (resBest (readPass cfg.read lines).protein
                (ligXyz (readPass cfg.read lines).ligand)) cfg.ligand_cutoff))) ++ tl1 ∧
      cleanOutput { cfg with renumber := false } lines =
        ((readPass cfg.read lines).remarks ++
          (linkRemarks (readPass cfg.read lines).links ++
            occlusionRemarks (sortedContacts
              (resBest (readPass cfg.read lines).protein
                (ligXyz (readPass cfg.read lines).ligand)) cfg.ligand_cutoff))) ++ tl0 ∧
      List.Forall₂ colShift tl1 tl0 := by
  refine ⟨insertTER (emitFold true (readPass cfg.read lines).protein).out ++ ["END".data],
         insertTER (emitFold false (readPass cfg.read lines).protein).out ++ ["END".data],
         cleanOutput_decomp { cfg with renumber := true } lines hd,
         cleanOutput_decomp { cfg with renumber := false } lines hd, ?_⟩
  refine forall2_concat (insertTER_forall2 _ _ ?_) ⟨rfl, rfl⟩
  exact emit_out_forall2 _ (fun a ha => protein_atom_wf cfg.read lines a ha)
    (fun a ha => le_trans (by omega) (protein_atom_raw_len cfg.read lines a ha)) hb

/-- Witness for C10 at a concrete configuration and input: two residues of
chain A numbered 5 and 7, no ligands, no accessibility table. -/
theorem C10_renumber_scope_witness :
    ∃ tl1 tl0 : List Line,
      cleanOutput
        { chains := none, ligands := none, ligand_cutoff := 4, renumber := true,
          keep_altloc := 'A', drop_h := true, dssp := none, rsa_threshold := none }
        ["ATOM      1  CA  ALA A   5      11.000  12.000  13.000".data,
         "ATOM      2  CA  GLY A   7      14.000  12.000  13.000".data] =
        ((readPass ⟨none, none, 'A', true⟩
            ["ATOM      1  CA  ALA A   5      11.000  12.000  13.000".data,
             "ATOM      2  CA  GLY A   7      14.000  12.000  13.000".data]).remarks ++
          (linkRemarks (readPass ⟨none, none, 'A', true⟩
            ["ATOM      1  CA  ALA A   5      11.000  12.000  13.000".data,
             "ATOM      2  CA  GLY A   7      14.000  12.000  13.000".data]).links ++
            occlusionRemarks (sortedContacts
              (resBest (readPass ⟨none, none, 'A', true⟩
                ["ATOM      1  CA  ALA A   5      11.000  12.000  13.000".data,
                 "ATOM      2  CA  GLY A   7      14.000  12.000  13.000".data]).protein
                (ligXyz (readPass ⟨none, none, 'A', true⟩
                  ["ATOM      1  CA  ALA A   5      11.000  12.000  13.000".data,
                   "ATOM      2  CA  GLY A   7      14.000  12.000  13.000".data]).ligand))
              4))) ++ tl1 ∧
      cleanOutput
        { chains := none, ligands := none, ligand_cutoff := 4, renumber := false,
          keep_altloc := 'A', drop_h := true, dssp := none, rsa_threshold := none }
        ["ATOM      1  CA  ALA A   5      11.000  12.000  13.000".data,
         "ATOM      2  CA  GLY A   7      14.000  12.000  13.000".data] =
        ((readPass ⟨none, none, 'A', true⟩
            ["ATOM      1  CA  ALA A   5      11.000  12.000  13.000".data,
             "ATOM      2  CA  GLY A   7      14.000  12.000  13.000".data]).remarks ++
          (linkRemarks (readPass ⟨none, none, 'A', true⟩
            ["ATOM      1  CA  ALA A   5      11.000  12.000  13.000".data,
             "ATOM      2  CA  GLY A   7      14.000  12.000  13.000".data]).links ++
            occlusionRemarks (sortedContacts
              (resBest (readPass ⟨none, none, 'A', true⟩
                ["ATOM      1  CA  ALA A   5      11.000  12.000  13.000".data,
                 "ATOM      2  CA  GLY A   7      14.000  12.000  13.000".data]).protein
                (ligXyz (readPass ⟨none, none, 'A', true⟩
                  ["ATOM      1  CA  ALA A   5      11.000  12.000  13.000".data,
                   "ATOM      2  CA  GLY A   7      14.000  12.000  13.000".data]).ligand))
              4))) ++ tl0 ∧
      List.Forall₂ colShift tl1 tl0 :=
  C10_renumber_scope
    { chains := none, ligands := none, ligand_cutoff := 4, renumber := false,
      keep_altloc := 'A', drop_h := true, dssp := none, rsa_threshold := none }
    ["ATOM      1  CA  ALA A   5      11.000  12.000  13.000".data,
     "ATOM      2  CA  GLY A   7      14.000  12.000  13.000".data]
    (Or.inl rfl) (by decide)

/-- Claim C1 (amended): the hotspot exclusion test is keyed by the candidate
row's chain and residue number as they stand AFTER the optional table
renumbering — every rendered hotspot row has a present accessibility above the
threshold and its own (possibly renumbered) key outside the occluded set.
With renumber=false this key is the original one, as the claim states; with
renumber=true it is the renumbered one, so the lookup is not keyed by the
original number (see the counterexample). -/
theorem C1_occluded_lookup_amended (rn : Bool) (rows : List DsspRow)
    (chains : Option (List Char)) (th : ℚ) (occ : List (Char × Int)) (r : DsspRow)
    (hr : r ∈ hotspotRows rn rows chains th occ) :
    (r.chain, r.res_number) ∉ occ ∧ r.rsa.isSome = true ∧ th < r.rsa.getD 0 := by
  simp only [hotspotRows] at hr
  have hr2 := (List.perm_insertionSort candLe _).mem_iff.mp hr
  rw [List.mem_filter] at hr2
  obtain ⟨hr3, hocc⟩ := hr2
  rw [List.mem_filter] at hr3
  obtain ⟨hr4, hth⟩ := hr3
  rw [List.mem_filter] at hr4
  obtain ⟨hr5, hsome⟩ := hr4
  refine ⟨by simpa using hocc, hsome, by simpa using hth⟩

/-- Witness for the amended C1: a row of chain A number 2, accessibility 1
above threshold 1/2, with (A,1) occluded, is rendered and indeed satisfies
all three recovered conditions. -/
theorem C1_occluded_lookup_amended_witness :
    (('A', (2:Int)) ∉ [('A', (1:Int))]) ∧ (some (1:ℚ)).isSome = true ∧
      (1/2 : ℚ) < (some (1:ℚ)).getD 0 :=
  C1_occluded_lookup_amended false [⟨'A', 2, some 1, [], none⟩] none (1/2) [('A', 1)]
    ⟨'A', 2, some 1, [], none⟩ (by
      norm_num [hotspotRows, List.insertionSort, List.orderedInsert, List.filter])

/-- Counterexample to claim C1 as stated: residue A 5 sits 3 Å from ligand
LIG B 1 and is reported occluded (occluded set {(A,5)} keyed by the original
number), and its accessibility 0.9 exceeds the threshold 0.2 — yet with
renumber=true the table is renumbered FIRST (5 becomes the per-chain rank 1),
the exclusion lookup tests the renumbered key (A,1) against the
original-numbered occluded set, misses, and the occluded residue IS rendered
as a hotspot stanza; with renumber=false the same row is correctly excluded. -/
theorem C1_occluded_lookup_counterexample :
    occludedSimple (sortedContacts (resBest
        [(⟨"ATOM  ".data, "CA".data, ' ', "ALA".data, 'A', 5, ' ', 0, 0, 0, "C".data, []⟩ : Atom)]
        (ligXyz
          [(⟨"HETATM".data, "C1".data, ' ', "LIG".data, 'B', 1, ' ', 3, 0, 0, "C".data,
            []⟩ : Atom)])) 4) = [('A', 5)] ∧
    (1/5 : ℚ) < (9/10 : ℚ) ∧
    hotspotRows true [⟨'A', 5, some (9/10), [], none⟩] none (1/5) [('A', 5)] =
      [⟨'A', 1, some (9/10), [], none⟩] ∧
    hotspotRows false [⟨'A', 5, some (9/10), [], none⟩] none (1/5) [('A', 5)] = [] := by
  refine ⟨?_, by norm_num, ?_, ?_⟩
  · norm_num [occludedSimple, sortedContacts, contactItems, resBest, resBestStep, innerFold,
      dist2, ligXyz, assocFind, assocSet, contactKeep, SENT2, sentLig, ridOf, lridOf,
      List.insertionSort, List.orderedInsert, List.foldl, List.filter]
  · norm_num [hotspotRows, dsspRenumbered, dsspRank, firstDedup, firstDedupFrom, dsspPreLe,
      List.insertionSort, List.orderedInsert, List.filter]
  · norm_num [hotspotRows, List.insertionSort, List.orderedInsert, List.filter]

section LineHelpers

/-- Dropping while a predicate holds never lengthens a list. -/
theorem dropWhile_length_le {α : Type} (p : α → Bool) (l : List α) :
    (l.dropWhile p).length ≤ l.length := by
  induction l with
  | nil => simp
  | cons a l ih =>
    rw [List.dropWhile_cons]
    split
    · exact le_trans ih (by simp)
    · simp

/-- A list whose head fails the predicate is unchanged by dropWhile. -/
theorem dropWhile_eq_self_of_head {α : Type} (p : α → Bool) (l : List α)
    (h : ∀ c, l.head? = some c → p c = false) : l.dropWhile p = l := by
  cases l with
  | nil => rfl
  | cons c l =>
    rw [List.dropWhile_cons, h c rfl]
    simp

/-- Conversely, a dropWhile-fixed list has a head failing the predicate. -/
theorem head_not_of_dropWhile_eq_self {α : Type} (p : α → Bool) (l : List α)
    (h : l.dropWhile p = l) : ∀ c, l.head? = some c → p c = false := by
  intro c hc
  cases l with
  | nil => simp at hc
  | cons d l =>
    obtain rfl : d = c := by simpa using hc
    by_contra hp
    rw [List.dropWhile_cons, if_pos (by simpa using hp)] at h
    have := congrArg List.length h
    have h2 := dropWhile_length_le p l
    simp at this
    omega

/-- A line whose last character (head of the reverse) is not a newline is
fixed by the trailing-newline strip. -/
theorem rstripNl_eq_self (l : Line) (h : ∀ c, l.reverse.head? = some c → c ≠ '\n') :
    rstripNl l = l := by
  unfold rstripNl
  rw [dropWhile_eq_self_of_head _ _ (fun c hc => by simpa using h c hc)]
  exact List.reverse_reverse l

/-- A line fixed by the trailing-newline strip does not end in a newline. -/
theorem revhead_of_rstripNl_eq_self (l : Line) (h : rstripNl l = l) :
    ∀ c, l.reverse.head? = some c → c ≠ '\n' := by
  intro c hc hcn
  have h2 : l.reverse.dropWhile (fun c => decide (c = '\n')) = l.reverse := by
    have h3 := congrArg List.reverse h
    simpa [rstripNl] using h3
  have h4 := head_not_of_dropWhile_eq_self _ _ h2 c hc
  simp [hcn] at h4

/-- The last character of a list equals the last character of any of its
nonempty suffixes. -/
theorem revhead_drop (x : Line) (k : Nat) (hk : k < x.length) :
    x.reverse.head? = (x.drop k).reverse.head? := by
  have hne : (x.drop k).reverse ≠ [] := by
    intro hh
    have h2 := congrArg List.length hh
    simp [List.length_drop] at h2
    omega
  conv_lhs => rw [← List.take_append_drop k x, List.reverse_append]
  exact List.head?_append_of_ne_nil _ hne

/-- Padding does nothing to a newline-stripped line that is already wide
enough. -/
theorem safePad_eq_self (l : Line) (n : Nat) (h1 : rstripNl l = l) (h2 : n ≤ l.length) :
    safePad l n = l := by
  simp [safePad, h1, Nat.sub_eq_zero_of_le h2]

/-- Column 16 of an altloc-blanked line is a blank. -/
theorem blankAltloc_at16 (l : Line) (h : 16 ≤ l.length) :
    pyAt (blankAltloc l) 16 = ' ' := by
  have h16 : (l.take 16).length = 16 := by
    rw [List.length_take]; omega
  simp only [blankAltloc, pyAt, List.getD_eq_getElem?_getD]
  rw [List.getElem?_append_right (by omega), h16]
  simp

/-- Blanking the altloc column of a line whose column 16 is already blank is
the identity. -/
theorem blankAltloc_of_blank (l : Line) (h : 17 ≤ l.length) (hb : pyAt l 16 = ' ') :
    blankAltloc l = l := by
  have h16 : 16 < l.length := by omega
  have hval : l[16] = ' ' := by
    have h2 : pyAt l 16 = l[16] := by
      simp [pyAt, List.getD_eq_getElem?_getD, List.getElem?_eq_getElem h16]
    rw [h2] at hb
    exact hb
  calc blankAltloc l = l.take 16 ++ ' ' :: l.drop 17 := rfl
    _ = l.take 16 ++ l.drop 16 := by rw [List.drop_eq_getElem_cons h16, hval]
    _ = l := List.take_append_drop 16 l

/-- Rewriting the residue-number columns preserves the line length when the
new number fits the field. -/
theorem lineSetNum_length (l : Line) (n : Nat) (hl : 26 ≤ l.length) (hn : n ≤ 9999) :
    (lineSetNum l n).length = l.length := by
  simp only [lineSetNum, List.length_append, List.length_take, List.length_drop,
    fmtRight4_length n hn]
  omega

/-- A slice starting at zero is a take. -/
theorem pySlice_zero (x : Line) (b : Nat) : pySlice x 0 b = x.take b := by
  simp [pySlice]

/-- A slice that ends inside the left part of an append ignores the right part. -/
theorem pySlice_append_low (A B : Line) (a b : Nat) (hb : b ≤ A.length) :
    pySlice (A ++ B) a b = pySlice A a b := by
  simp only [pySlice, List.drop_append_eq_append_drop, List.take_append_eq_append_take]
  have h1 : (b - a) - (A.drop a).length = 0 := by
    rw [List.length_drop]; omega
  rw [h1]
  simp

/-- A slice that ends inside a prefix ignores the truncation. -/
theorem pySlice_take_low (x : Line) (k a b : Nat) (hb : b ≤ k) :
    pySlice (x.take k) a b = pySlice x a b := by
  rcases le_or_lt k x.length with h | h
  · conv_rhs => rw [← List.take_append_drop k x]
    rw [pySlice_append_low _ _ a b (by rw [List.length_take]; omega)]
  · rw [List.take_of_length_le (le_of_lt h)]

/-- Indexing inside the left part of an append ignores the right part. -/
theorem pyAt_append_low (A B : Line) (i : Nat) (hi : i < A.length) :
    pyAt (A ++ B) i = pyAt A i := by
  simp only [pyAt, List.getD_eq_getElem?_getD]
  rw [List.getElem?_append_left hi]

/-- Indexing inside a prefix ignores the truncation. -/
theorem pyAt_take_low (x : Line) (k i : Nat) (hi : i < k) :
    pyAt (x.take k) i = pyAt x i := by
  simp only [pyAt, List.getD_eq_getElem?_getD, List.getElem?_take]
  rw [if_pos hi]

/-- Blanking the altloc column leaves slices that end by column 16 unchanged. -/
theorem blankAltloc_pySlice_low (l : Line) (a b : Nat) (hb : b ≤ 16) (hlen : 16 ≤ l.length) :
    pySlice (blankAltloc l) a b = pySlice l a b := by
  calc pySlice (blankAltloc l) a b
      = pySlice (l.take 16) a b :=
        pySlice_append_low _ _ a b (by rw [List.length_take]; omega)
    _ = pySlice l a b := pySlice_take_low _ _ _ _ hb

/-- Rewriting the residue-number columns leaves slices that end by column 22
unchanged. -/
theorem lineSetNum_pySlice_low (l : Line) (n : Nat) (a b : Nat) (hb : b ≤ 22)
    (hl : 22 ≤ l.length) : pySlice (lineSetNum l n) a b = pySlice l a b := by
  have h22 : (l.take 22).length = 22 := by
    rw [List.length_take]; omega
  calc pySlice (lineSetNum l n) a b
      = pySlice (l.take 22 ++ fmtRight 4 (natDec n)) a b := by
        rw [lineSetNum]
        exact pySlice_append_low _ _ a b (by rw [List.length_append, h22]; omega)
    _ = pySlice (l.take 22) a b := pySlice_append_low _ _ a b (by omega)
    _ = pySlice l a b := pySlice_take_low _ _ _ _ hb

/-- Rewriting the residue-number columns leaves characters before column 22
unchanged. -/
theorem lineSetNum_pyAt_low (l : Line) (n : Nat) (i : Nat) (hi : i < 22)
    (hl : 22 ≤ l.length) : pyAt (lineSetNum l n) i = pyAt l i := by
  have h22 : (l.take 22).length = 22 := by
    rw [List.length_take]; omega
  calc pyAt (lineSetNum l n) i
      = pyAt (l.take 22 ++ fmtRight 4 (natDec n)) i := by
        rw [lineSetNum]
        exact pyAt_append_low _ _ i (by rw [List.length_append, h22]; omega)
    _ = pyAt (l.take 22) i := pyAt_append_low _ _ i (by omega)
    _ = pyAt l i := pyAt_take_low _ _ _ hi

/-- Rewriting the residue-number columns leaves the insertion-code column 26
unchanged when the number fits the field. -/
theorem lineSetNum_pyAt26 (l : Line) (n : Nat) (hl : 26 ≤ l.length) (hn : n ≤ 9999) :
    pyAt (lineSetNum l n) 26 = pyAt l 26 := by
  have h22 : (l.take 22).length = 22 := by
    rw [List.length_take]; omega
  have hA : (l.take 22 ++ fmtRight 4 (natDec n)).length = 26 := by
    rw [List.length_append, h22, fmtRight4_length n hn]
  simp only [lineSetNum, pyAt, List.getD_eq_getElem?_getD]
  rw [List.getElem?_append_right (by rw [hA]), hA, Nat.sub_self, List.getElem?_drop]

/-- A slice that starts past the left part of an append reads the right part
at shifted indices. -/
theorem pySlice_append_high (A B : Line) (a b : Nat) (ha : A.length ≤ a) :
    pySlice (A ++ B) a b = pySlice B (a - A.length) (b - A.length) := by
  simp only [pySlice, List.drop_append_eq_append_drop]
  rw [List.drop_eq_nil_of_le ha]
  simp only [List.nil_append]
  congr 1
  omega

/-- A slice of a suffix reads the whole line at shifted indices. -/
theorem pySlice_drop (l : Line) (k a b : Nat) :
    pySlice (l.drop k) a b = pySlice l (k + a) (k + b) := by
  simp only [pySlice, List.drop_drop]
  congr 1
  omega

/-- Rewriting the residue-number columns leaves slices from column 26 onward
unchanged when the number fits the field. -/
theorem lineSetNum_pySlice_high (l : Line) (n : Nat) (a b : Nat) (ha : 26 ≤ a)
    (hab : a ≤ b) (hl : 26 ≤ l.length) (hn : n ≤ 9999) :
    pySlice (lineSetNum l n) a b = pySlice l a b := by
  have h22 : (l.take 22).length = 22 := by
    rw [List.length_take]; omega
  have hA : (l.take 22 ++ fmtRight 4 (natDec n)).length = 26 := by
    rw [List.length_append, h22, fmtRight4_length n hn]
  have e1 : lineSetNum l n = (l.take 22 ++ fmtRight 4 (natDec n)) ++ l.drop 26 := rfl
  rw [e1, pySlice_append_high _ _ a b (by rw [hA]; omega), hA, pySlice_drop,
    show 26 + (a - 26) = a by omega, show 26 + (b - 26) = b by omega]

/-- The residue-number slice of a rewritten line is exactly the four-wide
field. -/
theorem lineSetNum_slice2226 (l : Line) (n : Nat) (hl : 22 ≤ l.length) (hn : n ≤ 9999) :
    pySlice (lineSetNum l n) 22 26 = fmtRight 4 (natDec n) := by
  have h22 : (l.take 22).length = 22 := by
    rw [List.length_take]; omega
  have hF : (fmtRight 4 (natDec n)).length = 4 := fmtRight4_length n hn
  have hA : (l.take 22 ++ fmtRight 4 (natDec n)).length = 26 := by
    rw [List.length_append, h22, hF]
  have e1 : lineSetNum l n = (l.take 22 ++ fmtRight 4 (natDec n)) ++ l.drop 26 := rfl
  rw [e1, pySlice_append_low _ _ _ _ (by rw [hA]),
    pySlice_append_high _ _ _ _ (by rw [h22]), h22]
  show pySlice (fmtRight 4 (natDec n)) 0 4 = fmtRight 4 (natDec n)
  rw [pySlice_zero]
  exact List.take_of_length_le (by rw [hF])

end LineHelpers

section DigitRoundTrip

/-- Digit characters are decimal digits. -/
theorem digitCh_isDigit (m : Nat) : (digitCh m).isDigit = true := by
  unfold digitCh
  have hr : m % 10 < 10 := Nat.mod_lt _ (by norm_num)
  set r := m % 10 with hrdef
  interval_cases r <;> decide

/-- Code point of a digit character. -/
theorem digitCh_toNat (m : Nat) : (digitCh m).toNat = 48 + m % 10 := by
  unfold digitCh
  have hr : m % 10 < 10 := Nat.mod_lt _ (by norm_num)
  set r := m % 10 with hrdef
  interval_cases r <;> decide

/-- Decimal digits are not whitespace. -/
theorem isDigit_not_ws (c : Char) (h : c.isDigit = true) : c.isWhitespace = false := by
  by_contra hw
  simp only [Bool.not_eq_false] at hw
  simp [Char.isWhitespace] at hw
  rcases hw with ((h1 | h1) | h1) | h1 <;> subst h1 <;> simp [Char.isDigit] at h

/-- Every character of a rendered number is a decimal digit. -/
theorem natDecAux_digits (n : Nat) : ∀ (fuel : Nat), ∀ c ∈ natDecAux fuel n, c.isDigit = true := by
  induction n using Nat.strong_induction_on with
  | _ n ih =>
    intro fuel c hc
    cases fuel with
    | zero => simp [natDecAux] at hc
    | succ f =>
      by_cases h10 : n < 10
      · simp only [natDecAux, if_pos h10, List.mem_singleton] at hc
        subst hc
        exact digitCh_isDigit n
      · simp only [natDecAux, if_neg h10, List.mem_append, List.mem_singleton] at hc
        rcases hc with hc | hc
        · exact ih (n / 10) (Nat.div_lt_self (by omega) (by norm_num)) n c hc
        · subst hc
          exact digitCh_isDigit (n % 10)

/-- A rendered number with positive fuel is nonempty. -/
theorem natDecAux_ne_nil (fuel n : Nat) (h : 1 ≤ fuel) : natDecAux fuel n ≠ [] := by
  cases fuel with
  | zero => omega
  | succ f =>
    simp only [natDecAux]
    split <;> simp

/-- Folding the decimal-value accumulator over a rendered number recovers the
number (shifted under the incoming accumulator). -/
theorem natDecAux_foldl (n : Nat) : ∀ (fuel acc : Nat), 1 ≤ fuel →
    (natDecAux fuel n).foldl (fun a c => 10 * a + (c.toNat - 48)) acc =
      acc * 10 ^ (natDecAux fuel n).length + n := by
  induction n using Nat.strong_induction_on with
  | _ n ih =>
    intro fuel acc hf
    cases fuel with
    | zero => omega
    | succ f =>
      by_cases h10 : n < 10
      · simp only [natDecAux, if_pos h10, List.foldl_cons, List.foldl_nil,
          List.length_singleton, pow_one, digitCh_toNat]
        have hm : n % 10 = n := Nat.mod_eq_of_lt h10
        rw [hm]
        omega
      · simp only [natDecAux, if_neg h10, List.foldl_append, List.foldl_cons,
          List.foldl_nil, List.length_append, List.length_singleton, digitCh_toNat]
        rw [ih (n / 10) (Nat.div_lt_self (by omega) (by norm_num)) n acc (by omega)]
        have hp : acc * 10 ^ ((natDecAux n (n / 10)).length + 1) =
            (acc * 10 ^ (natDecAux n (n / 10)).length) * 10 := by
          rw [pow_succ, mul_assoc]
        rw [hp]
        generalize acc * 10 ^ (natDecAux n (n / 10)).length = X
        omega

/-- The digit-string value of a rendered positive number is the number. -/
theorem digitsVal_natDec (n : Nat) (h : 1 ≤ n) : digitsVal (natDec n) = some n := by
  have hne : natDec n ≠ [] := natDecAux_ne_nil n n h
  have hall : List.all (natDec n) Char.isDigit = true :=
    List.all_eq_true.mpr (fun c hc => natDecAux_digits n n c hc)
  have hv : (natDec n).foldl (fun acc c => 10 * acc + (c.toNat - 48)) 0 = n := by
    have h2 := natDecAux_foldl n n 0 h
    simpa [natDec] using h2
  rw [digitsVal, if_neg hne, if_pos hall, hv]

/-- On a nonempty all-digit string, integer parsing takes the unsigned branch. -/
theorem pyIntCore_digits (l : Line) (hne : l ≠ []) (hd : ∀ c ∈ l, c.isDigit = true) :
    pyIntCore l = (digitsVal l).map Int.ofNat := by
  cases l with
  | nil => exact absurd rfl hne
  | cons c rest =>
    unfold pyIntCore
    split
    · rename_i heq
      have hc : c = '+' := by
        injection heq
      have := hd c (List.mem_cons_self c rest)
      rw [hc] at this
      simp [Char.isDigit] at this
    · rename_i heq
      have hc : c = '-' := by
        injection heq
      have := hd c (List.mem_cons_self c rest)
      rw [hc] at this
      simp [Char.isDigit] at this
    · rfl

/-- Any member that is the head. -/
theorem mem_of_head? {α : Type} (l : List α) (c : α) (h : l.head? = some c) : c ∈ l := by
  cases l with
  | nil => simp at h
  | cons d l =>
    obtain rfl : d = c := by simpa using h
    exact List.mem_cons_self _ _

/-- Leading blanks are consumed by a whitespace dropWhile. -/
theorem dropWhile_ws_replicate (k : Nat) (r : Line) :
    (List.replicate k ' ' ++ r).dropWhile Char.isWhitespace =
      r.dropWhile Char.isWhitespace := by
  induction k with
  | zero => rfl
  | succ m ih =>
    rw [List.replicate_succ, List.cons_append, List.dropWhile_cons]
    simp only [show (' ').isWhitespace = true from rfl, if_true]
    exact ih

/-- Stripping a right-aligned all-digit field recovers the digits. -/
theorem pyStrip_digits_pad (k : Nat) (d : Line) (hne : d ≠ [])
    (hd : ∀ c ∈ d, c.isDigit = true) :
    pyStrip (List.replicate k ' ' ++ d) = d := by
  unfold pyStrip
  rw [dropWhile_ws_replicate,
    dropWhile_eq_self_of_head _ _
      (fun c hc => isDigit_not_ws c (hd c (mem_of_head? _ _ hc))),
    dropWhile_eq_self_of_head _ _
      (fun c hc => isDigit_not_ws c (hd c (List.mem_reverse.mp (mem_of_head? _ _ hc)))),
    List.reverse_reverse]

/-- Integer parsing inverts the right-aligned decimal rendering of a positive
number. -/
theorem pyInt_fmtRight_natDec (n : Nat) (h : 1 ≤ n) :
    pyInt (fmtRight 4 (natDec n)) = some (n : Int) := by
  have hne : natDec n ≠ [] := natDecAux_ne_nil n n h
  have hdg : ∀ c ∈ natDec n, c.isDigit = true := fun c hc => natDecAux_digits n n c hc
  unfold pyInt fmtRight
  rw [pyStrip_digits_pad _ _ hne hdg, pyIntCore_digits _ hne hdg, digitsVal_natDec n h]
  rfl

end DigitRoundTrip

section Reparse

/-- Full inversion of a successful parse: the record is exactly the
field-extraction of the padded line, and every numeric field parsed. -/
theorem parseAtomLine_inv (l : Line) (p : Atom) (h : parseAtomLine l = some p) :
    (pySlice (safePad l 80) 0 6 = "ATOM  ".data ∨
      pySlice (safePad l 80) 0 6 = "HETATM".data) ∧
    pyInt (pySlice (safePad l 80) 22 26) = some p.resseq ∧
    pyFloat (pySlice (safePad l 80) 30 38) = some p.x ∧
    pyFloat (pySlice (safePad l 80) 38 46) = some p.y ∧
    pyFloat (pySlice (safePad l 80) 46 54) = some p.z ∧
    p = { rcd := pySlice (safePad l 80) 0 6
          atom_name := pyStrip (pySlice (safePad l 80) 12 16)
          altloc := pyAt (safePad l 80) 16
          resn := pyStrip (pySlice (safePad l 80) 17 20)
          chain := chainOfLine (safePad l 80)
          resseq := p.resseq
          icode := pyAt (safePad l 80) 26
          x := p.x, y := p.y, z := p.z
          element := if 78 ≤ (safePad l 80).length then
            pyStrip (pySlice (safePad l 80) 76 78) else []
          raw := safePad l 80 } := by
  simp only [parseAtomLine] at h
  by_cases hrc : pySlice (safePad l 80) 0 6 = "ATOM  ".data ∨
      pySlice (safePad l 80) 0 6 = "HETATM".data
  · rw [if_pos hrc] at h
    rcases hq : pyInt (pySlice (safePad l 80) 22 26) with _ | resseq <;> rw [hq] at h
    · exact absurd h (by simp)
    · rcases h1 : pyFloat (pySlice (safePad l 80) 30 38) with _ | x <;> rw [h1] at h
      · exact absurd h (by simp)
      rcases h2 : pyFloat (pySlice (safePad l 80) 38 46) with _ | y <;> rw [h2] at h
      · exact absurd h (by simp)
      rcases h3 : pyFloat (pySlice (safePad l 80) 46 54) with _ | z <;> rw [h3] at h
      · exact absurd h (by simp)
      have hp := Option.some.inj h
      subst hp
      refine ⟨hrc, rfl, rfl, rfl, rfl, ?_⟩
      simp only [rstripNl_safePad]
  · rw [if_neg hrc] at h
    exact absurd h (by simp)

/-- Re-parsing the altloc-blanked padded line of a successful parse succeeds
and differs from the original record only in the blanked altloc and the
stored raw line. -/
theorem reparse_blank (l : Line) (p : Atom) (hp : parseAtomLine l = some p) :
    parseAtomLine (blankAltloc (safePad l 80)) =
      some { p with altloc := ' ', raw := blankAltloc (safePad l 80) } := by
  obtain ⟨hg, hq, hx, hy, hz, hrec⟩ := parseAtomLine_inv l p hp
  have hL80 : 80 ≤ (safePad l 80).length := safePad_length l 80
  have hLr : rstripNl (safePad l 80) = safePad l 80 := rstripNl_safePad l 80
  have hYlen : (blankAltloc (safePad l 80)).length = (safePad l 80).length :=
    blankAltloc_length (safePad l 80) (by omega)
  have hYr : rstripNl (blankAltloc (safePad l 80)) = blankAltloc (safePad l 80) := by
    apply rstripNl_eq_self
    intro c hc
    have e1 := revhead_drop (blankAltloc (safePad l 80)) 17 (by omega)
    have e2 : (blankAltloc (safePad l 80)).drop 17 = (safePad l 80).drop 17 :=
      blankAltloc_drop (safePad l 80) (by omega) 17 (le_refl _)
    have e3 := revhead_drop (safePad l 80) 17 (by omega)
    rw [e1, e2, ← e3] at hc
    exact revhead_of_rstripNl_eq_self _ hLr c hc
  have hYs : safePad (blankAltloc (safePad l 80)) 80 = blankAltloc (safePad l 80) :=
    safePad_eq_self _ 80 hYr (by omega)
  have t06 : pySlice (blankAltloc (safePad l 80)) 0 6 = pySlice (safePad l 80) 0 6 :=
    blankAltloc_pySlice_low _ 0 6 (by omega) (by omega)
  have t1216 : pySlice (blankAltloc (safePad l 80)) 12 16 = pySlice (safePad l 80) 12 16 :=
    blankAltloc_pySlice_low _ 12 16 (by omega) (by omega)
  have t16 : pyAt (blankAltloc (safePad l 80)) 16 = ' ' := blankAltloc_at16 _ (by omega)
  have t1720 : pySlice (blankAltloc (safePad l 80)) 17 20 = pySlice (safePad l 80) 17 20 :=
    blankAltloc_pySlice _ (by omega) 17 20 (by omega)
  have t2226 : pySlice (blankAltloc (safePad l 80)) 22 26 = pySlice (safePad l 80) 22 26 :=
    blankAltloc_pySlice _ (by omega) 22 26 (by omega)
  have t3038 : pySlice (blankAltloc (safePad l 80)) 30 38 = pySlice (safePad l 80) 30 38 :=
    blankAltloc_pySlice _ (by omega) 30 38 (by omega)
  have t3846 : pySlice (blankAltloc (safePad l 80)) 38 46 = pySlice (safePad l 80) 38 46 :=
    blankAltloc_pySlice _ (by omega) 38 46 (by omega)
  have t4654 : pySlice (blankAltloc (safePad l 80)) 46 54 = pySlice (safePad l 80) 46 54 :=
    blankAltloc_pySlice _ (by omega) 46 54 (by omega)
  have t7678 : pySlice (blankAltloc (safePad l 80)) 76 78 = pySlice (safePad l 80) 76 78 :=
    blankAltloc_pySlice _ (by omega) 76 78 (by omega)
  have t21 : chainOfLine (blankAltloc (safePad l 80)) = chainOfLine (safePad l 80) := by
    unfold chainOfLine
    rw [blankAltloc_pyAt _ (by omega) 21 (by omega)]
  have t26 : pyAt (blankAltloc (safePad l 80)) 26 = pyAt (safePad l 80) 26 :=
    blankAltloc_pyAt _ (by omega) 26 (by omega)
  simp only [parseAtomLine]
  rw [hYs, t06, if_pos hg, t2226, hq, t3038, hx, t3846, hy, t4654, hz,
    t1216, t16, t1720, t21, t26, t7678, hYr, hYlen]
  rw [hrec]

/-- Re-parsing the renumbered altloc-blanked padded line of a successful parse
succeeds and differs from the original record only in the blanked altloc, the
rewritten residue number, and the stored raw line. -/
theorem reparse_renum (l : Line) (p : Atom) (hp : parseAtomLine l = some p)
    (n : Nat) (h1 : 1 ≤ n) (h2 : n ≤ 9999) :
    parseAtomLine (lineSetNum (blankAltloc (safePad l 80)) n) =
      some { p with altloc := ' ', resseq := (n : Int), raw := lineSetNum (blankAltloc (safePad l 80)) n } := by
  obtain ⟨hg, hq, hx, hy, hz, hrec⟩ := parseAtomLine_inv l p hp
  have hL80 : 80 ≤ (safePad l 80).length := safePad_length l 80
  have hLr : rstripNl (safePad l 80) = safePad l 80 := rstripNl_safePad l 80
  have hYlen : (blankAltloc (safePad l 80)).length = (safePad l 80).length :=
    blankAltloc_length (safePad l 80) (by omega)
  have hYr : rstripNl (blankAltloc (safePad l 80)) = blankAltloc (safePad l 80) := by
    apply rstripNl_eq_self
    intro c hc
    have e1 := revhead_drop (blankAltloc (safePad l 80)) 17 (by omega)
    have e2 : (blankAltloc (safePad l 80)).drop 17 = (safePad l 80).drop 17 :=
      blankAltloc_drop (safePad l 80) (by omega) 17 (le_refl _)
    have e3 := revhead_drop (safePad l 80) 17 (by omega)
    rw [e1, e2, ← e3] at hc
    exact revhead_of_rstripNl_eq_self _ hLr c hc
  have hElen : (lineSetNum (blankAltloc (safePad l 80)) n).length =
      (blankAltloc (safePad l 80)).length :=
    lineSetNum_length _ n (by omega) h2
  have hEr : rstripNl (lineSetNum (blankAltloc (safePad l 80)) n) =
      lineSetNum (blankAltloc (safePad l 80)) n := by
    apply rstripNl_eq_self
    intro c hc
    have e1 := revhead_drop (lineSetNum (blankAltloc (safePad l 80)) n) 26 (by omega)
    have e2 : (lineSetNum (blankAltloc (safePad l 80)) n).drop 26 =
        (blankAltloc (safePad l 80)).drop 26 :=
      lineSetNum_drop26 _ n (by omega) h2
    have e3 := revhead_drop (blankAltloc (safePad l 80)) 26 (by omega)
    rw [e1, e2, ← e3] at hc
    exact revhead_of_rstripNl_eq_self _ hYr c hc
  have hEs : safePad (lineSetNum (blankAltloc (safePad l 80)) n) 80 =
      lineSetNum (blankAltloc (safePad l 80)) n :=
    safePad_eq_self _ 80 hEr (by omega)
  have t06 : pySlice (lineSetNum (blankAltloc (safePad l 80)) n) 0 6 =
      pySlice (safePad l 80) 0 6 := by
    rw [lineSetNum_pySlice_low _ n 0 6 (by omega) (by omega)]
    exact blankAltloc_pySlice_low _ 0 6 (by omega) (by omega)
  have t1216 : pySlice (lineSetNum (blankAltloc (safePad l 80)) n) 12 16 =
      pySlice (safePad l 80) 12 16 := by
    rw [lineSetNum_pySlice_low _ n 12 16 (by omega) (by omega)]
    exact blankAltloc_pySlice_low _ 12 16 (by omega) (by omega)
  have t16 : pyAt (lineSetNum (blankAltloc (safePad l 80)) n) 16 = ' ' := by
    rw [lineSetNum_pyAt_low _ n 16 (by omega) (by omega)]
    exact blankAltloc_at16 _ (by omega)
  have t1720 : pySlice (lineSetNum (blankAltloc (safePad l 80)) n) 17 20 =
      pySlice (safePad l 80) 17 20 := by
    rw [lineSetNum_pySlice_low _ n 17 20 (by omega) (by omega)]
    exact blankAltloc_pySlice _ (by omega) 17 20 (by omega)
  have t2226 : pyInt (pySlice (lineSetNum (blankAltloc (safePad l 80)) n) 22 26) =
      some (n : Int) := by
    rw [lineSetNum_slice2226 _ n (by omega) h2]
    exact pyInt_fmtRight_natDec n h1
  have t3038 : pySlice (lineSetNum (blankAltloc (safePad l 80)) n) 30 38 =
      pySlice (safePad l 80) 30 38 := by
    rw [lineSetNum_pySlice_high _ n 30 38 (by omega) (by omega) (by omega) h2]
    exact blankAltloc_pySlice _ (by omega) 30 38 (by omega)
  have t3846 : pySlice (lineSetNum (blankAltloc (safePad l 80)) n) 38 46 =
      pySlice (safePad l 80) 38 46 := by
    rw [lineSetNum_pySlice_high _ n 38 46 (by omega) (by omega) (by omega) h2]
    exact blankAltloc_pySlice _ (by omega) 38 46 (by omega)
  have t4654 : pySlice (lineSetNum (blankAltloc (safePad l 80)) n) 46 54 =
      pySlice (safePad l 80) 46 54 := by
    rw [lineSetNum_pySlice_high _ n 46 54 (by omega) (by omega) (by omega) h2]
    exact blankAltloc_pySlice _ (by omega) 46 54 (by omega)
  have t7678 : pySlice (lineSetNum (blankAltloc (safePad l 80)) n) 76 78 =
      pySlice (safePad l 80) 76 78 := by
    rw [lineSetNum_pySlice_high _ n 76 78 (by omega) (by omega) (by omega) h2]
    exact blankAltloc_pySlice _ (by omega) 76 78 (by omega)
  have t21 : chainOfLine (lineSetNum (blankAltloc (safePad l 80)) n) =
      chainOfLine (safePad l 80) := by
    unfold chainOfLine
    rw [lineSetNum_pyAt_low _ n 21 (by omega) (by omega),
      blankAltloc_pyAt _ (by omega) 21 (by omega)]
  have t26 : pyAt (lineSetNum (blankAltloc (safePad l 80)) n) 26 =
      pyAt (safePad l 80) 26 := by
    rw [lineSetNum_pyAt26 _ n (by omega) h2]
    exact blankAltloc_pyAt _ (by omega) 26 (by omega)
  simp only [parseAtomLine]
  rw [hEs, t06, if_pos hg, t2226, t3038, hx, t3846, hy, t4654, hz,
    t1216, t16, t1720, t21, t26, t7678, hEr, hElen, hYlen]
  rw [hrec]

end Reparse

section RemarkFacts

/-- Stripping a trailing run (of newlines or whitespace) preserves any prefix
that contains no stripped character. -/
theorem take_dropRun (p : Char → Bool) (x : Line) (k : Nat) (hk : k ≤ x.length)
    (h : ∀ c ∈ x.take k, p c = false) :
    ((x.reverse.dropWhile p).reverse).take k = x.take k := by
  have hrev : x.reverse = (x.drop k).reverse ++ (x.take k).reverse := by
    rw [← List.reverse_append, List.take_append_drop]
  rw [hrev, List.dropWhile_append]
  by_cases hB : (((x.drop k).reverse).dropWhile p).isEmpty = true
  · rw [if_pos hB]
    rw [dropWhile_eq_self_of_head p (x.take k).reverse
      (fun c hc => h c (List.mem_reverse.mp (mem_of_head? _ _ hc)))]
    rw [List.reverse_reverse]
    have hA : (x.take k).length = k := by
      rw [List.length_take]; omega
    rw [List.take_of_length_le (le_of_eq hA)]
  · rw [if_neg hB]
    rw [List.reverse_append, List.reverse_reverse, List.take_append_eq_append_take]
    have hA : (x.take k).length = k := by
      rw [List.length_take]; omega
    rw [List.take_of_length_le (le_of_eq hA), hA, Nat.sub_self]
    simp

/-- A remark stanza line starts with the six characters REMARK. -/
theorem remarkLine_take6 (pl : Line) : (remarkLine pl).take 6 = "REMARK".data := by
  unfold remarkLine rstripWs
  rw [take_dropRun Char.isWhitespace _ 6 (by simp) ?hpre]
  case hpre =>
    intro c hc
    have hc2 : c ∈ "REMARK".data := by
      simpa using hc
    fin_cases hc2 <;> decide
  rfl

/-- Whitespace-stripped lines are newline-stripped. -/
theorem rstripNl_rstripWs (l : Line) : rstripNl (rstripWs l) = rstripWs l := by
  apply rstripNl_eq_self
  intro c hc hcn
  have e : (rstripWs l).reverse = l.reverse.dropWhile Char.isWhitespace := by
    simp [rstripWs]
  rw [e] at hc
  have h2 := head_not_of_dropWhile_eq_self Char.isWhitespace _ (dropWhile_self _ _) c hc
  rw [hcn] at h2
  simp at h2

/-- Remark stanza lines are fixed by the trailing-newline strip. -/
theorem rstripNl_remarkLine (pl : Line) : rstripNl (remarkLine pl) = remarkLine pl := by
  unfold remarkLine
  exact rstripNl_rstripWs _

/-- Every line of the extra stanza block is a remark stanza line. -/
theorem extra_lines_remark (links : List Line) (ci : List (ResKey × (ℚ × LigKey)))
    (hot : List Line) (hhot : ∀ l ∈ hot, ∃ pl, l = remarkLine pl) :
    ∀ l ∈ linkRemarks links ++ occlusionRemarks ci ++ hot, ∃ pl, l = remarkLine pl := by
  intro l hl
  rcases List.mem_append.mp hl with hl2 | hl2
  · rcases List.mem_append.mp hl2 with hl3 | hl3
    · obtain ⟨x, -, hx⟩ := List.mem_flatMap.mp hl3
      simp only [List.mem_cons, List.not_mem_nil, or_false] at hx
      rcases hx with hx | hx
      · exact ⟨_, hx⟩
      · exact ⟨_, hx⟩
    · obtain ⟨x, -, hx⟩ := List.mem_flatMap.mp hl3
      simp only [List.mem_cons, List.not_mem_nil, or_false] at hx
      rcases hx with hx | hx
      · exact ⟨_, hx⟩
      · exact ⟨_, hx⟩
  · exact hhot l hl2

/-- Hotspot stanza lines are remark stanza lines. -/
theorem hotspot_lines_remark (hasAA hasASA : Bool) (rows : List DsspRow) :
    ∀ l ∈ hotspotRemarks hasAA hasASA rows, ∃ pl, l = remarkLine pl := by
  intro l hl
  obtain ⟨x, -, hx⟩ := List.mem_flatMap.mp hl
  simp only [List.mem_cons, List.not_mem_nil, or_false] at hx
  rcases hx with hx | hx
  · exact ⟨_, hx⟩
  · exact ⟨_, hx⟩

/-- Newline-stripping a line that starts with REMARK preserves that prefix. -/
theorem take6_rstripNl_remark (raw : Line) (h6 : raw.take 6 = "REMARK".data) :
    (rstripNl raw).take 6 = "REMARK".data := by
  have hk : 6 ≤ raw.length := by
    have h2 := congrArg List.length h6
    simp [List.length_take] at h2
    omega
  have hpre : ∀ c ∈ raw.take 6, (decide (c = '\n')) = false := by
    rw [h6]
    intro c hc
    fin_cases hc <;> decide
  have h3 := take_dropRun (fun c => decide (c = '\n')) raw 6 hk hpre
  unfold rstripNl
  rw [h3, h6]

/-- Every collected remark of the reading pass starts with REMARK and is fixed
by the trailing-newline strip. -/
theorem readPass_remark_facts (cfg : ReadCfg) (lines : List Line) :
    ∀ r ∈ (readPass cfg lines).remarks, r.take 6 = "REMARK".data ∧ rstripNl r = r := by
  have hgo : ∀ (ls : List Line) (seen : Bool) (st : ReadState),
      (∀ r ∈ st.remarks, r.take 6 = "REMARK".data ∧ rstripNl r = r) →
      ∀ r ∈ (readGo cfg ls seen st).remarks, r.take 6 = "REMARK".data ∧ rstripNl r = r := by
    intro ls
    induction ls with
    | nil => exact fun seen st hst => hst
    | cons raw rest ih =>
      intro seen st hst
      simp only [readGo]
      split
      · exact ih true st hst
      · split
        · exact hst
        · split
          · rename_i h6
            refine ih _ _ ?_
            intro r hr
            rcases List.mem_append.mp hr with h | h
            · exact hst r h
            · obtain rfl : r = rstripNl raw := List.mem_singleton.mp h
              exact ⟨take6_rstripNl_remark raw h6, rstripNl_idem raw⟩
          · split
            · exact ih _ _ (fun r hr => hst r (by simpa using hr))
            · intro r hr
              apply ih _ _ _ r hr
              intro r2 hr2
              have : (readAtomStep cfg st raw).remarks = st.remarks := by
                unfold readAtomStep
                split
                · rfl
                · split
                  · rfl
                  · split
                    · rfl
                    · split
                      · split <;> rfl
                      · split
                        · split
                          · rfl
                          · split <;> rfl
                        · rfl
              rw [this] at hr2
              exact hst r2 hr2
  exact hgo lines false ⟨[], [], [], []⟩ (by intro r hr; simp at hr)

end RemarkFacts

section RereadMachinery

/-- Refined elimination for the atom-routing step: protein atoms come from
successful parses of ATOM records. -/
theorem readAtomStep_protein_elim2 (cfg : ReadCfg) (st : ReadState) (raw : Line) :
    ∀ a ∈ (readAtomStep cfg st raw).protein, a ∈ st.protein ∨
      ∃ p, parseAtomLine raw = some p ∧ a = { p with raw := blankAltloc p.raw } ∧
        p.rcd = "ATOM  ".data := by
  unfold readAtomStep
  split
  · exact fun a ha => Or.inl ha
  · rename_i p hp
    split
    · exact fun a ha => Or.inl ha
    · split
      · exact fun a ha => Or.inl ha
      · split
        · rename_i hrcd
          split
          · intro a ha
            rcases List.mem_append.mp ha with h | h
            · exact Or.inl h
            · exact Or.inr ⟨p, hp, List.mem_singleton.mp h, hrcd⟩
          · exact fun a ha => Or.inl ha
        · split
          · split
            · exact fun a ha => Or.inl ha
            · split
              · exact fun a ha => Or.inl ha
              · exact fun a ha => Or.inl ha
          · exact fun a ha => Or.inl ha

/-- Refined elimination for the reading pass: every protein atom comes from a
successful parse of an ATOM record, with its altloc column blanked. -/
theorem readGo_protein_elim2 (cfg : ReadCfg) (ls : List Line) :
    ∀ (seen : Bool) (st : ReadState), ∀ a ∈ (readGo cfg ls seen st).protein,
      a ∈ st.protein ∨
        ∃ p l0, parseAtomLine l0 = some p ∧ a = { p with raw := blankAltloc p.raw } ∧
          p.rcd = "ATOM  ".data := by
  induction ls with
  | nil => exact fun seen st a ha => Or.inl ha
  | cons raw rest ih =>
    intro seen st a
    simp only [readGo]
    split
    · exact ih true st a
    · split
      · exact fun ha => Or.inl ha
      · split
        · intro ha
          rcases ih seen _ a ha with h | h
          · exact Or.inl h
          · exact Or.inr h
        · split
          · intro ha
            rcases ih seen _ a ha with h | h
            · exact Or.inl h
            · exact Or.inr h
          · intro ha
            rcases ih seen _ a ha with h | h
            · rcases readAtomStep_protein_elim2 cfg st raw a h with h2 | ⟨p, hp, he, hr⟩
              · exact Or.inl h2
              · exact Or.inr ⟨p, raw, hp, he, hr⟩
            · exact Or.inr h

/-- Every retained protein atom of the reading pass is the altloc-blanked form
of a parsed ATOM record. -/
theorem protein_atom_src (cfg : ReadCfg) (lines : List Line) (a : Atom)
    (ha : a ∈ (readPass cfg lines).protein) :
    ∃ p l0, parseAtomLine l0 = some p ∧ a = { p with raw := blankAltloc p.raw } ∧
      p.rcd = "ATOM  ".data := by
  rcases readGo_protein_elim2 cfg lines false ⟨[], [], [], []⟩ a ha with h | h
  · simp at h
  · exact h

/-- Without renumbering, the output loop emits exactly the stored raw lines. -/
theorem emitFold_false_out (atoms : List Atom)
    (hwq : ∀ a ∈ atoms, pyInt (pySlice a.raw 22 26) = some a.resseq) :
    (emitFold false atoms).out = atoms.map Atom.raw := by
  induction atoms using List.reverseRecOn with
  | nil => rfl
  | append_singleton ps a ih =>
    rw [emitFold_append, emitStep_false_out _ _ (hwq a (by simp)),
      ih (fun b hb => hwq b (by simp [hb]))]
    simp

/-- With renumbering, every output line is a stream atom's raw line with a
number between 1 and the stream length written into columns 22–26. -/
theorem emit_out_true_elim (atoms : List Atom)
    (hwf : ∀ a ∈ atoms, chainOfLine a.raw = a.chain ∧
      pyInt (pySlice a.raw 22 26) = some a.resseq ∧ pyAt a.raw 26 = a.icode) :
    ∀ e ∈ (emitFold true atoms).out, ∃ a ∈ atoms, ∃ n : Nat,
      1 ≤ n ∧ n ≤ atoms.length ∧ e = lineSetNum a.raw n := by
  induction atoms using List.reverseRecOn with
  | nil =>
    intro e he
    exact absurd he (by simp [emitFold])
  | append_singleton ps a ih =>
    have hwfp := fun b hb2 => hwf b (List.mem_append_left _ hb2)
    obtain ⟨hwc, hwq, hwi⟩ := hwf a (List.mem_append_right _ (List.mem_singleton.mpr rfl))
    rw [emitFold_append]
    rcases hfind : assocFind (emitFold true ps).new_resseq (a.chain, a.resseq, a.icode)
      with _ | n
    · rw [emitStep_true_out_new _ _ hwc hwq hwi hfind]
      intro e he
      rcases List.mem_append.mp he with h | h
      · obtain ⟨b, hb, m, hm1, hm2, hme⟩ := ih hwfp e h
        refine ⟨b, List.mem_append_left _ hb, m, hm1, ?_, hme⟩
        simp only [List.length_append, List.length_singleton]
        omega
      · obtain rfl := List.mem_singleton.mp h
        refine ⟨a, List.mem_append_right _ (List.mem_singleton.mpr rfl),
          (assocFind (emitFold true ps).current_new a.chain).getD 0 + 1, by omega, ?_, rfl⟩
        have h2 := (emit_renumber_inv ps hwfp).2.1 a.chain
        rw [h2]
        have hcnt : (firstDedup (ps.map fun x => (x.chain, x.resseq, x.icode))).countP
            (fun t => decide (t.1 = a.chain)) ≤ ps.length := by
          calc (firstDedup (ps.map fun x => (x.chain, x.resseq, x.icode))).countP
                (fun t => decide (t.1 = a.chain))
              ≤ (firstDedup (ps.map fun x => (x.chain, x.resseq, x.icode))).length :=
                List.countP_le_length _
            _ ≤ (ps.map fun x => (x.chain, x.resseq, x.icode)).length :=
                firstDedupFrom_length_le _ []
            _ = ps.length := List.length_map _ _
        simp only [List.length_append, List.length_singleton]
        omega
    · rw [emitStep_true_out_seen _ _ hwc hwq hwi n hfind]
      intro e he
      rcases List.mem_append.mp he with h | h
      · obtain ⟨b, hb, m, hm1, hm2, hme⟩ := ih hwfp e h
        refine ⟨b, List.mem_append_left _ hb, m, hm1, ?_, hme⟩
        simp only [List.length_append, List.length_singleton]
        omega
      · obtain rfl := List.mem_singleton.mp h
        obtain ⟨h1n, h2n⟩ := emit_value_le ps hwfp (a.chain, a.resseq, a.icode) n hfind
        refine ⟨a, List.mem_append_right _ (List.mem_singleton.mpr rfl), n, h1n, ?_, rfl⟩
        simp only [List.length_append, List.length_singleton]
        omega

/-- Stepping the reading pass over one line is determined by that line and
continues identically on any two continuations that agree as functions of the
subsequent state. -/
theorem readGo_cons_cont (cfg : ReadCfg) (l : Line) (xs ys : List Line) (seen : Bool)
    (st : ReadState)
    (h : ∀ (seen2 : Bool) (st2 : ReadState), readGo cfg xs seen2 st2 = readGo cfg ys seen2 st2) :
    readGo cfg (l :: xs) seen st = readGo cfg (l :: ys) seen st := by
  simp only [readGo]
  by_cases h1 : "MODEL".data.isPrefixOf (l.take 6) = true
  · rw [if_pos h1, if_pos h1]
    exact h _ _
  · rw [if_neg h1, if_neg h1]
    by_cases h2 : "ENDMDL".data.isPrefixOf (l.take 6) = true
    · rw [if_pos h2, if_pos h2]
    · rw [if_neg h2, if_neg h2]
      by_cases h3 : l.take 6 = "REMARK".data
      · rw [if_pos h3, if_pos h3]
        exact h _ _
      · rw [if_neg h3, if_neg h3]
        by_cases h4 : l.take 6 = "LINK  ".data
        · rw [if_pos h4, if_pos h4]
          exact h _ _
        · rw [if_neg h4, if_neg h4]
          exact h _ _

/-- A chain-break line is skipped by the reading pass. -/
theorem ter_skip (cfg : ReadCfg) (rest : List Line) (seen : Bool) (st : ReadState) :
    readGo cfg ("TER".data :: rest) seen st = readGo cfg rest seen st := rfl

/-- The terminal END line is skipped by the reading pass. -/
theorem end_skip (cfg : ReadCfg) (rest : List Line) (seen : Bool) (st : ReadState) :
    readGo cfg ("END".data :: rest) seen st = readGo cfg rest seen st := rfl

/-- A block of REMARK lines is appended verbatim to the remark accumulator. -/
theorem readGo_remarks_chunk (cfg : ReadCfg) (rs : List Line)
    (h : ∀ l ∈ rs, l.take 6 = "REMARK".data ∧ rstripNl l = l) :
    ∀ (rest : List Line) (seen : Bool) (st : ReadState),
      readGo cfg (rs ++ rest) seen st =
        readGo cfg rest seen { st with remarks := st.remarks ++ rs } := by
  induction rs with
  | nil =>
    intro rest seen st
    simp
  | cons r rs ih =>
    intro rest seen st
    obtain ⟨h6, hr⟩ := h r (List.mem_cons_self _ _)
    have hm : ("MODEL".data.isPrefixOf (r.take 6)) = false := by
      rw [h6]; decide
    have he : ("ENDMDL".data.isPrefixOf (r.take 6)) = false := by
      rw [h6]; decide
    simp only [List.cons_append, readGo, List.append_eq]
    rw [if_neg (by simp [hm]), if_neg (by simp [he]), if_pos h6, hr,
      ih (fun l hl => h l (List.mem_cons_of_mem _ hl))]
    congr 1
    simp

/-- The chain-break insertion produces an empty list only on an empty input. -/
theorem insertTERGo_ne_nil (ls : List Line) (prev : Option Char) (h : ls ≠ []) :
    insertTERGo ls prev ≠ [] := by
  cases ls with
  | nil => exact absurd rfl h
  | cons l rest =>
    simp only [insertTERGo]
    cases prev with
    | none => simp
    | some p =>
      show (if l.getD 21 ' ' ≠ p then
          "TER".data :: l :: insertTERGo rest (some (l.getD 21 ' '))
        else l :: insertTERGo rest (some (l.getD 21 ' '))) ≠ []
      split <;> simp

/-- Inserted chain-break lines are transparent to the reading pass. -/
theorem readGo_insertTERGo_chunk (cfg : ReadCfg) (ls : List Line) :
    ∀ (prev : Option Char) (rest : List Line) (seen : Bool) (st : ReadState),
      readGo cfg (insertTERGo ls prev ++ rest) seen st =
        readGo cfg (ls ++ rest) seen st := by
  induction ls with
  | nil =>
    intro prev rest seen st
    rfl
  | cons l ls ih =>
    intro prev rest seen st
    simp only [insertTERGo]
    cases prev with
    | none =>
      simp only [List.cons_append]
      exact readGo_cons_cont cfg l _ _ seen st
        (fun s2 st2 => ih (some (l.getD 21 ' ')) rest s2 st2)
    | some p =>
      show readGo cfg ((if l.getD 21 ' ' ≠ p then
          "TER".data :: l :: insertTERGo ls (some (l.getD 21 ' '))
        else l :: insertTERGo ls (some (l.getD 21 ' '))) ++ rest) seen st =
        readGo cfg ((l :: ls) ++ rest) seen st
      by_cases hne : l.getD 21 ' ' ≠ p
      · rw [if_pos hne]
        simp only [List.cons_append]
        rw [ter_skip]
        exact readGo_cons_cont cfg l _ _ seen st
          (fun s2 st2 => ih (some (l.getD 21 ' ')) rest s2 st2)
      · rw [if_neg hne]
        simp only [List.cons_append]
        exact readGo_cons_cont cfg l _ _ seen st
          (fun s2 st2 => ih (some (l.getD 21 ' ')) rest s2 st2)

/-- A block of well-formed emitted atom lines is appended (re-parsed) to the
protein accumulator, and to nothing else. -/
theorem readGo_atoms_chunk (cfg2 : ReadCfg) (hch : cfg2.chains = none) (es : List Line)
    (h : ∀ e ∈ es, ∃ q : Atom, parseAtomLine e = some q ∧ q.rcd = "ATOM  ".data ∧
      q.altloc = ' ' ∧ q.raw = e ∧ e.take 6 = "ATOM  ".data ∧ blankAltloc e = e ∧
      (cfg2.drop_h && is_h q) = false) :
    ∀ (rest : List Line) (seen : Bool) (st : ReadState), ∃ P : List Atom,
      readGo cfg2 (es ++ rest) seen st =
        readGo cfg2 rest seen { st with protein := st.protein ++ P } ∧
      P.map Atom.raw = es := by
  induction es with
  | nil =>
    intro rest seen st
    exact ⟨[], by simp, rfl⟩
  | cons e es ih =>
    intro rest seen st
    obtain ⟨q, hpq, hrcd, halq, hraw, h6, hbl, hh⟩ := h e (List.mem_cons_self _ _)
    have hm : ("MODEL".data.isPrefixOf (e.take 6)) = false := by
      rw [h6]; decide
    have hem : ("ENDMDL".data.isPrefixOf (e.take 6)) = false := by
      rw [h6]; decide
    have hrem : ¬ e.take 6 = "REMARK".data := by
      rw [h6]; decide
    have hlnk : ¬ e.take 6 = "LINK  ".data := by
      rw [h6]; decide
    have hstep : readAtomStep cfg2 st e = { st with protein := st.protein ++ [q] } := by
      simp only [readAtomStep, hpq]
      have hacc : accept_altloc cfg2.keep_altloc q.altloc = true := by
        rw [halq]
        simp [accept_altloc]
      have hcond : (match cfg2.chains with
          | some cs => decide (q.chain ∈ cs)
          | none => true) = true := by
        rw [hch]
      rw [if_neg (by simp [hacc]), if_neg (by simp [hh]), if_pos hrcd, if_pos hcond]
      have hqq : { q with raw := blankAltloc q.raw } = q := by
        rw [hraw, hbl, ← hraw]
      rw [hqq]
    obtain ⟨P2, hP1, hP2⟩ := ih (fun x hx => h x (List.mem_cons_of_mem _ hx)) rest seen
      { st with protein := st.protein ++ [q] }
    refine ⟨q :: P2, ?_, by simp [hP2, hraw]⟩
    simp only [List.cons_append, readGo, List.append_eq]
    rw [if_neg (by simp [hm]), if_neg (by simp [hem]), if_neg hrem, if_neg hlnk, hstep, hP1]
    congr 1
    simp

end RereadMachinery

section SecondPass

/-- Updating an association list only introduces the written pair. -/
theorem assocSet_mem_elim {α β : Type} [DecidableEq α] (m : List (α × β)) (k : α) (v : β) :
    ∀ e ∈ assocSet m k v, e = (k, v) ∨ e ∈ m := by
  induction m with
  | nil =>
    intro e he
    simp only [assocSet, List.mem_singleton] at he
    exact Or.inl he
  | cons kv m ih =>
    intro e he
    obtain ⟨k0, v0⟩ := kv
    simp only [assocSet] at he
    split at he
    · rename_i heq
      rcases List.mem_cons.mp he with h | h
      · exact Or.inl (by rw [h, heq])
      · exact Or.inr (List.mem_cons_of_mem _ h)
    · rcases List.mem_cons.mp he with h | h
      · exact Or.inr (by rw [h]; exact List.mem_cons_self _ _)
      · rcases ih e h with h2 | h2
        · exact Or.inl h2
        · exact Or.inr (List.mem_cons_of_mem _ h2)

/-- With no ligand atoms, every recorded best distance is the sentinel. -/
theorem resBest_empty_lig (protein : List Atom) :
    ∀ ent ∈ resBest protein [], ent.2 = (SENT2, sentLig) := by
  induction protein using List.reverseRecOn with
  | nil =>
    intro ent he
    simp [resBest] at he
  | append_singleton ps a ih =>
    intro ent he
    rw [resBest_append] at he
    simp only [resBestStep, innerFold] at he
    rcases assocSet_mem_elim _ _ _ ent he with h | h
    · rcases hf : assocFind (resBest ps []) (ridOf a) with _ | v
      · rw [hf] at h
        rw [h]
        rfl
      · rw [hf] at h
        rw [h]
        simp only [Option.getD_some]
        obtain ⟨pr, hpr1, hpr2⟩ : ∃ pr, List.find?
            (fun q => decide (q.1 = ridOf a)) (resBest ps []) = some pr ∧ pr.2 = v := by
          unfold assocFind at hf
          rcases hfind2 : List.find? (fun q => decide (q.1 = ridOf a)) (resBest ps [])
            with _ | pr
          · rw [hfind2] at hf
            simp at hf
          · rw [hfind2] at hf
            exact ⟨pr, hfind2, by simpa using hf⟩
        rw [← hpr2]
        exact ih pr (List.mem_of_find?_eq_some hpr1)
    · exact ih ent h

/-- With no ligand atoms, the contact list is empty: the sentinel ligand name
is empty, so the truthiness guard rejects every entry. -/
theorem contactItems_empty_lig (protein : List Atom) (cutoff : ℚ) :
    contactItems (resBest protein []) cutoff = [] := by
  rw [contactItems, List.filter_eq_nil_iff.mpr]
  intro ent hent
  have h2 := resBest_empty_lig protein ent hent
  simp [contactKeep, h2, sentLig]

/-- With no ligand atoms, the sorted contact report is empty. -/
theorem sortedContacts_empty_lig (protein : List Atom) (cutoff : ℚ) :
    sortedContacts (resBest protein []) cutoff = [] := by
  rw [sortedContacts, contactItems_empty_lig]
  rfl

/-- Every emitted atom line re-parses to a record that matches its source atom
outside the altloc and (when renumbering) residue-number columns; the line is
a full-width ATOM record with blank altloc, transparent to altloc blanking. -/
theorem out_lines_fact (cfg : Config) (lines : List Line)
    (hb : cfg.renumber = true → (readPass cfg.read lines).protein.length ≤ 9999) :
    ∀ e ∈ (emitFold cfg.renumber (readPass cfg.read lines).protein).out,
      ∃ q : Atom, parseAtomLine e = some q ∧ q.rcd = "ATOM  ".data ∧
        q.altloc = ' ' ∧ q.raw = e ∧ e.take 6 = "ATOM  ".data ∧ blankAltloc e = e ∧
        (cfg.drop_h && is_h q) = false := by
  have hcommon : ∀ a ∈ (readPass cfg.read lines).protein, (cfg.drop_h && is_h a) = false := by
    intro a ha
    rcases hdh : cfg.drop_h with _ | _
    · simp [hdh]
    · have h2 := readGo_no_h cfg.read hdh lines false ⟨[], [], [], []⟩
        (by intro x hx; simp at hx) a (List.mem_append_left _ ha)
      simp [hdh, h2]
  cases hcr : cfg.renumber with
  | false =>
    rw [emitFold_false_out _ (fun a ha => (protein_atom_wf cfg.read lines a ha).2.1)]
    intro e he
    obtain ⟨a, ha, rfl⟩ := List.mem_map.mp he
    obtain ⟨p, l0, hp, hae, hrcd⟩ := protein_atom_src cfg.read lines a ha
    obtain ⟨hg, hq2, hx, hy, hz, hrec⟩ := parseAtomLine_inv l0 p hp
    have hpraw : p.raw = safePad l0 80 := congrArg Atom.raw hrec
    subst hae
    have he2 : Atom.raw { p with raw := blankAltloc p.raw } = blankAltloc (safePad l0 80) := by
      rw [← hpraw]
    rw [he2]
    have hL80 := safePad_length l0 80
    have hYlen : (blankAltloc (safePad l0 80)).length = (safePad l0 80).length :=
      blankAltloc_length _ (by omega)
    have hprcd : p.rcd = pySlice (safePad l0 80) 0 6 := congrArg Atom.rcd hrec
    refine ⟨{ p with altloc := ' ', raw := blankAltloc (safePad l0 80) },
      reparse_blank l0 p hp, hrcd, rfl, rfl, ?_, ?_, ?_⟩
    · rw [← pySlice_zero, blankAltloc_pySlice_low _ 0 6 (by omega) (by omega), ← hprcd]
      exact hrcd
    · exact blankAltloc_of_blank _ (by omega) (blankAltloc_at16 _ (by omega))
    · show (cfg.drop_h && is_h { p with raw := blankAltloc p.raw }) = false
      exact hcommon _ ha
  | true =>
    intro e he
    obtain ⟨a, ha, n, h1n, h2n, rfl⟩ :=
      emit_out_true_elim _ (fun b hb2 => protein_atom_wf cfg.read lines b hb2) e he
    obtain ⟨p, l0, hp, hae, hrcd⟩ := protein_atom_src cfg.read lines a ha
    obtain ⟨hg, hq2, hx, hy, hz, hrec⟩ := parseAtomLine_inv l0 p hp
    have hpraw : p.raw = safePad l0 80 := congrArg Atom.raw hrec
    have h2n9 : n ≤ 9999 := le_trans h2n (hb hcr)
    subst hae
    have he2 : lineSetNum (Atom.raw { p with raw := blankAltloc p.raw }) n =
        lineSetNum (blankAltloc (safePad l0 80)) n := by
      rw [← hpraw]
    rw [he2]
    have hL80 := safePad_length l0 80
    have hYlen : (blankAltloc (safePad l0 80)).length = (safePad l0 80).length :=
      blankAltloc_length _ (by omega)
    have hElen : (lineSetNum (blankAltloc (safePad l0 80)) n).length =
        (blankAltloc (safePad l0 80)).length :=
      lineSetNum_length _ n (by omega) h2n9
    have hprcd : p.rcd = pySlice (safePad l0 80) 0 6 := congrArg Atom.rcd hrec
    refine ⟨{ p with altloc := ' ', resseq := (n : Int), raw := lineSetNum (blankAltloc (safePad l0 80)) n }, reparse_renum l0 p hp n h1n h2n9, hrcd, rfl, rfl, ?_, ?_, ?_⟩
    · rw [← pySlice_zero, lineSetNum_pySlice_low _ n 0 6 (by omega) (by omega),
        blankAltloc_pySlice_low _ 0 6 (by omega) (by omega), ← hprcd]
      exact hrcd
    · refine blankAltloc_of_blank _ (by omega) ?_
      rw [lineSetNum_pyAt_low _ n 16 (by omega) (by omega)]
      exact blankAltloc_at16 _ (by omega)
    · show (cfg.drop_h && is_h { p with raw := blankAltloc p.raw }) = false
      exact hcommon _ ha

/-- Re-reading a cleaned file: the remark block passes through verbatim, no
links or ligands are collected, and the protein stream stores exactly the
emitted atom lines. -/
theorem readPass_reread (cfg2 : ReadCfg) (hch : cfg2.chains = none)
    (rs outl : List Line)
    (hrs : ∀ l ∈ rs, l.take 6 = "REMARK".data ∧ rstripNl l = l)
    (hout : ∀ e ∈ outl, ∃ q : Atom, parseAtomLine e = some q ∧ q.rcd = "ATOM  ".data ∧
      q.altloc = ' ' ∧ q.raw = e ∧ e.take 6 = "ATOM  ".data ∧ blankAltloc e = e ∧
      (cfg2.drop_h && is_h q) = false) :
    ∃ P : List Atom,
      readPass cfg2 (rs ++ (insertTER outl ++ ["END".data])) = ⟨rs, [], P, []⟩ ∧
      P.map Atom.raw = outl := by
  unfold readPass
  rw [readGo_remarks_chunk cfg2 rs hrs (insertTER outl ++ ["END".data]) false ⟨[], [], [], []⟩]
  have hst : ({ (⟨[], [], [], []⟩ : ReadState) with
      remarks := (⟨[], [], [], []⟩ : ReadState).remarks ++ rs }) = (⟨rs, [], [], []⟩ : ReadState) := by
    simp
  rw [hst]
  by_cases hemp : outl = []
  · subst hemp
    refine ⟨[], ?_, rfl⟩
    rw [show insertTER ([] : List Line) = [] from rfl]
    simp only [List.nil_append]
    rw [end_skip]
    rfl
  · have hgo_ne : insertTERGo outl none ≠ [] := insertTERGo_ne_nil outl none hemp
    have hit : insertTER outl = insertTERGo outl none ++ ["TER".data] := by
      simp only [insertTER]
      rw [if_neg (by simp [List.isEmpty_iff, hgo_ne])]
    rw [hit, List.append_assoc, readGo_insertTERGo_chunk cfg2 outl none _ false _]
    obtain ⟨P, hP1, hP2⟩ := readGo_atoms_chunk cfg2 hch outl hout
      ("TER".data :: ["END".data]) false ⟨rs, [], [], []⟩
    rw [show (["TER".data] ++ ["END".data] : List Line) = "TER".data :: ["END".data] from rfl,
      hP1, ter_skip, end_skip]
    exact ⟨P, by simp [readGo], hP2⟩

end SecondPass

section C8Support

/-- Projection of a reading-state literal. -/
theorem readState_mk_remarks (r k : List Line) (p q : List Atom) :
    (ReadState.mk r k p q).remarks = r := rfl

/-- Projection of a reading-state literal. -/
theorem readState_mk_links (r k : List Line) (p q : List Atom) :
    (ReadState.mk r k p q).links = k := rfl

/-- Projection of a reading-state literal. -/
theorem readState_mk_protein (r k : List Line) (p q : List Atom) :
    (ReadState.mk r k p q).protein = p := rfl

/-- Projection of a reading-state literal. -/
theorem readState_mk_ligand (r k : List Line) (p q : List Atom) :
    (ReadState.mk r k p q).ligand = q := rfl

end C8Support

/-- Claim C8: re-running the cleaning pass on its own output — with no chain
or ligand filters, renumbering off, hydrogen dropping as before and no
accessibility table — reproduces that output exactly (so in particular only
altloc normalisation and chain-break placement could ever differ, and they do
not): every remark, link echo, occlusion and hotspot stanza of the first run
passes through as a REMARK line, ligand atoms are never re-emitted as
structural records so the second pass retains no ligands and reports no
occlusions of its own, and every emitted ATOM line re-parses to the atom that
produced it. The renumber bound keeps the first run's numbers inside the
four-wide column field. -/
theorem C8_idempotent (cfg : Config) (lines : List Line) (cut2 : ℚ) (ka2 : Char)
    (hb : cfg.renumber = true → (readPass cfg.read lines).protein.length ≤ 9999) :
    (readPass (⟨none, none, ka2, cfg.drop_h⟩ : ReadCfg) (cleanOutput cfg lines)).ligand = [] ∧
    cleanOutput (⟨none, none, cut2, false, ka2, cfg.drop_h, none, none⟩ : Config)
      (cleanOutput cfg lines) = cleanOutput cfg lines := by
  have hform : cleanOutput cfg lines =
      ((readPass cfg.read lines).remarks ++
        (linkRemarks (readPass cfg.read lines).links ++
          occlusionRemarks (sortedContacts (resBest (readPass cfg.read lines).protein
            (ligXyz (readPass cfg.read lines).ligand)) cfg.ligand_cutoff) ++
          (match cfg.dssp, cfg.rsa_threshold with
           | some t, some th =>
             hotspotRemarks t.hasAA t.hasASA
               (hotspotRows cfg.renumber t.rows cfg.chains th
                 (occludedSimple (sortedContacts (resBest (readPass cfg.read lines).protein
                   (ligXyz (readPass cfg.read lines).ligand)) cfg.ligand_cutoff)))
           | _, _ => []))) ++
      (insertTER (emitFold cfg.renumber (readPass cfg.read lines).protein).out ++
        ["END".data]) := by
    simp only [cleanOutput]
    simp [List.append_assoc]
  have hhot : ∀ x ∈ (match cfg.dssp, cfg.rsa_threshold with
      | some t, some th =>
        hotspotRemarks t.hasAA t.hasASA
          (hotspotRows cfg.renumber t.rows cfg.chains th
            (occludedSimple (sortedContacts (resBest (readPass cfg.read lines).protein
              (ligXyz (readPass cfg.read lines).ligand)) cfg.ligand_cutoff)))
      | _, _ => ([] : List Line)), ∃ pl, x = remarkLine pl := by
    intro x hx
    rcases hds : cfg.dssp with _ | t
    · rw [hds] at hx
      exact absurd hx (List.not_mem_nil x)
    · rw [hds] at hx
      rcases hrt : cfg.rsa_threshold with _ | th
      · rw [hrt] at hx
        exact absurd hx (List.not_mem_nil x)
      · rw [hrt] at hx
        exact hotspot_lines_remark _ _ _ x hx
  have hrs : ∀ l ∈ ((readPass cfg.read lines).remarks ++
      (linkRemarks (readPass cfg.read lines).links ++
        occlusionRemarks (sortedContacts (resBest (readPass cfg.read lines).protein
          (ligXyz (readPass cfg.read lines).ligand)) cfg.ligand_cutoff) ++
        (match cfg.dssp, cfg.rsa_threshold with
         | some t, some th =>
           hotspotRemarks t.hasAA t.hasASA
             (hotspotRows cfg.renumber t.rows cfg.chains th
               (occludedSimple (sortedContacts (resBest (readPass cfg.read lines).protein
                 (ligXyz (readPass cfg.read lines).ligand)) cfg.ligand_cutoff)))
         | _, _ => []))),
      l.take 6 = "REMARK".data ∧ rstripNl l = l := by
    intro l hl
    rcases List.mem_append.mp hl with h | h
    · exact readPass_remark_facts cfg.read lines l h
    · obtain ⟨pl, rfl⟩ := extra_lines_remark _ _ _ hhot l h
      exact ⟨remarkLine_take6 pl, rstripNl_remarkLine pl⟩
  obtain ⟨P, hP1, hP2⟩ := readPass_reread (⟨none, none, ka2, cfg.drop_h⟩ : ReadCfg) rfl
    ((readPass cfg.read lines).remarks ++
      (linkRemarks (readPass cfg.read lines).links ++
        occlusionRemarks (sortedContacts (resBest (readPass cfg.read lines).protein
          (ligXyz (readPass cfg.read lines).ligand)) cfg.ligand_cutoff) ++
        (match cfg.dssp, cfg.rsa_threshold with
         | some t, some th =>
           hotspotRemarks t.hasAA t.hasASA
             (hotspotRows cfg.renumber t.rows cfg.chains th
               (occludedSimple (sortedContacts (resBest (readPass cfg.read lines).protein
                 (ligXyz (readPass cfg.read lines).ligand)) cfg.ligand_cutoff)))
         | _, _ => [])))
    ((emitFold cfg.renumber (readPass cfg.read lines).protein).out)
    hrs (out_lines_fact cfg lines hb)
  rw [← hform] at hP1
  have hwq2 : ∀ a ∈ P, pyInt (pySlice a.raw 22 26) = some a.resseq := by
    intro a ha
    have ha2 : a ∈ (readPass (⟨none, none, ka2, cfg.drop_h⟩ : ReadCfg)
        (cleanOutput cfg lines)).protein := by
      rw [hP1]
      exact ha
    exact (protein_atom_wf _ _ a ha2).2.1
  constructor
  · rw [hP1]
  · rw [cleanOutput_decomp (⟨none, none, cut2, false, ka2, cfg.drop_h, none, none⟩ : Config)
      (cleanOutput cfg lines) (Or.inl rfl)]
    have hread2 : (⟨none, none, cut2, false, ka2, cfg.drop_h, none, none⟩ : Config).read =
        (⟨none, none, ka2, cfg.drop_h⟩ : ReadCfg) := rfl
    have hren2 : (⟨none, none, cut2, false, ka2, cfg.drop_h, none, none⟩ : Config).renumber =
        false := rfl
    have hcut2 : (⟨none, none, cut2, false, ka2, cfg.drop_h, none, none⟩ : Config).ligand_cutoff =
        cut2 := rfl
    rw [hread2, hren2, hcut2, hP1, readState_mk_remarks, readState_mk_links,
      readState_mk_protein, readState_mk_ligand,
      show ligXyz ([] : List Atom) = [] from rfl, sortedContacts_empty_lig P cut2,
      show linkRemarks ([] : List Line) = [] from rfl,
      show occlusionRemarks ([] : List (ResKey × (ℚ × LigKey))) = [] from rfl,
      emitFold_false_out P hwq2, hP2, hform]
    simp [List.append_assoc]

/-- Witness for C8 at a concrete run: a two-residue chain-A file cleaned with
renumbering on; re-cleaning the output with no filters and renumbering off
retains no ligands and reproduces the file exactly. -/
theorem C8_idempotent_witness :
    (readPass (⟨none, none, 'A', true⟩ : ReadCfg)
      (cleanOutput (⟨none, none, 4, true, 'A', true, none, none⟩ : Config)
        ["ATOM      1  CA  ALA A   5      11.000  12.000  13.000".data,
         "ATOM      2  CA  GLY A   7      14.000  12.000  13.000".data])).ligand = [] ∧
    cleanOutput (⟨none, none, 4, false, 'A', true, none, none⟩ : Config)
      (cleanOutput (⟨none, none, 4, true, 'A', true, none, none⟩ : Config)
        ["ATOM      1  CA  ALA A   5      11.000  12.000  13.000".data,
         "ATOM      2  CA  GLY A   7      14.000  12.000  13.000".data]) =
      cleanOutput (⟨none, none, 4, true, 'A', true, none, none⟩ : Config)
        ["ATOM      1  CA  ALA A   5      11.000  12.000  13.000".data,
         "ATOM      2  CA  GLY A   7      14.000  12.000  13.000".data] :=
  C8_idempotent (⟨none, none, 4, true, 'A', true, none, none⟩ : Config)
    ["ATOM      1  CA  ALA A   5      11.000  12.000  13.000".data,
     "ATOM      2  CA  GLY A   7      14.000  12.000  13.000".data] 4 'A'
    (fun _ => by decide)

end CleanTarget
